import Mathlib

/-!
# Uzebox Mode 3 scrolling guide: toroidal viewport refresh

A shallow embedding of `horiz.c`, `vert.c` and `horiz-vert.c`.

* The target is an AVR (avr-gcc): `int` is 16 bits wide, so every integer
  promotion lands in 16-bit arithmetic.  Machine integers are values of `Int`
  and every conversion to a C type is an explicit wrap (`u8`, `u16`, `i16`).
* The kernel globals (`vram`, `Screen.scrollX`, `Screen.scrollY`) are the
  record `Hw`; `Hw.calls` additionally logs every `SetTile` call together
  with the `Level_getTileAt` query that produced its tile.
* The drawing routines return the `SetTile` calls they issue, in program
  order; `Hw.setTiles` executes such a sequence on the kernel state.
* `SCREEN_TILES_H` and `SCREEN_TILES_V` come from the build configuration,
  which is not part of the sources; they are parameters here.
-/

namespace Uzebox

/-! ## Machine integers -/

/-- Conversion to `uint8_t`. -/
def u8 (n : Int) : Int := n % 256

/-- Conversion to `uint16_t` (also `unsigned int` on this target). -/
def u16 (n : Int) : Int := n % 65536

/-- Conversion to `int16_t` (also `int` on this target), two's complement. -/
def i16 (n : Int) : Int := (n + 32768) % 65536 - 32768

/-- C `~` on a 16-bit `int`. -/
def bnot (a : Int) : Int := -a - 1

/-- C `&` on two 16-bit `int` operands, computed on their bit patterns. -/
def band (a b : Int) : Int := i16 (Nat.land (u16 a).toNat (u16 b).toNat)

/-! ## Kernel constants and kernel state -/

/-- Modelled from the spec: `TILE_WIDTH` of the Uzebox kernel headers (8-unit tiles). -/
def TILE_WIDTH : Int := 8

/-- Modelled from the spec: `TILE_HEIGHT` of the Uzebox kernel headers (8-unit tiles). -/
def TILE_HEIGHT : Int := 8

/-- Modelled from the spec: `VRAM_TILES_H` of the Uzebox kernel headers (buffer width 32). -/
def VRAM_TILES_H : Int := 32

/-- Modelled from the spec: `VRAM_TILES_V` of the Uzebox kernel headers (buffer height 32). -/
def VRAM_TILES_V : Int := 32

/-- Program memory seen from the map pointer: byte `k` is `map[k]`. -/
abbrev Flash := Nat → Fin 256

/-- Byte read from program memory (`pgm_read_byte(&p[k])`), as a value in `0..255`. -/
def pgm_read_byte (p : Flash) (k : Int) : Int := ((p k.toNat).val : Int)

/-- The tile buffer: `vram bx by` is the tile shown in buffer cell `(bx, by)`. -/
abbrev VRAM := Int → Int → Int

/-- Modelled from the spec: the kernel's `SetTile(x, y, tile)`, which is the display
collaborator's `paintCell(bufferX, bufferY, tileID)`: it stores `tile` in cell `(x, y)`. -/
def SetTile (v : VRAM) (x y t : Int) : VRAM :=
  fun a b => if a = x ∧ b = y then t else v a b

/-- One logged `SetTile(x, y, Level_getTileAt(l, index))` call.  `row` and `col` are the
operands of the index expression `row * width + col` before it is reduced to 16 bits. -/
structure TileCall where
  x : Int
  y : Int
  row : Int
  col : Int
  index : Int
  tile : Int
deriving DecidableEq

/-- Kernel state: tile buffer, scroll registers and the log of `SetTile` calls. -/
structure Hw where
  vram : VRAM
  scrollX : Int
  scrollY : Int
  calls : List TileCall

/-- Run a sequence of `SetTile` calls on a tile buffer, first call first. -/
def paintAll (v : VRAM) (cs : List TileCall) : VRAM :=
  cs.foldl (fun v c => SetTile v c.x c.y c.tile) v

/-- Run a sequence of `SetTile` calls on the kernel state and log them. -/
def Hw.setTiles (w : Hw) (cs : List TileCall) : Hw :=
  { w with vram := paintAll w.vram cs, calls := w.calls ++ cs }

/-! ## LEVEL (identical in the three programs) -/

/-- The `LEVEL` struct: `uint16_t width, height, offset` and the map pointer. -/
structure LEVEL where
  width : Int
  height : Int
  offset : Int
  data : Flash

/-- `Level_initFromMap`: read the two header bytes, tiles start at offset 2. -/
def Level_initFromMap (map : Flash) : LEVEL :=
  { width := pgm_read_byte map 0
    height := pgm_read_byte map 1
    offset := 2
    data := map }

/-- `Level_getTileAt`: `pgm_read_byte(&l->data[l->offset + index])`, with `index` a
`uint16_t` parameter and the sum formed in 16-bit unsigned arithmetic. -/
def Level_getTileAt (l : LEVEL) (index : Int) : Int :=
  pgm_read_byte l.data (u16 (l.offset + u16 index))

/-- The call `SetTile(x, y, Level_getTileAt(l, row * l->width + col))`; the index is
formed in 16-bit unsigned arithmetic. -/
def tileCall (l : LEVEL) (x y row col : Int) : TileCall :=
  { x := x
    y := y
    row := row
    col := col
    index := u16 (row * l.width + col)
    tile := Level_getTileAt l (u16 (row * l.width + col)) }

/-! ## horiz-vert.c -/

namespace HorizVert

/-- The `for (uint8_t i = 0; i < VRAM_TILES_V - 2; ++i)` loop of `Level_drawColumn`,
with `n` iterations left and counter `i`; the `break` ends the loop. -/
def Level_drawColumn.loop (l : LEVEL) (tx y realX : Int) : Nat → Int → List TileCall
  | 0, _ => []
  | n + 1, i =>
    if u16 (y + i) > u16 (l.height - 1) then []
    else tileCall l tx (u16 (y + i) % VRAM_TILES_V) (u16 (y + i)) realX
          :: Level_drawColumn.loop l tx y realX n (i + 1)

/-- `Level_drawColumn(l, uint8_t x, uint16_t y, int16_t realX)`. -/
def Level_drawColumn (l : LEVEL) (x y realX : Int) : List TileCall :=
  let x := u8 x
  let y := u16 y
  let realX := i16 realX
  if realX < 0 ∨ u16 realX > u16 (l.width - 1) then []
  else
    let tx := x % VRAM_TILES_H
    Level_drawColumn.loop l tx y realX (VRAM_TILES_V - 2).toNat 0
      ++ (if y > 1 then [tileCall l tx (u16 (y + 30) % VRAM_TILES_V) (i16 y - 2) realX] else [])
      ++ (if y > 0 then [tileCall l tx (u16 (y + 31) % VRAM_TILES_V) (i16 y - 1) realX] else [])

/-- The `for (uint8_t i = 0; i < VRAM_TILES_H - 2; ++i)` loop of `Level_drawRow`. -/
def Level_drawRow.loop (l : LEVEL) (x ty realY : Int) : Nat → Int → List TileCall
  | 0, _ => []
  | n + 1, i =>
    if u16 (x + i) > u16 (l.width - 1) then []
    else tileCall l (u16 (x + i) % VRAM_TILES_H) ty realY (u16 (x + i))
          :: Level_drawRow.loop l x ty realY n (i + 1)

/-- `Level_drawRow(l, uint16_t x, uint8_t y, int16_t realY)`. -/
def Level_drawRow (l : LEVEL) (x y realY : Int) : List TileCall :=
  let x := u16 x
  let y := u8 y
  let realY := i16 realY
  if realY < 0 ∨ u16 realY > u16 (l.height - 1) then []
  else
    let ty := y % VRAM_TILES_V
    Level_drawRow.loop l x ty realY (VRAM_TILES_H - 2).toNat 0
      ++ (if x > 1 then [tileCall l (u16 (x + 30) % VRAM_TILES_H) ty realY (i16 x - 2)] else [])
      ++ (if x > 0 then [tileCall l (u16 (x + 31) % VRAM_TILES_H) ty realY (i16 x - 1)] else [])

/-- The `CAMERA` struct: `int16_t x, y` and the level it looks at. -/
structure CAMERA where
  x : Int
  y : Int
  level : LEVEL

/-- `Camera_init`: camera at the origin, scroll registers set from it. -/
def Camera_init (l : LEVEL) (w : Hw) : CAMERA × Hw :=
  let c : CAMERA := { x := 0, y := 0, level := l }
  (c, { w with scrollX := u8 c.x, scrollY := u8 c.y })

/-- `Camera_moveTo(c, int16_t x, int16_t y)`: clamp each axis. -/
def Camera_moveTo (SCREEN_TILES_H SCREEN_TILES_V : Nat) (c : CAMERA) (x y : Int) : CAMERA :=
  let x := i16 x
  let y := i16 y
  let cx :=
    if x < 0 then 0
    else
      let xMax := i16 (u16 ((c.level.width - SCREEN_TILES_H) * TILE_WIDTH))
      if x > xMax then xMax else x
  let cy :=
    if y < 0 then 0
    else
      let yMax := i16 (u16 ((c.level.height - SCREEN_TILES_V) * TILE_HEIGHT))
      if y > yMax then yMax else y
  { c with x := cx, y := cy }

/-- The `for (uint8_t i = 0; i < VRAM_TILES_H - 2; ++i)` loop of `Camera_fillVram`. -/
def Camera_fillVram.loop (l : LEVEL) (cxt cyt : Int) : Nat → Int → List TileCall
  | 0, _ => []
  | n + 1, i =>
    Level_drawColumn l (cxt + i) cyt (cxt + i) ++ Camera_fillVram.loop l cxt cyt n (i + 1)

/-- The `SetTile` calls of `Camera_fillVram`, in program order. -/
def Camera_fillVram.calls (c : CAMERA) : List TileCall :=
  let cxt := i16 (Int.tdiv c.x TILE_WIDTH)
  let cyt := i16 (Int.tdiv c.y TILE_HEIGHT)
  Camera_fillVram.loop c.level cxt cyt (VRAM_TILES_H - 2).toNat 0
    ++ Level_drawColumn c.level (cxt + 30) cyt (cxt - 2)
    ++ Level_drawColumn c.level (cxt + 31) cyt (cxt - 1)

/-- `Camera_fillVram`. -/
def Camera_fillVram (c : CAMERA) (w : Hw) : Hw :=
  w.setTiles (Camera_fillVram.calls c)

/-- The X block of `Camera_update`: the calls issued for previous raw offset `prevX`. -/
def Camera_update.xCalls (c : CAMERA) (prevX : Int) : List TileCall :=
  let scrollX := u8 c.x
  let cxt := i16 (Int.tdiv c.x TILE_WIDTH)
  let cyt := i16 (Int.tdiv c.y TILE_HEIGHT)
  if band prevX (bnot (TILE_WIDTH - 1)) ≠ band scrollX (bnot (TILE_WIDTH - 1)) then
    if u8 (scrollX - prevX) < u8 (prevX - scrollX) then
      Level_drawColumn c.level (cxt + 29) cyt (cxt + 29)
    else
      Level_drawColumn c.level (cxt + 30) cyt (cxt - 2)
  else []

/-- The Y block of `Camera_update`: the calls issued for previous raw offset `prevY`. -/
def Camera_update.yCalls (c : CAMERA) (prevY : Int) : List TileCall :=
  let scrollY := u8 c.y
  let cxt := i16 (Int.tdiv c.x TILE_WIDTH)
  let cyt := i16 (Int.tdiv c.y TILE_HEIGHT)
  if band prevY (bnot (TILE_HEIGHT - 1)) ≠ band scrollY (bnot (TILE_HEIGHT - 1)) then
    if u8 (scrollY - prevY) < u8 (prevY - scrollY) then
      Level_drawRow c.level cxt (cyt + 29) (cyt + 29)
    else
      Level_drawRow c.level cxt (cyt + 30) (cyt - 2)
  else []

/-- `Camera_update`: latch the scroll registers, then the X block, then the Y block. -/
def Camera_update (c : CAMERA) (w : Hw) : Hw :=
  let prevX := w.scrollX
  let prevY := w.scrollY
  Hw.setTiles { w with scrollX := u8 c.x, scrollY := u8 c.y }
    (Camera_update.xCalls c prevX ++ Camera_update.yCalls c prevY)

end HorizVert

/-! ## horiz.c -/

namespace Horiz

/-- The `for (uint8_t i = 0; i < SCREEN_TILES_V; ++i)` loop of `Level_drawColumn`, with `n`
iterations left and counter `i`; it is started with `n = SCREEN_TILES_V`, which is the
loop of the C code when `SCREEN_TILES_V <= 255` (the counter is a `uint8_t`). -/
def Level_drawColumn.loop (l : LEVEL) (tx realX : Int) : Nat → Int → List TileCall
  | 0, _ => []
  | n + 1, i => tileCall l tx i i realX :: Level_drawColumn.loop l tx realX n (i + 1)

/-- `Level_drawColumn(l, uint8_t x, int16_t realX)`. -/
def Level_drawColumn (SCREEN_TILES_V : Nat) (l : LEVEL) (x realX : Int) : List TileCall :=
  let x := u8 x
  let realX := i16 realX
  if realX < 0 ∨ u16 realX > u16 (l.width - 1) then []
  else Level_drawColumn.loop l (x % VRAM_TILES_H) realX SCREEN_TILES_V 0

/-- The `CAMERA` struct of `horiz.c`. -/
structure CAMERA where
  x : Int
  level : LEVEL

/-- `Camera_init`. -/
def Camera_init (l : LEVEL) (w : Hw) : CAMERA × Hw :=
  let c : CAMERA := { x := 0, level := l }
  (c, { w with scrollX := u8 c.x, scrollY := 0 })

/-- `Camera_moveTo(c, int16_t x)`. -/
def Camera_moveTo (SCREEN_TILES_H : Nat) (c : CAMERA) (x : Int) : CAMERA :=
  let x := i16 x
  let cx :=
    if x < 0 then 0
    else
      let xMax := i16 (u16 ((c.level.width - SCREEN_TILES_H) * TILE_WIDTH))
      if x > xMax then xMax else x
  { c with x := cx }

/-- The `for (uint8_t i = 0; i < VRAM_TILES_H - 2; ++i)` loop of `Camera_fillVram`. -/
def Camera_fillVram.loop (SCREEN_TILES_V : Nat) (l : LEVEL) (cxt : Int) :
    Nat → Int → List TileCall
  | 0, _ => []
  | n + 1, i =>
    Level_drawColumn SCREEN_TILES_V l (cxt + i) (cxt + i)
      ++ Camera_fillVram.loop SCREEN_TILES_V l cxt n (i + 1)

/-- The `SetTile` calls of `Camera_fillVram`, in program order. -/
def Camera_fillVram.calls (SCREEN_TILES_V : Nat) (c : CAMERA) : List TileCall :=
  let cxt := i16 (Int.tdiv c.x TILE_WIDTH)
  Camera_fillVram.loop SCREEN_TILES_V c.level cxt (VRAM_TILES_H - 2).toNat 0
    ++ Level_drawColumn SCREEN_TILES_V c.level (cxt + 30) (cxt - 2)
    ++ Level_drawColumn SCREEN_TILES_V c.level (cxt + 31) (cxt - 1)

/-- `Camera_fillVram`. -/
def Camera_fillVram (SCREEN_TILES_V : Nat) (c : CAMERA) (w : Hw) : Hw :=
  w.setTiles (Camera_fillVram.calls SCREEN_TILES_V c)

/-- The calls of `Camera_update` for previous raw offset `prevX`. -/
def Camera_update.xCalls (SCREEN_TILES_V : Nat) (c : CAMERA) (prevX : Int) : List TileCall :=
  let scrollX := u8 c.x
  if band prevX (bnot (TILE_WIDTH - 1)) ≠ band scrollX (bnot (TILE_WIDTH - 1)) then
    let cxt := i16 (Int.tdiv c.x TILE_WIDTH)
    if u8 (scrollX - prevX) < u8 (prevX - scrollX) then
      Level_drawColumn SCREEN_TILES_V c.level (cxt + 29) (cxt + 29)
    else
      Level_drawColumn SCREEN_TILES_V c.level (cxt + 30) (cxt - 2)
  else []

/-- `Camera_update`. -/
def Camera_update (SCREEN_TILES_V : Nat) (c : CAMERA) (w : Hw) : Hw :=
  let prevX := w.scrollX
  Hw.setTiles { w with scrollX := u8 c.x } (Camera_update.xCalls SCREEN_TILES_V c prevX)

end Horiz

/-! ## vert.c -/

namespace Vert

/-- The `for (uint8_t i = 0; i < SCREEN_TILES_H; ++i)` loop of `Level_drawRow`, with `n`
iterations left and counter `i`; it is started with `n = SCREEN_TILES_H`, which is the
loop of the C code when `SCREEN_TILES_H <= 255` (the counter is a `uint8_t`). -/
def Level_drawRow.loop (l : LEVEL) (ty realY : Int) : Nat → Int → List TileCall
  | 0, _ => []
  | n + 1, i => tileCall l i ty realY i :: Level_drawRow.loop l ty realY n (i + 1)

/-- `Level_drawRow(l, uint8_t y, int16_t realY)`. -/
def Level_drawRow (SCREEN_TILES_H : Nat) (l : LEVEL) (y realY : Int) : List TileCall :=
  let y := u8 y
  let realY := i16 realY
  if realY < 0 ∨ u16 realY > u16 (l.height - 1) then []
  else Level_drawRow.loop l (y % VRAM_TILES_V) realY SCREEN_TILES_H 0

/-- The `CAMERA` struct of `vert.c`. -/
structure CAMERA where
  y : Int
  level : LEVEL

/-- `Camera_init`. -/
def Camera_init (l : LEVEL) (w : Hw) : CAMERA × Hw :=
  let c : CAMERA := { y := 0, level := l }
  (c, { w with scrollX := 0, scrollY := u8 c.y })

/-- `Camera_moveTo(c, int16_t y)`. -/
def Camera_moveTo (SCREEN_TILES_V : Nat) (c : CAMERA) (y : Int) : CAMERA :=
  let y := i16 y
  let cy :=
    if y < 0 then 0
    else
      let yMax := i16 (u16 ((c.level.height - SCREEN_TILES_V) * TILE_HEIGHT))
      if y > yMax then yMax else y
  { c with y := cy }

/-- The `for (uint8_t i = 0; i < VRAM_TILES_V - 2; ++i)` loop of `Camera_fillVram`. -/
def Camera_fillVram.loop (SCREEN_TILES_H : Nat) (l : LEVEL) (cyt : Int) :
    Nat → Int → List TileCall
  | 0, _ => []
  | n + 1, i =>
    Level_drawRow SCREEN_TILES_H l (cyt + i) (cyt + i)
      ++ Camera_fillVram.loop SCREEN_TILES_H l cyt n (i + 1)

/-- The `SetTile` calls of `Camera_fillVram`, in program order. -/
def Camera_fillVram.calls (SCREEN_TILES_H : Nat) (c : CAMERA) : List TileCall :=
  let cyt := i16 (Int.tdiv c.y TILE_HEIGHT)
  Camera_fillVram.loop SCREEN_TILES_H c.level cyt (VRAM_TILES_V - 2).toNat 0
    ++ Level_drawRow SCREEN_TILES_H c.level (cyt + 30) (cyt - 2)
    ++ Level_drawRow SCREEN_TILES_H c.level (cyt + 31) (cyt - 1)

/-- `Camera_fillVram`. -/
def Camera_fillVram (SCREEN_TILES_H : Nat) (c : CAMERA) (w : Hw) : Hw :=
  w.setTiles (Camera_fillVram.calls SCREEN_TILES_H c)

/-- The calls of `Camera_update` for previous raw offset `prevY`. -/
def Camera_update.yCalls (SCREEN_TILES_H : Nat) (c : CAMERA) (prevY : Int) : List TileCall :=
  let scrollY := u8 c.y
  if band prevY (bnot (TILE_HEIGHT - 1)) ≠ band scrollY (bnot (TILE_HEIGHT - 1)) then
    let cyt := i16 (Int.tdiv c.y TILE_HEIGHT)
    if u8 (scrollY - prevY) < u8 (prevY - scrollY) then
      Level_drawRow SCREEN_TILES_H c.level (cyt + 29) (cyt + 29)
    else
      Level_drawRow SCREEN_TILES_H c.level (cyt + 30) (cyt - 2)
  else []

/-- `Camera_update`. -/
def Camera_update (SCREEN_TILES_H : Nat) (c : CAMERA) (w : Hw) : Hw :=
  let prevY := w.scrollY
  Hw.setTiles { w with scrollY := u8 c.y } (Camera_update.yCalls SCREEN_TILES_H c prevY)

end Vert

/-! ## Specification vocabulary -/

/-- A well-formed level as produced by `Level_initFromMap`: tiles start at offset 2 and
both dimensions are non-zero bytes. -/
structure LevelOK (l : LEVEL) : Prop where
  offset_eq : l.offset = 2
  width_pos : 0 < l.width
  width_le : l.width ≤ 255
  height_pos : 0 < l.height
  height_le : l.height ≤ 255

/-- World tile `(wx, wy)` lies inside the map. -/
def InMap (l : LEVEL) (wx wy : Int) : Prop :=
  0 ≤ wx ∧ wx < l.width ∧ 0 ≤ wy ∧ wy < l.height

/-- World tile `(wx, wy)` lies in the 32 x 32 window kept for camera tile `(cxt, cyt)`:
two tiles before the camera tile up to 29 tiles after it, on each axis. -/
def InWindow (cxt cyt wx wy : Int) : Prop :=
  cxt - 2 ≤ wx ∧ wx ≤ cxt + 29 ∧ cyt - 2 ≤ wy ∧ wy ≤ cyt + 29

/-- Buffer consistency for camera tile `(cxt, cyt)`: every in-map world tile of the window
is held by buffer cell `(wx mod 32, wy mod 32)` and equals map byte `2 + wy*width + wx`. -/
def Consistent (l : LEVEL) (cxt cyt : Int) (v : VRAM) : Prop :=
  ∀ wx wy, InMap l wx wy → InWindow cxt cyt wx wy →
    v (wx % 32) (wy % 32) = pgm_read_byte l.data (2 + wy * l.width + wx)

/-- A `SetTile` call is toroidally addressed for camera tile `(cxt, cyt)`: it paints the
cell of an in-map world tile of the window with the tile read at that world position. -/
def Addressed (l : LEVEL) (cxt cyt : Int) (c : TileCall) : Prop :=
  ∃ wx wy, InMap l wx wy ∧ InWindow cxt cyt wx wy ∧
    c = tileCall l (wx % 32) (wy % 32) wy wx

namespace HorizVert

/-- The camera lies in the clamp range of `Camera_moveTo`. -/
def Clamped (SCREEN_TILES_H SCREEN_TILES_V : Nat) (c : CAMERA) : Prop :=
  0 ≤ c.x ∧ c.x ≤ (c.level.width - SCREEN_TILES_H) * TILE_WIDTH ∧
  0 ≤ c.y ∧ c.y ≤ (c.level.height - SCREEN_TILES_V) * TILE_HEIGHT

/-- Program start of `main`: `Level_initFromMap`, `Camera_init`, `Camera_fillVram`. -/
def start (map : Flash) (w : Hw) : CAMERA × Hw :=
  let l := Level_initFromMap map
  let s := Camera_init l w
  (s.1, Camera_fillVram s.1 s.2)

/-- One frame: `Camera_moveTo` to the target, then one `Camera_update`. -/
def frame (SCREEN_TILES_H SCREEN_TILES_V : Nat) (s : CAMERA × Hw) (t : Int × Int) :
    CAMERA × Hw :=
  let c := Camera_moveTo SCREEN_TILES_H SCREEN_TILES_V s.1 t.1 t.2
  (c, Camera_update c s.2)

/-- A finite sequence of frames, one target per frame. -/
def frames (SCREEN_TILES_H SCREEN_TILES_V : Nat) (s : CAMERA × Hw) (ts : List (Int × Int)) :
    CAMERA × Hw :=
  ts.foldl (frame SCREEN_TILES_H SCREEN_TILES_V) s

/-- Every move of the sequence displaces the camera by at most one tile per axis. -/
def SlowMoves (SCREEN_TILES_H SCREEN_TILES_V : Nat) : CAMERA → List (Int × Int) → Prop
  | _, [] => True
  | c, t :: ts =>
    let c1 := Camera_moveTo SCREEN_TILES_H SCREEN_TILES_V c t.1 t.2
    (c1.x - c.x ≤ TILE_WIDTH ∧ c.x - c1.x ≤ TILE_WIDTH) ∧
    (c1.y - c.y ≤ TILE_HEIGHT ∧ c.y - c1.y ≤ TILE_HEIGHT) ∧
    SlowMoves SCREEN_TILES_H SCREEN_TILES_V c1 ts

end HorizVert

namespace HorizVert

/-- An operation of the two-axis program after `Camera_init`. -/
inductive Op where
  | fill : Op
  | move : Int → Int → Op
  | update : Op

/-- Run one operation. -/
def Op.run (SCREEN_TILES_H SCREEN_TILES_V : Nat) (s : CAMERA × Hw) : Op → CAMERA × Hw
  | Op.fill => (s.1, Camera_fillVram s.1 s.2)
  | Op.move x y => (Camera_moveTo SCREEN_TILES_H SCREEN_TILES_V s.1 x y, s.2)
  | Op.update => (s.1, Camera_update s.1 s.2)

/-- Run any interleaving of operations, starting right after `Camera_init` with an
empty call log. -/
def runOps (SCREEN_TILES_H SCREEN_TILES_V : Nat) (map : Flash) (w : Hw) (ops : List Op) :
    CAMERA × Hw :=
  ops.foldl (Op.run SCREEN_TILES_H SCREEN_TILES_V)
    (Camera_init (Level_initFromMap map) { w with calls := [] })

/-- `Camera_update` detects an X tile-boundary crossing (the outer `if` of the X block). -/
def crossX (c : CAMERA) (w : Hw) : Prop :=
  band w.scrollX (bnot (TILE_WIDTH - 1)) ≠ band (u8 c.x) (bnot (TILE_WIDTH - 1))

/-- `Camera_update` detects a Y tile-boundary crossing (the outer `if` of the Y block). -/
def crossY (c : CAMERA) (w : Hw) : Prop :=
  band w.scrollY (bnot (TILE_HEIGHT - 1)) ≠ band (u8 c.y) (bnot (TILE_HEIGHT - 1))

/-- Variant of `Camera_update` following the spec's "in either order": the same two
blocks, but the row redraw is performed before the column redraw. -/
def Camera_update_rowFirst (c : CAMERA) (w : Hw) : Hw :=
  let prevX := w.scrollX
  let prevY := w.scrollY
  Hw.setTiles { w with scrollX := u8 c.x, scrollY := u8 c.y }
    (Camera_update.yCalls c prevY ++ Camera_update.xCalls c prevX)

end HorizVert

namespace Horiz

/-- The camera lies in the clamp range of `Camera_moveTo`. -/
def Clamped (SCREEN_TILES_H : Nat) (c : CAMERA) : Prop :=
  0 ≤ c.x ∧ c.x ≤ (c.level.width - SCREEN_TILES_H) * TILE_WIDTH

/-- A `SetTile` call of the horizontal program is toroidally addressed for camera tile
column `cxt`: it paints cell `(wx mod 32, i)` of an in-map window column `wx` and a screen
row `i` with the tile read at index `i * width + wx`. -/
def Addressed (SCREEN_TILES_V : Nat) (l : LEVEL) (cxt : Int) (c : TileCall) : Prop :=
  ∃ wx i : Int, 0 ≤ wx ∧ wx < l.width ∧ cxt - 2 ≤ wx ∧ wx ≤ cxt + 29 ∧
    0 ≤ i ∧ i < SCREEN_TILES_V ∧ c = tileCall l (wx % 32) i i wx

/-- Buffer consistency of the horizontal program for camera tile column `cxt`. -/
def Consistent (SCREEN_TILES_V : Nat) (l : LEVEL) (cxt : Int) (v : VRAM) : Prop :=
  ∀ wx i : Int, 0 ≤ wx → wx < l.width → cxt - 2 ≤ wx → wx ≤ cxt + 29 →
    0 ≤ i → i < SCREEN_TILES_V → v (wx % 32) i = pgm_read_byte l.data (2 + i * l.width + wx)

/-- Program start of `main`: `Level_initFromMap`, `Camera_init`, `Camera_fillVram`. -/
def start (SCREEN_TILES_V : Nat) (map : Flash) (w : Hw) : CAMERA × Hw :=
  let l := Level_initFromMap map
  let s := Camera_init l w
  (s.1, Camera_fillVram SCREEN_TILES_V s.1 s.2)

/-- One frame: `Camera_moveTo` to the target, then one `Camera_update`. -/
def frame (SCREEN_TILES_H SCREEN_TILES_V : Nat) (s : CAMERA × Hw) (t : Int) : CAMERA × Hw :=
  let c := Camera_moveTo SCREEN_TILES_H s.1 t
  (c, Camera_update SCREEN_TILES_V c s.2)

/-- A finite sequence of frames, one target per frame. -/
def frames (SCREEN_TILES_H SCREEN_TILES_V : Nat) (s : CAMERA × Hw) (ts : List Int) :
    CAMERA × Hw :=
  ts.foldl (frame SCREEN_TILES_H SCREEN_TILES_V) s

/-- Every move of the sequence displaces the camera by at most one tile. -/
def SlowMoves (SCREEN_TILES_H : Nat) : CAMERA → List Int → Prop
  | _, [] => True
  | c, t :: ts =>
    let c1 := Camera_moveTo SCREEN_TILES_H c t
    (c1.x - c.x ≤ TILE_WIDTH ∧ c.x - c1.x ≤ TILE_WIDTH) ∧ SlowMoves SCREEN_TILES_H c1 ts

end Horiz

namespace HorizVert

/-- The state invariant of the frame loop of `main`: the camera is clamped, the scroll
registers hold the truncated camera position and the buffer is consistent. -/
structure Inv (SCREEN_TILES_H SCREEN_TILES_V : Nat) (l : LEVEL) (s : CAMERA × Hw) : Prop where
  level_eq : s.1.level = l
  clamped : Clamped SCREEN_TILES_H SCREEN_TILES_V s.1
  scrollX_eq : s.2.scrollX = u8 s.1.x
  scrollY_eq : s.2.scrollY = u8 s.1.y
  consistent : Consistent l (s.1.x / 8) (s.1.y / 8) s.2.vram

end HorizVert

/-- The `Level_getTileAt` query of a logged call is in range and its index expression
did not wrap. -/
def InRangeQuery (l : LEVEL) (d : TileCall) : Prop :=
  (0 ≤ d.col ∧ d.col < l.width ∧ 0 ≤ d.row ∧ d.row < l.height) ∧
  d.index = d.row * l.width + d.col ∧ (0 ≤ d.index ∧ d.index < l.width * l.height)

namespace Horiz

/-- The state invariant of the frame loop of `main` in `horiz.c`. -/
structure Inv (SCREEN_TILES_H SCREEN_TILES_V : Nat) (l : LEVEL) (s : CAMERA × Hw) : Prop where
  level_eq : s.1.level = l
  clamped : Clamped SCREEN_TILES_H s.1
  scrollX_eq : s.2.scrollX = u8 s.1.x
  consistent : Consistent SCREEN_TILES_V l (s.1.x / 8) s.2.vram

end Horiz

namespace HorizVert

/-- The world column handed to the column redraw of `Camera_update` (its `realX`
argument): `cxt + 29` on the forward branch, `cxt - 2` on the backward branch. -/
def redrawnColumn (c : CAMERA) (w : Hw) : Int :=
  let cxt := i16 (Int.tdiv c.x TILE_WIDTH)
  if u8 (u8 c.x - w.scrollX) < u8 (w.scrollX - u8 c.x) then cxt + 29 else cxt - 2

/-- The world row handed to the row redraw of `Camera_update` (its `realY` argument). -/
def redrawnRow (c : CAMERA) (w : Hw) : Int :=
  let cyt := i16 (Int.tdiv c.y TILE_HEIGHT)
  if u8 (u8 c.y - w.scrollY) < u8 (w.scrollY - u8 c.y) then cyt + 29 else cyt - 2

/-- The buffer column handed to the column redraw of `Camera_update` (its `uint8_t x`
argument reduced modulo `VRAM_TILES_H`, as `Level_drawColumn` does). -/
def redrawnBufferColumn (c : CAMERA) (w : Hw) : Int :=
  let cxt := i16 (Int.tdiv c.x TILE_WIDTH)
  if u8 (u8 c.x - w.scrollX) < u8 (w.scrollX - u8 c.x) then u8 (cxt + 29) % VRAM_TILES_H
  else u8 (cxt + 30) % VRAM_TILES_H

/-- The buffer row handed to the row redraw of `Camera_update`. -/
def redrawnBufferRow (c : CAMERA) (w : Hw) : Int :=
  let cyt := i16 (Int.tdiv c.y TILE_HEIGHT)
  if u8 (u8 c.y - w.scrollY) < u8 (w.scrollY - u8 c.y) then u8 (cyt + 29) % VRAM_TILES_V
  else u8 (cyt + 30) % VRAM_TILES_V

end HorizVert

namespace Horiz

/-- The buffer column handed to the column redraw of `Camera_update` in `horiz.c`. -/
def redrawnBufferColumn (c : CAMERA) (w : Hw) : Int :=
  let cxt := i16 (Int.tdiv c.x TILE_WIDTH)
  if u8 (u8 c.x - w.scrollX) < u8 (w.scrollX - u8 c.x) then u8 (cxt + 29) % VRAM_TILES_H
  else u8 (cxt + 30) % VRAM_TILES_H

end Horiz

/-! ## Concrete inputs used to instantiate the theorems -/

/-- A 40 x 40 map whose tile bytes are `k mod 256` at offset `k`. -/
def demoMap : Flash := fun k => if k < 2 then 40 else Fin.ofNat k

/-- A cleared kernel state. -/
def demoHw : Hw := { vram := fun _ _ => 0, scrollX := 0, scrollY := 0, calls := [] }

/-- A two-axis camera at `(8, 8)` on the demo level. -/
def demoCam : HorizVert.CAMERA := { x := 8, y := 8, level := Level_initFromMap demoMap }

/-- A kernel state whose scroll registers were latched at camera position `(7, 7)`. -/
def demoHwDiag : Hw := { vram := fun _ _ => 0, scrollX := 7, scrollY := 7, calls := [] }

/-! ## Vocabulary for the lookup contract, the main loops and the refinement -/

/-- The error kind of the spec's `tileAt` contract. -/
inductive LookupError where
  | OutOfRange : LookupError

/-- Outcome of a call of the C function `Level_getTileAt`: the function has no failure
path, so every call returns the byte it read. -/
def Level_getTileAt.outcome (l : LEVEL) (index : Int) : Except LookupError Int :=
  Except.ok (Level_getTileAt l index)

/-- The lookup as the spec words it (section 4.1): `tileAt(linearIndex)` fails with
`OutOfRange` if the index exceeds `width*height-1` and is otherwise a pure lookup in the
tile stream that follows the two header bytes. -/
def tileAt_spec (l : LEVEL) (index : Int) : Except LookupError Int :=
  if index > l.width * l.height - 1 then Except.error LookupError.OutOfRange
  else Except.ok (pgm_read_byte l.data (2 + index))

namespace Horiz

/-- One pass of the `main` loop of `horiz.c` with `BTN_RIGHT` held:
`Camera_moveTo(&c, c.x + 1)` followed by `Camera_update(&c)`. -/
def stepRight (SCREEN_TILES_H SCREEN_TILES_V : Nat) (s : CAMERA × Hw) : CAMERA × Hw :=
  frame SCREEN_TILES_H SCREEN_TILES_V s (s.1.x + 1)

/-- `n` passes of the `main` loop with `BTN_RIGHT` held. -/
def rightMoves (SCREEN_TILES_H SCREEN_TILES_V : Nat) : Nat → CAMERA × Hw → CAMERA × Hw
  | 0, s => s
  | n + 1, s =>
    rightMoves SCREEN_TILES_H SCREEN_TILES_V n (stepRight SCREEN_TILES_H SCREEN_TILES_V s)

/-- `Camera_update` of `horiz.c` detects a tile-boundary crossing (its outer `if`). -/
def crossX (c : CAMERA) (w : Hw) : Prop :=
  band w.scrollX (bnot (TILE_WIDTH - 1)) ≠ band (u8 c.x) (bnot (TILE_WIDTH - 1))

/-- `Camera_update` of `horiz.c` takes the forward branch (its inner `if`). -/
def forwardX (c : CAMERA) (w : Hw) : Prop :=
  u8 (u8 c.x - w.scrollX) < u8 (w.scrollX - u8 c.x)

end Horiz

namespace HorizVert

/-- `Camera_update` takes the forward branch of the X block (its inner `if`). -/
def forwardX (c : CAMERA) (w : Hw) : Prop :=
  u8 (u8 c.x - w.scrollX) < u8 (w.scrollX - u8 c.x)

/-- `Camera_update` takes the forward branch of the Y block (its inner `if`). -/
def forwardY (c : CAMERA) (w : Hw) : Prop :=
  u8 (u8 c.y - w.scrollY) < u8 (w.scrollY - u8 c.y)

/-- Frames of the two-axis program that only move along X: the Y target is held at 0. -/
def framesX (SCREEN_TILES_H SCREEN_TILES_V : Nat) (s : CAMERA × Hw) (xs : List Int) :
    CAMERA × Hw :=
  frames SCREEN_TILES_H SCREEN_TILES_V s (xs.map (fun x => (x, 0)))

/-- Frames of the two-axis program that only move along Y: the X target is held at 0. -/
def framesY (SCREEN_TILES_H SCREEN_TILES_V : Nat) (s : CAMERA × Hw) (ys : List Int) :
    CAMERA × Hw :=
  frames SCREEN_TILES_H SCREEN_TILES_V s (ys.map (fun y => (0, y)))

end HorizVert

namespace Vert

/-- The camera lies in the clamp range of `Camera_moveTo`. -/
def Clamped (SCREEN_TILES_V : Nat) (c : CAMERA) : Prop :=
  0 ≤ c.y ∧ c.y ≤ (c.level.height - SCREEN_TILES_V) * TILE_HEIGHT

/-- Program start of `main`: `Level_initFromMap`, `Camera_init`, `Camera_fillVram`. -/
def start (SCREEN_TILES_H : Nat) (map : Flash) (w : Hw) : CAMERA × Hw :=
  let l := Level_initFromMap map
  let s := Camera_init l w
  (s.1, Camera_fillVram SCREEN_TILES_H s.1 s.2)

/-- One frame: `Camera_moveTo` to the target, then one `Camera_update`. -/
def frame (SCREEN_TILES_H SCREEN_TILES_V : Nat) (s : CAMERA × Hw) (t : Int) : CAMERA × Hw :=
  let c := Camera_moveTo SCREEN_TILES_V s.1 t
  (c, Camera_update SCREEN_TILES_H c s.2)

/-- A finite sequence of frames, one target per frame. -/
def frames (SCREEN_TILES_H SCREEN_TILES_V : Nat) (s : CAMERA × Hw) (ts : List Int) :
    CAMERA × Hw :=
  ts.foldl (frame SCREEN_TILES_H SCREEN_TILES_V) s

end Vert

namespace HorizVert

/-- The horizontal program state `sh` and the two-axis program state `s` correspond: same
level, same camera `x`, same `Screen.scrollX`, the two-axis camera rests at `y = 0`, and
the buffers agree on rows `0..SCREEN_TILES_V-1`. -/
def SimX (SCREEN_TILES_H SCREEN_TILES_V : Nat) (l : LEVEL) (sh : Horiz.CAMERA × Hw)
    (s : CAMERA × Hw) : Prop :=
  sh.1.level = l ∧ s.1.level = l ∧ Clamped SCREEN_TILES_H SCREEN_TILES_V s.1 ∧
  sh.1.x = s.1.x ∧ s.1.y = 0 ∧ sh.2.scrollX = s.2.scrollX ∧ s.2.scrollY = 0 ∧
  ∀ a b : Int, 0 ≤ b → b < SCREEN_TILES_V → sh.2.vram a b = s.2.vram a b

/-- The vertical program state `sv` and the two-axis program state `s` correspond: same
level, same camera `y`, same `Screen.scrollY`, the two-axis camera rests at `x = 0`, and
the buffers agree on columns `0..SCREEN_TILES_H-1`. -/
def SimY (SCREEN_TILES_H SCREEN_TILES_V : Nat) (l : LEVEL) (sv : Vert.CAMERA × Hw)
    (s : CAMERA × Hw) : Prop :=
  sv.1.level = l ∧ s.1.level = l ∧ Clamped SCREEN_TILES_H SCREEN_TILES_V s.1 ∧
  sv.1.y = s.1.y ∧ s.1.x = 0 ∧ sv.2.scrollY = s.2.scrollY ∧ s.2.scrollX = 0 ∧
  ∀ a b : Int, 0 ≤ a → a < SCREEN_TILES_H → sv.2.vram a b = s.2.vram a b

end HorizVert

/-- An 80 x 40 map whose tile bytes are `k mod 256` at offset `k`. -/
def demoMap80 : Flash := fun k => if k = 0 then 80 else if k = 1 then 40 else Fin.ofNat k

namespace HorizVert

/-- Modelled from the spec: the visible window of the display collaborator.  The screen
shows `SCREEN_TILES_H * TILE_WIDTH` by `SCREEN_TILES_V * TILE_HEIGHT` units starting at the
camera position; world tile `(wx, wy)` is visible when its 8 x 8 span overlaps that
rectangle, so the visible columns are `cxt .. cxt + SCREEN_TILES_H` (the last one only
when the camera is not tile-aligned). -/
def Visible (SCREEN_TILES_H SCREEN_TILES_V : Nat) (c : CAMERA) (wx wy : Int) : Prop :=
  (c.x ≤ wx * TILE_WIDTH + (TILE_WIDTH - 1) ∧
    wx * TILE_WIDTH ≤ c.x + SCREEN_TILES_H * TILE_WIDTH - 1) ∧
  (c.y ≤ wy * TILE_HEIGHT + (TILE_HEIGHT - 1) ∧
    wy * TILE_HEIGHT ≤ c.y + SCREEN_TILES_V * TILE_HEIGHT - 1)

end HorizVert

/-- A two-axis camera at `(23, 23)` on the demo level (camera tile `(2, 2)`). -/
def demoCamBack : HorizVert.CAMERA := { x := 23, y := 23, level := Level_initFromMap demoMap }

/-- A kernel state whose scroll registers were latched at camera position `(24, 24)`. -/
def demoHwBack : Hw := { vram := fun _ _ => 0, scrollX := 24, scrollY := 24, calls := [] }

/-! ## Arithmetic of the machine integers -/

set_option maxRecDepth 100000 in
theorem land_mask_nat : ∀ n : Nat, n < 256 → Nat.land n 65528 = n / 8 * 8 := by
  decide

theorem band_mask (p : Int) (h0 : 0 ≤ p) (h1 : p < 256) :
    band p (bnot (8 - 1)) = p / 8 * 8 := by
  obtain ⟨n, rfl⟩ := Int.eq_ofNat_of_zero_le h0
  have h := land_mask_nat n (by omega)
  have e1 : (u16 (n : Int)).toNat = n := by unfold u16; omega
  have e2 : (u16 (bnot (8 - 1))).toNat = 65528 := by decide
  unfold band
  rw [e1, e2, h]
  unfold i16
  push_cast
  omega

theorem tdiv8 (a : Int) (h : 0 ≤ a) : Int.tdiv a 8 = a / 8 :=
  Int.tdiv_eq_ediv h (by norm_num)

theorem band_mask_w (p : Int) (h0 : 0 ≤ p) (h1 : p < 256) :
    band p (bnot (TILE_WIDTH - 1)) = p / 8 * 8 := band_mask p h0 h1

theorem band_mask_h (p : Int) (h0 : 0 ≤ p) (h1 : p < 256) :
    band p (bnot (TILE_HEIGHT - 1)) = p / 8 * 8 := band_mask p h0 h1

theorem u8_range (a : Int) : 0 ≤ u8 a ∧ u8 a < 256 := by
  unfold u8; omega

theorem index_bounds {w h wx wy : Int} (hw : w ≤ 255) (hh : h ≤ 255)
    (hx0 : 0 ≤ wx) (hx : wx < w) (hy0 : 0 ≤ wy) (hy : wy < h) :
    0 ≤ wy * w + wx ∧ wy * w + wx < w * h ∧ w * h ≤ 65025 := by
  have hw0 : 0 ≤ w := by omega
  have h1 : 0 ≤ wy * w := mul_nonneg hy0 hw0
  have h2 : (wy + 1) * w ≤ h * w := mul_le_mul_of_nonneg_right (by omega) hw0
  have h3 : w * h ≤ 255 * 255 := mul_le_mul hw hh (by omega) (by norm_num)
  refine ⟨by omega, by nlinarith, by omega⟩

/-! ## Running `SetTile` sequences -/

theorem paintAll_append (v : VRAM) (cs ds : List TileCall) :
    paintAll v (cs ++ ds) = paintAll (paintAll v cs) ds := by
  simp [paintAll, List.foldl_append]

theorem paintAll_frame (cs : List TileCall) (v : VRAM) (a b : Int)
    (h : ∀ c ∈ cs, ¬ (a = c.x ∧ b = c.y)) : paintAll v cs a b = v a b := by
  induction cs generalizing v with
  | nil => rfl
  | cons c cs ih =>
    have hc := h c (List.mem_cons_self _ _)
    have := ih (SetTile v c.x c.y c.tile) (fun d hd => h d (List.mem_cons_of_mem _ hd))
    simp only [paintAll, List.foldl_cons] at this ⊢
    rw [this]
    simp [SetTile, hc]

theorem paintAll_hit (cs : List TileCall) (v : VRAM) (a b t : Int)
    (hex : ∃ c ∈ cs, a = c.x ∧ b = c.y)
    (hall : ∀ c ∈ cs, a = c.x → b = c.y → c.tile = t) : paintAll v cs a b = t := by
  induction cs generalizing v with
  | nil => obtain ⟨c, hc, _⟩ := hex; cases hc
  | cons c cs ih =>
    simp only [paintAll, List.foldl_cons]
    by_cases hlater : ∃ d ∈ cs, a = d.x ∧ b = d.y
    · exact ih _ hlater (fun d hd => hall d (List.mem_cons_of_mem _ hd))
    · have hfr := paintAll_frame cs (SetTile v c.x c.y c.tile) a b
        (fun d hd hcell => hlater ⟨d, hd, hcell⟩)
      simp only [paintAll] at hfr
      rw [hfr]
      obtain ⟨d, hd, hdx, hdy⟩ := hex
      rcases List.mem_cons.1 hd with rfl | hd
      · simp [SetTile, hdx, hdy, hall d (List.mem_cons_self _ _) hdx hdy]
      · exact absurd ⟨d, hd, hdx, hdy⟩ hlater

/-! ## What the drawing routines paint -/

theorem u16_id {a : Int} (h0 : 0 ≤ a) (h1 : a < 65536) : u16 a = a :=
  Int.emod_eq_of_lt h0 h1

theorem i16_id {a : Int} (h0 : -32768 ≤ a) (h1 : a ≤ 32767) : i16 a = a := by
  unfold i16; omega

theorem tileCall_inMap {l : LEVEL} (hl : LevelOK l) {wx wy : Int} (hm : InMap l wx wy)
    (x y : Int) :
    (tileCall l x y wy wx).index = wy * l.width + wx ∧
    (tileCall l x y wy wx).tile = pgm_read_byte l.data (2 + wy * l.width + wx) := by
  obtain ⟨hx0, hx, hy0, hy⟩ := hm
  obtain ⟨b0, b1, b2⟩ := index_bounds hl.width_le hl.height_le hx0 hx hy0 hy
  have e : u16 (wy * l.width + wx) = wy * l.width + wx := u16_id b0 (by omega)
  have e2 : u16 (l.offset + (wy * l.width + wx)) = 2 + wy * l.width + wx := by
    rw [hl.offset_eq, u16_id (by omega) (by omega)]; ring
  simp only [tileCall, Level_getTileAt, e, e2, and_self]

namespace HorizVert

theorem mem_colLoop (l : LEVEL) (tx y rx : Int) (c : TileCall) (hy0 : 0 ≤ y) (hy : y ≤ 255)
    (hh0 : 0 < l.height) (hh : l.height ≤ 255) :
    ∀ (n : Nat) (i : Int), 0 ≤ i → i + n ≤ 30 →
      (c ∈ Level_drawColumn.loop l tx y rx n i ↔
        ∃ j, i ≤ j ∧ j < i + n ∧ y + j < l.height ∧
          c = tileCall l tx ((y + j) % 32) (y + j) rx) := by
  intro n
  induction n with
  | zero =>
    intro i _ _
    simp only [Level_drawColumn.loop, List.not_mem_nil, false_iff]
    rintro ⟨j, h1, h2, _⟩
    simp at h2
    omega
  | succ n ih =>
    intro i hi hin
    have e1 : u16 (y + i) = y + i := u16_id (by omega) (by omega)
    have e2 : u16 (l.height - 1) = l.height - 1 := u16_id (by omega) (by omega)
    simp only [Level_drawColumn.loop, e1, e2, VRAM_TILES_V]
    push_cast at hin
    split_ifs with hbr
    · simp only [List.not_mem_nil, false_iff]
      rintro ⟨j, h1, _, h3, _⟩
      omega
    · rw [List.mem_cons, ih (i + 1) (by omega) (by omega)]
      constructor
      · rintro (rfl | ⟨j, h1, h2, h3, rfl⟩)
        · exact ⟨i, le_refl _, by push_cast; omega, by omega, rfl⟩
        · exact ⟨j, by omega, by push_cast; omega, h3, rfl⟩
      · rintro ⟨j, h1, h2, h3, rfl⟩
        push_cast at h2
        by_cases hji : j = i
        · subst hji; exact Or.inl rfl
        · exact Or.inr ⟨j, by omega, by omega, h3, rfl⟩

theorem mem_drawColumn {l : LEVEL} (hl : LevelOK l) (x y rx : Int) (hy0 : 0 ≤ y)
    (hy : y ≤ l.height) (hr0 : -32768 ≤ rx) (hr1 : rx ≤ 32767) (c : TileCall) :
    c ∈ Level_drawColumn l x y rx ↔
      (0 ≤ rx ∧ rx < l.width) ∧
        ∃ wy, y - 2 ≤ wy ∧ wy ≤ y + 29 ∧ 0 ≤ wy ∧ wy < l.height ∧
          c = tileCall l (u8 x % 32) (wy % 32) wy rx := by
  obtain ⟨_, hw0, hw, hh0, hh⟩ := hl
  have ey : u16 y = y := u16_id hy0 (by omega)
  have er : i16 rx = rx := i16_id hr0 hr1
  have ew : u16 (l.width - 1) = l.width - 1 := u16_id (by omega) (by omega)
  have en : ((32 : Int) - 2).toNat = 30 := by decide
  have e30 : u16 (y + 30) % 32 = (y - 2) % 32 := by unfold u16; omega
  have e31 : u16 (y + 31) % 32 = (y - 1) % 32 := by unfold u16; omega
  have eiy : i16 y = y := i16_id (by omega) (by omega)
  simp only [Level_drawColumn, ey, er, ew, en, e30, e31, eiy, VRAM_TILES_V, VRAM_TILES_H]
  by_cases hneg : rx < 0
  · simp only [hneg, true_or, if_true, List.not_mem_nil, false_iff]
    rintro ⟨⟨h, _⟩, _⟩
    omega
  · have eur : u16 rx = rx := u16_id (by omega) (by omega)
    rw [eur]
    by_cases hbig : rx > l.width - 1
    · simp only [hbig, or_true, if_true, List.not_mem_nil, false_iff]
      rintro ⟨⟨_, h⟩, _⟩
      omega
    · rw [if_neg (by tauto)]
      simp only [List.mem_append, mem_colLoop l _ y rx c hy0 (by omega) hh0 hh 30 0
        (le_refl _) (by norm_num)]
      constructor
      · rintro ((⟨j, h1, h2, h3, rfl⟩ | h) | h)
        · exact ⟨⟨by omega, by omega⟩, y + j, by omega, by norm_num at h2; omega,
            by omega, h3, rfl⟩
        · split_ifs at h with hy1
          · rw [List.mem_singleton] at h
            exact ⟨⟨by omega, by omega⟩, y - 2, by omega, by omega, by omega, by omega, h⟩
          · cases h
        · split_ifs at h with hy1
          · rw [List.mem_singleton] at h
            exact ⟨⟨by omega, by omega⟩, y - 1, by omega, by omega, by omega, by omega, h⟩
          · cases h
      · rintro ⟨_, wy, h1, h2, h3, h4, rfl⟩
        by_cases ha : y ≤ wy
        · refine Or.inl (Or.inl ⟨wy - y, by omega, by norm_num; omega, by omega, ?_⟩)
          rw [show y + (wy - y) = wy by ring]
        · by_cases hb : wy = y - 2
          · refine Or.inl (Or.inr ?_)
            rw [if_pos (by omega), List.mem_singleton, hb]
          · refine Or.inr ?_
            have hc : wy = y - 1 := by omega
            rw [if_pos (by omega), List.mem_singleton, hc]

theorem mem_rowLoop (l : LEVEL) (x ty ry : Int) (c : TileCall) (hx0 : 0 ≤ x) (hx : x ≤ 255)
    (hw0 : 0 < l.width) (hw : l.width ≤ 255) :
    ∀ (n : Nat) (i : Int), 0 ≤ i → i + n ≤ 30 →
      (c ∈ Level_drawRow.loop l x ty ry n i ↔
        ∃ j, i ≤ j ∧ j < i + n ∧ x + j < l.width ∧
          c = tileCall l ((x + j) % 32) ty ry (x + j)) := by
  intro n
  induction n with
  | zero =>
    intro i _ _
    simp only [Level_drawRow.loop, List.not_mem_nil, false_iff]
    rintro ⟨j, h1, h2, _⟩
    simp at h2
    omega
  | succ n ih =>
    intro i hi hin
    have e1 : u16 (x + i) = x + i := u16_id (by omega) (by omega)
    have e2 : u16 (l.width - 1) = l.width - 1 := u16_id (by omega) (by omega)
    simp only [Level_drawRow.loop, e1, e2, VRAM_TILES_H]
    push_cast at hin
    split_ifs with hbr
    · simp only [List.not_mem_nil, false_iff]
      rintro ⟨j, h1, _, h3, _⟩
      omega
    · rw [List.mem_cons, ih (i + 1) (by omega) (by omega)]
      constructor
      · rintro (rfl | ⟨j, h1, h2, h3, rfl⟩)
        · exact ⟨i, le_refl _, by push_cast; omega, by omega, rfl⟩
        · exact ⟨j, by omega, by push_cast; omega, h3, rfl⟩
      · rintro ⟨j, h1, h2, h3, rfl⟩
        push_cast at h2
        by_cases hji : j = i
        · subst hji; exact Or.inl rfl
        · exact Or.inr ⟨j, by omega, by omega, h3, rfl⟩

theorem mem_drawRow {l : LEVEL} (hl : LevelOK l) (x y ry : Int) (hx0 : 0 ≤ x)
    (hx : x ≤ l.width) (hr0 : -32768 ≤ ry) (hr1 : ry ≤ 32767) (c : TileCall) :
    c ∈ Level_drawRow l x y ry ↔
      (0 ≤ ry ∧ ry < l.height) ∧
        ∃ wx, x - 2 ≤ wx ∧ wx ≤ x + 29 ∧ 0 ≤ wx ∧ wx < l.width ∧
          c = tileCall l (wx % 32) (u8 y % 32) ry wx := by
  obtain ⟨_, hw0, hw, hh0, hh⟩ := hl
  have ex : u16 x = x := u16_id hx0 (by omega)
  have er : i16 ry = ry := i16_id hr0 hr1
  have eh : u16 (l.height - 1) = l.height - 1 := u16_id (by omega) (by omega)
  have en : ((32 : Int) - 2).toNat = 30 := by decide
  have e30 : u16 (x + 30) % 32 = (x - 2) % 32 := by unfold u16; omega
  have e31 : u16 (x + 31) % 32 = (x - 1) % 32 := by unfold u16; omega
  have eix : i16 x = x := i16_id (by omega) (by omega)
  simp only [Level_drawRow, ex, er, eh, en, e30, e31, eix, VRAM_TILES_V, VRAM_TILES_H]
  by_cases hneg : ry < 0
  · simp only [hneg, true_or, if_true, List.not_mem_nil, false_iff]
    rintro ⟨⟨h, _⟩, _⟩
    omega
  · have eur : u16 ry = ry := u16_id (by omega) (by omega)
    rw [eur]
    by_cases hbig : ry > l.height - 1
    · simp only [hbig, or_true, if_true, List.not_mem_nil, false_iff]
      rintro ⟨⟨_, h⟩, _⟩
      omega
    · rw [if_neg (by tauto)]
      simp only [List.mem_append, mem_rowLoop l x _ ry c hx0 (by omega) hw0 hw 30 0
        (le_refl _) (by norm_num)]
      constructor
      · rintro ((⟨j, h1, h2, h3, rfl⟩ | h) | h)
        · exact ⟨⟨by omega, by omega⟩, x + j, by omega, by norm_num at h2; omega,
            by omega, h3, rfl⟩
        · split_ifs at h with hx1
          · rw [List.mem_singleton] at h
            exact ⟨⟨by omega, by omega⟩, x - 2, by omega, by omega, by omega, by omega, h⟩
          · cases h
        · split_ifs at h with hx1
          · rw [List.mem_singleton] at h
            exact ⟨⟨by omega, by omega⟩, x - 1, by omega, by omega, by omega, by omega, h⟩
          · cases h
      · rintro ⟨_, wx, h1, h2, h3, h4, rfl⟩
        by_cases ha : x ≤ wx
        · refine Or.inl (Or.inl ⟨wx - x, by omega, by norm_num; omega, by omega, ?_⟩)
          rw [show x + (wx - x) = wx by ring]
        · by_cases hb : wx = x - 2
          · refine Or.inl (Or.inr ?_)
            rw [if_pos (by omega), List.mem_singleton, hb]
          · refine Or.inr ?_
            have hc : wx = x - 1 := by omega
            rw [if_pos (by omega), List.mem_singleton, hc]

end HorizVert


/-! ## Toroidal addressing -/

theorem addressed_inj {l : LEVEL} {cxt cyt : Int} {c d : TileCall}
    (hc : Addressed l cxt cyt c) (hd : Addressed l cxt cyt d)
    (hx : c.x = d.x) (hy : c.y = d.y) : c = d := by
  obtain ⟨wx, wy, _, ⟨a1, a2, a3, a4⟩, rfl⟩ := hc
  obtain ⟨ux, uy, _, ⟨b1, b2, b3, b4⟩, rfl⟩ := hd
  simp only [tileCall] at hx hy
  have ex : wx = ux := by omega
  have ey : wy = uy := by omega
  rw [ex, ey]

/-- Generic last-write lemma: when all calls of a sequence follow an addressing scheme `P`
under which a buffer cell determines the call, the cell of a call `t` that follows the
scheme holds `t.tile` afterwards, provided `t` is issued or the cell held it before. -/
theorem paintAll_target (P : TileCall → Prop)
    (hinj : ∀ c d, P c → P d → c.x = d.x → c.y = d.y → c = d)
    (v : VRAM) (cs : List TileCall) (hadd : ∀ c ∈ cs, P c) (t : TileCall) (ht : P t)
    (hcov : t ∈ cs ∨ v t.x t.y = t.tile) : paintAll v cs t.x t.y = t.tile := by
  by_cases hit : ∃ c ∈ cs, t.x = c.x ∧ t.y = c.y
  · apply paintAll_hit cs v _ _ _ hit
    intro c hc hx hy
    rw [hinj c t (hadd c hc) ht hx.symm hy.symm]
  · rw [paintAll_frame cs v _ _ (fun c hc hcell => hit ⟨c, hc, hcell⟩)]
    rcases hcov with h | h
    · exact absurd ⟨_, h, rfl, rfl⟩ hit
    · exact h

theorem paintAll_consistent {l : LEVEL} (hl : LevelOK l) (cxt cyt : Int) (v : VRAM)
    (cs : List TileCall) (hadd : ∀ c ∈ cs, Addressed l cxt cyt c)
    (hcov : ∀ wx wy, InMap l wx wy → InWindow cxt cyt wx wy →
      tileCall l (wx % 32) (wy % 32) wy wx ∈ cs ∨
        v (wx % 32) (wy % 32) = pgm_read_byte l.data (2 + wy * l.width + wx)) :
    Consistent l cxt cyt (paintAll v cs) := by
  intro wx wy hm hw
  have ht := (tileCall_inMap hl hm (wx % 32) (wy % 32)).2
  have h := paintAll_target (Addressed l cxt cyt) (fun c d hc hd => addressed_inj hc hd)
    v cs hadd (tileCall l (wx % 32) (wy % 32) wy wx) ⟨wx, wy, hm, hw, rfl⟩
    (by rw [ht]; exact hcov wx wy hm hw)
  rw [ht] at h
  exact h

theorem paintAll_congr_mem {l : LEVEL} (cxt cyt : Int) (v : VRAM) (cs ds : List TileCall)
    (hadd : ∀ c ∈ cs, Addressed l cxt cyt c) (hmem : ∀ c, c ∈ cs ↔ c ∈ ds) :
    paintAll v cs = paintAll v ds := by
  funext a b
  by_cases hit : ∃ c ∈ cs, a = c.x ∧ b = c.y
  · obtain ⟨c, hc, hx, hy⟩ := hit
    have h1 : paintAll v cs a b = c.tile :=
      paintAll_hit cs v a b _ ⟨c, hc, hx, hy⟩ (fun d hd hdx hdy => by
        rw [addressed_inj (hadd d hd) (hadd c hc) (by rw [← hdx, hx]) (by rw [← hdy, hy])])
    have h2 : paintAll v ds a b = c.tile :=
      paintAll_hit ds v a b _ ⟨c, (hmem c).1 hc, hx, hy⟩ (fun d hd hdx hdy => by
        rw [addressed_inj (hadd d ((hmem d).2 hd)) (hadd c hc) (by rw [← hdx, hx])
          (by rw [← hdy, hy])])
    rw [h1, h2]
  · rw [paintAll_frame cs v a b (fun c hc hcell => hit ⟨c, hc, hcell⟩),
      paintAll_frame ds v a b (fun c hc hcell => hit ⟨c, (hmem c).2 hc, hcell⟩)]

namespace HorizVert

/-- Camera tile facts for a clamped camera. -/
theorem cam_tile {SH SV : Nat} {c : CAMERA} (hl : LevelOK c.level) (hc : Clamped SH SV c) :
    i16 (Int.tdiv c.x TILE_WIDTH) = c.x / 8 ∧ i16 (Int.tdiv c.y TILE_HEIGHT) = c.y / 8 ∧
    0 ≤ c.x / 8 ∧ c.x / 8 ≤ c.level.width - SH ∧ 0 ≤ c.y / 8 ∧ c.y / 8 ≤ c.level.height - SV := by
  obtain ⟨hx0, hx, hy0, hy⟩ := hc
  obtain ⟨_, hw0, hw, hh0, hh⟩ := hl
  simp only [TILE_WIDTH, TILE_HEIGHT] at hx hy ⊢
  rw [tdiv8 _ hx0, tdiv8 _ hy0, i16_id (by omega) (by omega), i16_id (by omega) (by omega)]
  omega

theorem xCalls_addressed {SH SV : Nat} {c : CAMERA} (hl : LevelOK c.level)
    (hc : Clamped SH SV c) (prevX : Int) :
    ∀ d ∈ Camera_update.xCalls c prevX, Addressed c.level (c.x / 8) (c.y / 8) d := by
  obtain ⟨e1, e2, h1, h2, h3, h4⟩ := cam_tile hl hc
  intro d hd
  simp only [Camera_update.xCalls, e1, e2] at hd
  have hw := hl.width_le
  split_ifs at hd with hcross hfwd
  · rw [mem_drawColumn hl _ _ _ h3 (by omega) (by omega) (by omega)] at hd
    obtain ⟨⟨r0, r1⟩, wy, a1, a2, a3, a4, rfl⟩ := hd
    refine ⟨c.x / 8 + 29, wy, ⟨r0, r1, a3, a4⟩, ⟨by omega, by omega, a1, a2⟩, ?_⟩
    rw [show u8 (c.x / 8 + 29) % 32 = (c.x / 8 + 29) % 32 by unfold u8; omega]
  · rw [mem_drawColumn hl _ _ _ h3 (by omega) (by omega) (by omega)] at hd
    obtain ⟨⟨r0, r1⟩, wy, a1, a2, a3, a4, rfl⟩ := hd
    refine ⟨c.x / 8 - 2, wy, ⟨r0, r1, a3, a4⟩, ⟨by omega, by omega, a1, a2⟩, ?_⟩
    rw [show u8 (c.x / 8 + 30) % 32 = (c.x / 8 - 2) % 32 by unfold u8; omega]
  · cases hd

theorem yCalls_addressed {SH SV : Nat} {c : CAMERA} (hl : LevelOK c.level)
    (hc : Clamped SH SV c) (prevY : Int) :
    ∀ d ∈ Camera_update.yCalls c prevY, Addressed c.level (c.x / 8) (c.y / 8) d := by
  obtain ⟨e1, e2, h1, h2, h3, h4⟩ := cam_tile hl hc
  intro d hd
  simp only [Camera_update.yCalls, e1, e2] at hd
  have hh := hl.height_le
  split_ifs at hd with hcross hfwd
  · rw [mem_drawRow hl _ _ _ h1 (by omega) (by omega) (by omega)] at hd
    obtain ⟨⟨r0, r1⟩, wx, a1, a2, a3, a4, rfl⟩ := hd
    refine ⟨wx, c.y / 8 + 29, ⟨a3, a4, r0, r1⟩, ⟨a1, a2, by omega, by omega⟩, ?_⟩
    rw [show u8 (c.y / 8 + 29) % 32 = (c.y / 8 + 29) % 32 by unfold u8; omega]
  · rw [mem_drawRow hl _ _ _ h1 (by omega) (by omega) (by omega)] at hd
    obtain ⟨⟨r0, r1⟩, wx, a1, a2, a3, a4, rfl⟩ := hd
    refine ⟨wx, c.y / 8 - 2, ⟨a3, a4, r0, r1⟩, ⟨a1, a2, by omega, by omega⟩, ?_⟩
    rw [show u8 (c.y / 8 + 30) % 32 = (c.y / 8 - 2) % 32 by unfold u8; omega]
  · cases hd

theorem xCalls_cover {SH SV : Nat} {c : CAMERA} (hl : LevelOK c.level)
    (hc : Clamped SH SV c) (x0 : Int) (hd1 : c.x - x0 ≤ 8)
    (hd2 : x0 - c.x ≤ 8) (wx wy : Int) (hm : InMap c.level wx wy)
    (hw : InWindow (c.x / 8) (c.y / 8) wx wy)
    (hout : ¬ (x0 / 8 - 2 ≤ wx ∧ wx ≤ x0 / 8 + 29)) :
    tileCall c.level (wx % 32) (wy % 32) wy wx ∈ Camera_update.xCalls c (u8 x0) := by
  obtain ⟨e1, e2, h1, h2, h3, h4⟩ := cam_tile hl hc
  obtain ⟨m1, m2, m3, m4⟩ := hm
  obtain ⟨w1, w2, w3, w4⟩ := hw
  have hwd := hl.width_le
  have hcx := hc.1
  simp only [Camera_update.xCalls, e1, e2, band_mask_w _ (u8_range _).1 (u8_range _).2]
  by_cases hfw : c.x / 8 = x0 / 8 + 1
  · rw [if_pos (by unfold u8; omega), if_pos (by unfold u8; omega),
      mem_drawColumn hl _ _ _ h3 (by omega) (by omega) (by omega)]
    have hwx : wx = c.x / 8 + 29 := by omega
    refine ⟨⟨by omega, by omega⟩, wy, w3, w4, m3, m4, ?_⟩
    rw [hwx, show u8 (c.x / 8 + 29) % 32 = (c.x / 8 + 29) % 32 by unfold u8; omega]
  · have hbw : c.x / 8 = x0 / 8 - 1 := by omega
    rw [if_pos (by unfold u8; omega), if_neg (by unfold u8; omega),
      mem_drawColumn hl _ _ _ h3 (by omega) (by omega) (by omega)]
    have hwx : wx = c.x / 8 - 2 := by omega
    refine ⟨⟨by omega, by omega⟩, wy, w3, w4, m3, m4, ?_⟩
    rw [hwx, show u8 (c.x / 8 + 30) % 32 = (c.x / 8 - 2) % 32 by unfold u8; omega]

theorem yCalls_cover {SH SV : Nat} {c : CAMERA} (hl : LevelOK c.level)
    (hc : Clamped SH SV c) (y0 : Int) (hd1 : c.y - y0 ≤ 8)
    (hd2 : y0 - c.y ≤ 8) (wx wy : Int) (hm : InMap c.level wx wy)
    (hw : InWindow (c.x / 8) (c.y / 8) wx wy)
    (hout : ¬ (y0 / 8 - 2 ≤ wy ∧ wy ≤ y0 / 8 + 29)) :
    tileCall c.level (wx % 32) (wy % 32) wy wx ∈ Camera_update.yCalls c (u8 y0) := by
  obtain ⟨e1, e2, h1, h2, h3, h4⟩ := cam_tile hl hc
  obtain ⟨m1, m2, m3, m4⟩ := hm
  obtain ⟨w1, w2, w3, w4⟩ := hw
  have hht := hl.height_le
  have hcy := hc.2.2.1
  simp only [Camera_update.yCalls, e1, e2, band_mask_h _ (u8_range _).1 (u8_range _).2]
  by_cases hfw : c.y / 8 = y0 / 8 + 1
  · rw [if_pos (by unfold u8; omega), if_pos (by unfold u8; omega),
      mem_drawRow hl _ _ _ h1 (by omega) (by omega) (by omega)]
    have hwy : wy = c.y / 8 + 29 := by omega
    refine ⟨⟨by omega, by omega⟩, wx, w1, w2, m1, m2, ?_⟩
    rw [hwy, show u8 (c.y / 8 + 29) % 32 = (c.y / 8 + 29) % 32 by unfold u8; omega]
  · have hbw : c.y / 8 = y0 / 8 - 1 := by omega
    rw [if_pos (by unfold u8; omega), if_neg (by unfold u8; omega),
      mem_drawRow hl _ _ _ h1 (by omega) (by omega) (by omega)]
    have hwy : wy = c.y / 8 - 2 := by omega
    refine ⟨⟨by omega, by omega⟩, wx, w1, w2, m1, m2, ?_⟩
    rw [hwy, show u8 (c.y / 8 + 30) % 32 = (c.y / 8 - 2) % 32 by unfold u8; omega]

theorem update_vram (c : CAMERA) (w : Hw) :
    (Camera_update c w).vram =
      paintAll w.vram (Camera_update.xCalls c w.scrollX ++ Camera_update.yCalls c w.scrollY) := by
  simp only [Camera_update, Hw.setTiles]

theorem fill_vram (c : CAMERA) (w : Hw) :
    (Camera_fillVram c w).vram = paintAll w.vram (Camera_fillVram.calls c) := by
  simp only [Camera_fillVram, Hw.setTiles]

/-- One frame keeps the buffer consistent when the camera moved by at most one tile. -/
theorem update_consistent {SH SV : Nat} {c : CAMERA} (hl : LevelOK c.level)
    (hc : Clamped SH SV c) (x0 y0 : Int)
    (hdx1 : c.x - x0 ≤ 8) (hdx2 : x0 - c.x ≤ 8) (hdy1 : c.y - y0 ≤ 8) (hdy2 : y0 - c.y ≤ 8)
    (w : Hw) (hsx : w.scrollX = u8 x0) (hsy : w.scrollY = u8 y0)
    (hcons : Consistent c.level (x0 / 8) (y0 / 8) w.vram) :
    Consistent c.level (c.x / 8) (c.y / 8) (Camera_update c w).vram := by
  rw [update_vram]
  apply paintAll_consistent hl
  · intro d hd
    rcases List.mem_append.1 hd with h | h
    · exact xCalls_addressed hl hc _ d h
    · exact yCalls_addressed hl hc _ d h
  · intro wx wy hm hw
    by_cases hox : x0 / 8 - 2 ≤ wx ∧ wx ≤ x0 / 8 + 29
    · by_cases hoy : y0 / 8 - 2 ≤ wy ∧ wy ≤ y0 / 8 + 29
      · exact Or.inr (hcons wx wy hm ⟨hox.1, hox.2, hoy.1, hoy.2⟩)
      · refine Or.inl (List.mem_append.2 (Or.inr ?_))
        rw [hsy]
        exact yCalls_cover hl hc y0 hdy1 hdy2 wx wy hm hw hoy
    · refine Or.inl (List.mem_append.2 (Or.inl ?_))
      rw [hsx]
      exact xCalls_cover hl hc x0 hdx1 hdx2 wx wy hm hw hox

theorem mem_fillLoop (l : LEVEL) (cxt cyt : Int) (c : TileCall) :
    ∀ (n : Nat) (i : Int),
      (c ∈ Camera_fillVram.loop l cxt cyt n i ↔
        ∃ j, i ≤ j ∧ j < i + n ∧ c ∈ Level_drawColumn l (cxt + j) cyt (cxt + j)) := by
  intro n
  induction n with
  | zero =>
    intro i
    simp only [Camera_fillVram.loop, List.not_mem_nil, false_iff]
    rintro ⟨j, h1, h2, _⟩
    simp at h2
    omega
  | succ n ih =>
    intro i
    simp only [Camera_fillVram.loop, List.mem_append, ih (i + 1)]
    constructor
    · rintro (h | ⟨j, h1, h2, h3⟩)
      · exact ⟨i, le_refl _, by push_cast; omega, h⟩
      · exact ⟨j, by omega, by push_cast; omega, h3⟩
    · rintro ⟨j, h1, h2, h3⟩
      push_cast at h2
      by_cases hji : j = i
      · subst hji; exact Or.inl h3
      · exact Or.inr ⟨j, by omega, by omega, h3⟩

theorem fill_addressed {SH SV : Nat} {c : CAMERA} (hl : LevelOK c.level)
    (hc : Clamped SH SV c) :
    ∀ d ∈ Camera_fillVram.calls c, Addressed c.level (c.x / 8) (c.y / 8) d := by
  obtain ⟨e1, e2, h1, h2, h3, h4⟩ := cam_tile hl hc
  have hwd := hl.width_le
  have en : (VRAM_TILES_H - 2).toNat = 30 := by decide
  intro d hd
  simp only [Camera_fillVram.calls, e1, e2, en, List.mem_append, mem_fillLoop] at hd
  rcases hd with (⟨j, j0, j1, hd⟩ | hd) | hd
  · rw [mem_drawColumn hl _ _ _ h3 (by omega) (by omega) (by omega)] at hd
    obtain ⟨⟨r0, r1⟩, wy, a1, a2, a3, a4, rfl⟩ := hd
    refine ⟨c.x / 8 + j, wy, ⟨r0, r1, a3, a4⟩, ⟨by omega, by omega, a1, a2⟩, ?_⟩
    rw [show u8 (c.x / 8 + j) % 32 = (c.x / 8 + j) % 32 by unfold u8; omega]
  · rw [mem_drawColumn hl _ _ _ h3 (by omega) (by omega) (by omega)] at hd
    obtain ⟨⟨r0, r1⟩, wy, a1, a2, a3, a4, rfl⟩ := hd
    refine ⟨c.x / 8 - 2, wy, ⟨r0, r1, a3, a4⟩, ⟨by omega, by omega, a1, a2⟩, ?_⟩
    rw [show u8 (c.x / 8 + 30) % 32 = (c.x / 8 - 2) % 32 by unfold u8; omega]
  · rw [mem_drawColumn hl _ _ _ h3 (by omega) (by omega) (by omega)] at hd
    obtain ⟨⟨r0, r1⟩, wy, a1, a2, a3, a4, rfl⟩ := hd
    refine ⟨c.x / 8 - 1, wy, ⟨r0, r1, a3, a4⟩, ⟨by omega, by omega, a1, a2⟩, ?_⟩
    rw [show u8 (c.x / 8 + 31) % 32 = (c.x / 8 - 1) % 32 by unfold u8; omega]

theorem fill_cover {SH SV : Nat} {c : CAMERA} (hl : LevelOK c.level)
    (hc : Clamped SH SV c) (wx wy : Int) (hm : InMap c.level wx wy)
    (hw : InWindow (c.x / 8) (c.y / 8) wx wy) :
    tileCall c.level (wx % 32) (wy % 32) wy wx ∈ Camera_fillVram.calls c := by
  obtain ⟨e1, e2, h1, h2, h3, h4⟩ := cam_tile hl hc
  obtain ⟨m1, m2, m3, m4⟩ := hm
  obtain ⟨w1, w2, w3, w4⟩ := hw
  have hwd := hl.width_le
  have en : (VRAM_TILES_H - 2).toNat = 30 := by decide
  simp only [Camera_fillVram.calls, e1, e2, en, List.mem_append, mem_fillLoop]
  by_cases ha : c.x / 8 ≤ wx
  · refine Or.inl (Or.inl ⟨wx - c.x / 8, by omega, by norm_num; omega, ?_⟩)
    rw [mem_drawColumn hl _ _ _ h3 (by omega) (by omega) (by omega)]
    refine ⟨⟨by omega, by omega⟩, wy, w3, w4, m3, m4, ?_⟩
    rw [show c.x / 8 + (wx - c.x / 8) = wx by ring,
      show u8 wx % 32 = wx % 32 by unfold u8; omega]
  · by_cases hb : wx = c.x / 8 - 2
    · refine Or.inl (Or.inr ?_)
      rw [mem_drawColumn hl _ _ _ h3 (by omega) (by omega) (by omega)]
      refine ⟨⟨by omega, by omega⟩, wy, w3, w4, m3, m4, ?_⟩
      rw [hb, show u8 (c.x / 8 + 30) % 32 = (c.x / 8 - 2) % 32 by unfold u8; omega]
    · have hb2 : wx = c.x / 8 - 1 := by omega
      refine Or.inr ?_
      rw [mem_drawColumn hl _ _ _ h3 (by omega) (by omega) (by omega)]
      refine ⟨⟨by omega, by omega⟩, wy, w3, w4, m3, m4, ?_⟩
      rw [hb2, show u8 (c.x / 8 + 31) % 32 = (c.x / 8 - 1) % 32 by unfold u8; omega]

theorem fill_consistent {SH SV : Nat} {c : CAMERA} (hl : LevelOK c.level)
    (hc : Clamped SH SV c) (w : Hw) :
    Consistent c.level (c.x / 8) (c.y / 8) (Camera_fillVram c w).vram := by
  rw [fill_vram]
  exact paintAll_consistent hl _ _ _ _ (fill_addressed hl hc)
    (fun wx wy hm hw => Or.inl (fill_cover hl hc wx wy hm hw))

end HorizVert


theorem pgm_read_byte_range (p : Flash) (k : Int) :
    0 ≤ pgm_read_byte p k ∧ pgm_read_byte p k ≤ 255 := by
  unfold pgm_read_byte
  have := (p k.toNat).isLt
  omega

theorem levelOK_init (m : Flash) (hw : 0 < (Level_initFromMap m).width)
    (hh : 0 < (Level_initFromMap m).height) : LevelOK (Level_initFromMap m) :=
  ⟨rfl, hw, (pgm_read_byte_range m 0).2, hh, (pgm_read_byte_range m 1).2⟩

theorem getTileAt_inMap {l : LEVEL} (hl : LevelOK l) {wx wy : Int} (hm : InMap l wx wy) :
    Level_getTileAt l (wy * l.width + wx) = pgm_read_byte l.data (2 + wy * l.width + wx) := by
  obtain ⟨hx0, hx, hy0, hy⟩ := hm
  obtain ⟨b0, b1, b2⟩ := index_bounds hl.width_le hl.height_le hx0 hx hy0 hy
  unfold Level_getTileAt
  rw [u16_id b0 (by omega), hl.offset_eq, u16_id (by omega) (by omega)]
  congr 1; ring

/-- The clamp of one axis, as computed by every `Camera_moveTo`. -/
theorem clamp_axis (dim : Int) (S : Nat) (t : Int) (hS : (S : Int) ≤ dim) (hd : dim ≤ 255) :
    (if i16 t < 0 then 0
      else if i16 t > i16 (u16 ((dim - S) * 8)) then i16 (u16 ((dim - S) * 8)) else i16 t)
      = min (max (i16 t) 0) ((dim - S) * 8) := by
  have e : i16 (u16 ((dim - S) * 8)) = (dim - S) * 8 := by unfold i16 u16; omega
  rw [e]
  split_ifs <;> omega

namespace HorizVert

theorem moveTo_spec (SH SV : Nat) (c : CAMERA) (x y : Int)
    (hSH : (SH : Int) ≤ c.level.width) (hw : c.level.width ≤ 255)
    (hSV : (SV : Int) ≤ c.level.height) (hh : c.level.height ≤ 255) :
    (Camera_moveTo SH SV c x y).x = min (max (i16 x) 0) ((c.level.width - SH) * 8) ∧
    (Camera_moveTo SH SV c x y).y = min (max (i16 y) 0) ((c.level.height - SV) * 8) ∧
    (Camera_moveTo SH SV c x y).level = c.level := by
  simp only [Camera_moveTo, TILE_WIDTH, TILE_HEIGHT]
  exact ⟨clamp_axis _ _ _ hSH hw, clamp_axis _ _ _ hSV hh, trivial⟩

theorem moveTo_clamped (SH SV : Nat) (c : CAMERA) (x y : Int)
    (hSH : (SH : Int) ≤ c.level.width) (hw : c.level.width ≤ 255)
    (hSV : (SV : Int) ≤ c.level.height) (hh : c.level.height ≤ 255) :
    Clamped SH SV (Camera_moveTo SH SV c x y) := by
  obtain ⟨ex, ey, el⟩ := moveTo_spec SH SV c x y hSH hw hSV hh
  simp only [Clamped, ex, ey, el, TILE_WIDTH, TILE_HEIGHT]
  omega

theorem update_scroll (c : CAMERA) (w : Hw) :
    (Camera_update c w).scrollX = u8 c.x ∧ (Camera_update c w).scrollY = u8 c.y := by
  simp only [Camera_update, Hw.setTiles, and_self]

theorem start_inv (SH SV : Nat) (m : Flash) (w : Hw) (hl : LevelOK (Level_initFromMap m))
    (hSH : (SH : Int) ≤ (Level_initFromMap m).width)
    (hSV : (SV : Int) ≤ (Level_initFromMap m).height) :
    Inv SH SV (Level_initFromMap m) (start m w) := by
  have hc : Clamped SH SV (Camera_init (Level_initFromMap m) w).1 := by
    simp only [Clamped, Camera_init, TILE_WIDTH, TILE_HEIGHT]
    omega
  have hcons := fill_consistent (c := (Camera_init (Level_initFromMap m) w).1) hl hc
    (Camera_init (Level_initFromMap m) w).2
  refine ⟨rfl, hc, ?_, ?_, hcons⟩
  · simp only [start, Camera_fillVram, Hw.setTiles, Camera_init]
  · simp only [start, Camera_fillVram, Hw.setTiles, Camera_init]

theorem frame_inv (SH SV : Nat) (l : LEVEL) (hl : LevelOK l) (hSH : (SH : Int) ≤ l.width)
    (hSV : (SV : Int) ≤ l.height) (s : CAMERA × Hw) (hs : Inv SH SV l s) (t : Int × Int)
    (hx : (Camera_moveTo SH SV s.1 t.1 t.2).x - s.1.x ≤ TILE_WIDTH ∧
      s.1.x - (Camera_moveTo SH SV s.1 t.1 t.2).x ≤ TILE_WIDTH)
    (hy : (Camera_moveTo SH SV s.1 t.1 t.2).y - s.1.y ≤ TILE_HEIGHT ∧
      s.1.y - (Camera_moveTo SH SV s.1 t.1 t.2).y ≤ TILE_HEIGHT) :
    Inv SH SV l (frame SH SV s t) := by
  obtain ⟨hlev, hcl, hsx, hsy, hcons⟩ := hs
  subst hlev
  have hsp := moveTo_spec SH SV s.1 t.1 t.2 hSH hl.width_le hSV hl.height_le
  have hc := moveTo_clamped SH SV s.1 t.1 t.2 hSH hl.width_le hSV hl.height_le
  have hl1 : LevelOK (Camera_moveTo SH SV s.1 t.1 t.2).level := by rw [hsp.2.2]; exact hl
  have hcons1 : Consistent (Camera_moveTo SH SV s.1 t.1 t.2).level (s.1.x / 8) (s.1.y / 8)
      s.2.vram := by rw [hsp.2.2]; exact hcons
  have h := update_consistent hl1 hc s.1.x s.1.y hx.1 hx.2 hy.1 hy.2 s.2 hsx hsy hcons1
  rw [hsp.2.2] at h
  exact ⟨hsp.2.2, hc, (update_scroll _ _).1, (update_scroll _ _).2, h⟩

theorem frames_inv (SH SV : Nat) (l : LEVEL) (hl : LevelOK l) (hSH : (SH : Int) ≤ l.width)
    (hSV : (SV : Int) ≤ l.height) (ts : List (Int × Int)) :
    ∀ s : CAMERA × Hw, Inv SH SV l s → SlowMoves SH SV s.1 ts →
      Inv SH SV l (frames SH SV s ts) := by
  induction ts with
  | nil => intro s hs _; exact hs
  | cons t ts ih =>
    intro s hs hslow
    obtain ⟨hx, hy, hrest⟩ := hslow
    exact ih (frame SH SV s t) (frame_inv SH SV l hl hSH hSV s hs t hx hy) hrest

theorem slowMoves_take (SH SV : Nat) (ts : List (Int × Int)) :
    ∀ (c : CAMERA) (k : Nat), SlowMoves SH SV c ts → SlowMoves SH SV c (ts.take k) := by
  induction ts with
  | nil => intro c k h; simpa using h
  | cons t ts ih =>
    intro c k h
    cases k with
    | zero => exact trivial
    | succ k => exact ⟨h.1, h.2.1, ih _ k h.2.2⟩

theorem demo_slow : SlowMoves 28 28 (start demoMap demoHw).1 [(8, 8), (7, 16)] := by
  refine ⟨⟨?_, ?_⟩, ⟨?_, ?_⟩, ⟨?_, ?_⟩, ⟨?_, ?_⟩, trivial⟩ <;> decide

end HorizVert

namespace HorizVert

/-- C2. Full-fill correctness: on a well-formed level, for every camera in the clamp range,
after `Camera_fillVram` every in-map world tile of the window is held by VRAM cell
`(wx mod 32, wy mod 32)` with value `Level_getTileAt(wy*width + wx)`; from the origin set by
`Camera_init` this gives `VRAM[wx][wy]` for all `wx < min(30, width)`, `wy < min(30, height)`. -/
theorem C2_full_fill (SCREEN_TILES_H SCREEN_TILES_V : Nat) (map : Flash) (x y : Int) (w : Hw)
    (hw0 : 0 < (Level_initFromMap map).width) (hh0 : 0 < (Level_initFromMap map).height)
    (hc : Clamped SCREEN_TILES_H SCREEN_TILES_V ⟨x, y, Level_initFromMap map⟩) :
    let l := Level_initFromMap map
    (∀ wx wy : Int, 0 ≤ wx → wx < l.width → 0 ≤ wy → wy < l.height →
      x / 8 - 2 ≤ wx → wx ≤ x / 8 + 29 → y / 8 - 2 ≤ wy → wy ≤ y / 8 + 29 →
      (Camera_fillVram ⟨x, y, l⟩ w).vram (wx % 32) (wy % 32)
        = Level_getTileAt l (wy * l.width + wx)) ∧
    (∀ wx wy : Int, 0 ≤ wx → wx < min 30 l.width → 0 ≤ wy → wy < min 30 l.height →
      (start map w).2.vram wx wy = Level_getTileAt l (wy * l.width + wx)) := by
  intro l
  have hl : LevelOK l := levelOK_init map hw0 hh0
  constructor
  · intro wx wy a1 a2 a3 a4 b1 b2 b3 b4
    rw [getTileAt_inMap hl ⟨a1, a2, a3, a4⟩]
    exact fill_consistent (c := ⟨x, y, l⟩) hl hc w wx wy ⟨a1, a2, a3, a4⟩ ⟨b1, b2, b3, b4⟩
  · intro wx wy a1 a2 a3 a4
    have hc0 : Clamped SCREEN_TILES_H SCREEN_TILES_V ⟨0, 0, l⟩ := by
      obtain ⟨h1, h2, h3, h4⟩ := hc
      have hld : Level_initFromMap map = l := rfl
      simp only [Clamped, TILE_WIDTH, TILE_HEIGHT, hld] at h1 h2 h3 h4 ⊢
      omega
    have hm : InMap l wx wy := ⟨a1, lt_of_lt_of_le a2 (min_le_right _ _), a3,
      lt_of_lt_of_le a4 (min_le_right _ _)⟩
    have hx30 : wx < 30 := lt_of_lt_of_le a2 (min_le_left _ _)
    have hy30 : wy < 30 := lt_of_lt_of_le a4 (min_le_left _ _)
    have h := fill_consistent (c := ⟨0, 0, l⟩) hl hc0 (Camera_init l w).2 wx wy hm
      ⟨by show (0:Int) / 8 - 2 ≤ wx; omega, by show wx ≤ (0:Int) / 8 + 29; omega,
        by show (0:Int) / 8 - 2 ≤ wy; omega, by show wy ≤ (0:Int) / 8 + 29; omega⟩
    rw [getTileAt_inMap hl hm]
    rw [show wx % 32 = wx by omega, show wy % 32 = wy by omega] at h
    exact h

theorem C2_full_fill_witness :
    Clamped 28 28 ⟨16, 24, Level_initFromMap demoMap⟩ ∧
    (Camera_fillVram ⟨16, 24, Level_initFromMap demoMap⟩ demoHw).vram (0 % 32) (32 % 32)
      = Level_getTileAt (Level_initFromMap demoMap)
          (32 * (Level_initFromMap demoMap).width + 0) :=
  ⟨⟨by decide, by decide, by decide, by decide⟩,
   (C2_full_fill 28 28 demoMap 16 24 demoHw (by decide) (by decide)
      ⟨by decide, by decide, by decide, by decide⟩).1 0 32
      (by decide) (by decide) (by decide) (by decide) (by decide) (by decide) (by decide)
      (by decide)⟩

end HorizVert

/-- C3. Clamping law: for a level with `SCREEN_TILES_H <= width <= 255` and
`SCREEN_TILES_V <= height <= 255` and every int16 target, `Camera_moveTo` stores
`min(max(x, 0), xMax)` and `min(max(y, 0), yMax)`; the result lies in `[0, xMax]` and
`[0, yMax]`, an in-range target is stored unchanged, and each axis is independent of the
other target.  The single-axis `Camera_moveTo` of `horiz.c` and `vert.c` obey the same law. -/
theorem C3_clamping_law (SCREEN_TILES_H SCREEN_TILES_V : Nat) (l : LEVEL) (x0 y0 x y : Int)
    (hSH : (SCREEN_TILES_H : Int) ≤ l.width) (hw : l.width ≤ 255)
    (hSV : (SCREEN_TILES_V : Int) ≤ l.height) (hh : l.height ≤ 255)
    (hx : -32768 ≤ x ∧ x ≤ 32767) (hy : -32768 ≤ y ∧ y ≤ 32767) :
    let xMax := (l.width - SCREEN_TILES_H) * TILE_WIDTH
    let yMax := (l.height - SCREEN_TILES_V) * TILE_HEIGHT
    let c := HorizVert.Camera_moveTo SCREEN_TILES_H SCREEN_TILES_V ⟨x0, y0, l⟩ x y
    (c.x = min (max x 0) xMax ∧ c.y = min (max y 0) yMax) ∧
    (0 ≤ c.x ∧ c.x ≤ xMax ∧ 0 ≤ c.y ∧ c.y ≤ yMax) ∧
    ((0 ≤ x ∧ x ≤ xMax → c.x = x) ∧ (0 ≤ y ∧ y ≤ yMax → c.y = y)) ∧
    (∀ y1 : Int, (HorizVert.Camera_moveTo SCREEN_TILES_H SCREEN_TILES_V ⟨x0, y0, l⟩ x y1).x
      = c.x) ∧
    (∀ x1 : Int, (HorizVert.Camera_moveTo SCREEN_TILES_H SCREEN_TILES_V ⟨x0, y0, l⟩ x1 y).y
      = c.y) ∧
    (Horiz.Camera_moveTo SCREEN_TILES_H ⟨x0, l⟩ x).x = min (max x 0) xMax ∧
    (Vert.Camera_moveTo SCREEN_TILES_V ⟨y0, l⟩ y).y = min (max y 0) yMax := by
  intro xMax yMax c
  have ex : i16 x = x := i16_id hx.1 hx.2
  have ey : i16 y = y := i16_id hy.1 hy.2
  have hcx : c.x = min (max x 0) xMax := by
    have := clamp_axis l.width SCREEN_TILES_H x hSH hw
    rw [ex] at this
    simpa only [c, xMax, HorizVert.Camera_moveTo, TILE_WIDTH, ex] using this
  have hcy : c.y = min (max y 0) yMax := by
    have := clamp_axis l.height SCREEN_TILES_V y hSV hh
    rw [ey] at this
    simpa only [c, yMax, HorizVert.Camera_moveTo, TILE_HEIGHT, ey] using this
  have hxM : 0 ≤ xMax := by simp only [xMax, TILE_WIDTH]; omega
  have hyM : 0 ≤ yMax := by simp only [yMax, TILE_HEIGHT]; omega
  refine ⟨⟨hcx, hcy⟩, ?_, ⟨?_, ?_⟩, ?_, ?_, ?_, ?_⟩
  · rw [hcx, hcy]; omega
  · intro h; rw [hcx]; omega
  · intro h; rw [hcy]; omega
  · intro y1; rfl
  · intro x1; rfl
  · have := clamp_axis l.width SCREEN_TILES_H x hSH hw
    rw [ex] at this
    simpa only [xMax, Horiz.Camera_moveTo, TILE_WIDTH, ex] using this
  · have := clamp_axis l.height SCREEN_TILES_V y hSV hh
    rw [ey] at this
    simpa only [yMax, Vert.Camera_moveTo, TILE_HEIGHT, ey] using this


theorem C3_clamping_law_witness :
    ((28 : Nat) : Int) ≤ (Level_initFromMap demoMap).width ∧
    (-32768 ≤ (1000 : Int) ∧ (1000 : Int) ≤ 32767) ∧
    (HorizVert.Camera_moveTo 28 28 ⟨0, 0, Level_initFromMap demoMap⟩ 1000 (-5)).x
      = min (max 1000 0) (((Level_initFromMap demoMap).width - (28 : Nat)) * TILE_WIDTH) :=
  ⟨by decide, by decide,
   (C3_clamping_law 28 28 (Level_initFromMap demoMap) 0 0 1000 (-5) (by decide) (by decide)
      (by decide) (by decide) (by decide) (by decide)).1.1⟩

theorem addressed_inRange {l : LEVEL} (hl : LevelOK l) {cxt cyt : Int} {d : TileCall}
    (h : Addressed l cxt cyt d) : InRangeQuery l d := by
  obtain ⟨wx, wy, hm, _, rfl⟩ := h
  obtain ⟨b0, b1, _⟩ := index_bounds hl.width_le hl.height_le hm.1 hm.2.1 hm.2.2.1 hm.2.2.2
  have e := (tileCall_inMap hl hm (wx % 32) (wy % 32)).1
  refine ⟨hm, e, ?_⟩
  rw [e]
  exact ⟨b0, b1⟩

namespace HorizVert

theorem fill_calls (c : CAMERA) (w : Hw) :
    (Camera_fillVram c w).calls = w.calls ++ Camera_fillVram.calls c := by
  simp only [Camera_fillVram, Hw.setTiles]

theorem update_calls (c : CAMERA) (w : Hw) :
    (Camera_update c w).calls =
      w.calls ++ (Camera_update.xCalls c w.scrollX ++ Camera_update.yCalls c w.scrollY) := by
  simp only [Camera_update, Hw.setTiles]

theorem run_inRange (SH SV : Nat) (l : LEVEL) (hl : LevelOK l) (hSH : (SH : Int) ≤ l.width)
    (hSV : (SV : Int) ≤ l.height) (s : CAMERA × Hw) (op : Op)
    (hs : s.1.level = l ∧ Clamped SH SV s.1 ∧ ∀ d ∈ s.2.calls, InRangeQuery l d) :
    (Op.run SH SV s op).1.level = l ∧ Clamped SH SV (Op.run SH SV s op).1 ∧
      ∀ d ∈ (Op.run SH SV s op).2.calls, InRangeQuery l d := by
  obtain ⟨hlev, hc, hcalls⟩ := hs
  subst hlev
  cases op with
  | fill =>
    simp only [Op.run]
    refine ⟨trivial, hc, ?_⟩
    intro d hd
    simp only [fill_calls, List.mem_append] at hd
    rcases hd with h | h
    · exact hcalls d h
    · exact addressed_inRange hl (fill_addressed hl hc d h)
  | move x y =>
    have hsp := moveTo_spec SH SV s.1 x y hSH hl.width_le hSV hl.height_le
    exact ⟨hsp.2.2, moveTo_clamped SH SV s.1 x y hSH hl.width_le hSV hl.height_le, hcalls⟩
  | update =>
    simp only [Op.run]
    refine ⟨trivial, hc, ?_⟩
    intro d hd
    simp only [update_calls, List.mem_append] at hd
    rcases hd with h | h | h
    · exact hcalls d h
    · exact addressed_inRange hl (xCalls_addressed hl hc _ d h)
    · exact addressed_inRange hl (yCalls_addressed hl hc _ d h)

theorem foldl_inRange (SH SV : Nat) (l : LEVEL) (hl : LevelOK l) (hSH : (SH : Int) ≤ l.width)
    (hSV : (SV : Int) ≤ l.height) (ops : List Op) :
    ∀ s : CAMERA × Hw,
      (s.1.level = l ∧ Clamped SH SV s.1 ∧ ∀ d ∈ s.2.calls, InRangeQuery l d) →
      ∀ d ∈ (ops.foldl (Op.run SH SV) s).2.calls, InRangeQuery l d := by
  induction ops with
  | nil => intro s hs; exact hs.2.2
  | cons op ops ih => intro s hs; exact ih _ (run_inRange SH SV l hl hSH hSV s op hs)

/-- C4. No out-of-range map queries: on a well-formed level at least as large as the
screen, in every state reachable from `Camera_init` by any interleaving of
`Camera_fillVram`, `Camera_moveTo` (arbitrary targets) and `Camera_update`, every logged
`Level_getTileAt` query has an in-map row and column, its 16-bit index equals the
mathematical value `row*width + col`, and the index is below `width*height`. -/
theorem C4_no_out_of_range_queries (SCREEN_TILES_H SCREEN_TILES_V : Nat) (map : Flash) (w : Hw)
    (ops : List Op)
    (hw0 : 0 < (Level_initFromMap map).width) (hh0 : 0 < (Level_initFromMap map).height)
    (hSH : (SCREEN_TILES_H : Int) ≤ (Level_initFromMap map).width)
    (hSV : (SCREEN_TILES_V : Int) ≤ (Level_initFromMap map).height) :
    ∀ d ∈ (runOps SCREEN_TILES_H SCREEN_TILES_V map w ops).2.calls,
      (0 ≤ d.col ∧ d.col < (Level_initFromMap map).width ∧
        0 ≤ d.row ∧ d.row < (Level_initFromMap map).height) ∧
      d.index = d.row * (Level_initFromMap map).width + d.col ∧
      (0 ≤ d.index ∧
        d.index < (Level_initFromMap map).width * (Level_initFromMap map).height) := by
  have hl := levelOK_init map hw0 hh0
  refine foldl_inRange SCREEN_TILES_H SCREEN_TILES_V _ hl hSH hSV ops _ ⟨rfl, ?_, ?_⟩
  · simp only [Clamped, Camera_init, TILE_WIDTH, TILE_HEIGHT]
    omega
  · intro d hd
    simp only [Camera_init, List.not_mem_nil] at hd

theorem C4_no_out_of_range_queries_witness :
    (0 < (Level_initFromMap demoMap).width ∧ 0 < (Level_initFromMap demoMap).height ∧
      ((28 : Nat) : Int) ≤ (Level_initFromMap demoMap).width ∧
      ((28 : Nat) : Int) ≤ (Level_initFromMap demoMap).height) ∧
    ∀ d ∈ (runOps 28 28 demoMap demoHw
        [Op.move 1000 1000, Op.update, Op.fill, Op.move (-5) 3, Op.update]).2.calls,
      (0 ≤ d.col ∧ d.col < (Level_initFromMap demoMap).width ∧
        0 ≤ d.row ∧ d.row < (Level_initFromMap demoMap).height) ∧
      d.index = d.row * (Level_initFromMap demoMap).width + d.col ∧
      (0 ≤ d.index ∧
        d.index < (Level_initFromMap demoMap).width * (Level_initFromMap demoMap).height) :=
  ⟨⟨by decide, by decide, by decide, by decide⟩,
   C4_no_out_of_range_queries 28 28 demoMap demoHw _ (by decide) (by decide) (by decide)
     (by decide)⟩

end HorizVert

theorem setTiles_nil (w : Hw) : w.setTiles [] = w := by
  simp only [Hw.setTiles, paintAll, List.foldl_nil, List.append_nil]

theorem HorizVert.xCalls_self (c : HorizVert.CAMERA) :
    HorizVert.Camera_update.xCalls c (u8 c.x) = [] := by
  simp only [HorizVert.Camera_update.xCalls, ne_eq, not_true_eq_false, if_false]

theorem HorizVert.yCalls_self (c : HorizVert.CAMERA) :
    HorizVert.Camera_update.yCalls c (u8 c.y) = [] := by
  simp only [HorizVert.Camera_update.yCalls, ne_eq, not_true_eq_false, if_false]

theorem HorizVert.update_fix (c : HorizVert.CAMERA) (w : Hw) (h1 : w.scrollX = u8 c.x)
    (h2 : w.scrollY = u8 c.y) : HorizVert.Camera_update c w = w := by
  obtain ⟨v, sx, sy, cs⟩ := w
  simp only at h1 h2
  subst h1 h2
  simp only [HorizVert.Camera_update, HorizVert.xCalls_self, HorizVert.yCalls_self,
    List.append_nil, setTiles_nil]

theorem Horiz.hz_xCalls_self (SV : Nat) (c : Horiz.CAMERA) :
    Horiz.Camera_update.xCalls SV c (u8 c.x) = [] := by
  simp only [Horiz.Camera_update.xCalls, ne_eq, not_true_eq_false, if_false]

theorem Horiz.hz_update_scroll (SV : Nat) (c : Horiz.CAMERA) (w : Hw) :
    (Horiz.Camera_update SV c w).scrollX = u8 c.x := by
  simp only [Horiz.Camera_update, Hw.setTiles]

theorem Horiz.hz_update_fix (SV : Nat) (c : Horiz.CAMERA) (w : Hw) (h1 : w.scrollX = u8 c.x) :
    Horiz.Camera_update SV c w = w := by
  obtain ⟨v, sx, sy, cs⟩ := w
  simp only at h1
  subst h1
  simp only [Horiz.Camera_update, Horiz.hz_xCalls_self, setTiles_nil]

theorem Vert.vt_yCalls_self (SH : Nat) (c : Vert.CAMERA) :
    Vert.Camera_update.yCalls SH c (u8 c.y) = [] := by
  simp only [Vert.Camera_update.yCalls, ne_eq, not_true_eq_false, if_false]

theorem Vert.vt_update_scroll (SH : Nat) (c : Vert.CAMERA) (w : Hw) :
    (Vert.Camera_update SH c w).scrollY = u8 c.y := by
  simp only [Vert.Camera_update, Hw.setTiles]

theorem Vert.vt_update_fix (SH : Nat) (c : Vert.CAMERA) (w : Hw) (h1 : w.scrollY = u8 c.y) :
    Vert.Camera_update SH c w = w := by
  obtain ⟨v, sx, sy, cs⟩ := w
  simp only at h1
  subst h1
  simp only [Vert.Camera_update, Vert.vt_yCalls_self, setTiles_nil]

/-- C5. Idempotence of refresh: in each of the three programs, for every camera and kernel
state, a second `Camera_update` with no `Camera_moveTo` in between issues no `SetTile`
call and leaves VRAM, `Screen.scrollX`, `Screen.scrollY` and the call log exactly as the
first call left them (the camera is not written by `Camera_update`). -/
theorem C5_update_idempotent (SCREEN_TILES_H SCREEN_TILES_V : Nat) (c : HorizVert.CAMERA)
    (ch : Horiz.CAMERA) (cv : Vert.CAMERA) (w : Hw)
    (_hSH : SCREEN_TILES_H ≤ 255) (_hSV : SCREEN_TILES_V ≤ 255) :
    (HorizVert.Camera_update.xCalls c (HorizVert.Camera_update c w).scrollX = [] ∧
      HorizVert.Camera_update.yCalls c (HorizVert.Camera_update c w).scrollY = [] ∧
      HorizVert.Camera_update c (HorizVert.Camera_update c w) = HorizVert.Camera_update c w) ∧
    (Horiz.Camera_update.xCalls SCREEN_TILES_V ch
        (Horiz.Camera_update SCREEN_TILES_V ch w).scrollX = [] ∧
      Horiz.Camera_update SCREEN_TILES_V ch (Horiz.Camera_update SCREEN_TILES_V ch w)
        = Horiz.Camera_update SCREEN_TILES_V ch w) ∧
    (Vert.Camera_update.yCalls SCREEN_TILES_H cv
        (Vert.Camera_update SCREEN_TILES_H cv w).scrollY = [] ∧
      Vert.Camera_update SCREEN_TILES_H cv (Vert.Camera_update SCREEN_TILES_H cv w)
        = Vert.Camera_update SCREEN_TILES_H cv w) := by
  refine ⟨⟨?_, ?_, ?_⟩, ⟨?_, ?_⟩, ⟨?_, ?_⟩⟩
  · rw [(HorizVert.update_scroll c w).1]; exact HorizVert.xCalls_self c
  · rw [(HorizVert.update_scroll c w).2]; exact HorizVert.yCalls_self c
  · exact HorizVert.update_fix c _ (HorizVert.update_scroll c w).1
      (HorizVert.update_scroll c w).2
  · rw [Horiz.hz_update_scroll]; exact Horiz.hz_xCalls_self SCREEN_TILES_V ch
  · exact Horiz.hz_update_fix SCREEN_TILES_V ch _ (Horiz.hz_update_scroll SCREEN_TILES_V ch w)
  · rw [Vert.vt_update_scroll]; exact Vert.vt_yCalls_self SCREEN_TILES_H cv
  · exact Vert.vt_update_fix SCREEN_TILES_H cv _ (Vert.vt_update_scroll SCREEN_TILES_H cv w)

theorem C5_update_idempotent_witness :
    ((28 : Nat) ≤ 255 ∧ (28 : Nat) ≤ 255) ∧
    HorizVert.Camera_update demoCam (HorizVert.Camera_update demoCam demoHwDiag)
      = HorizVert.Camera_update demoCam demoHwDiag :=
  ⟨⟨by decide, by decide⟩,
   (C5_update_idempotent 28 28 demoCam ⟨8, Level_initFromMap demoMap⟩
      ⟨8, Level_initFromMap demoMap⟩ demoHwDiag (by decide) (by decide)).1.2.2⟩

namespace Horiz

theorem hz_mem_colLoop (l : LEVEL) (tx rx : Int) (c : TileCall) :
    ∀ (n : Nat) (i : Int),
      (c ∈ Level_drawColumn.loop l tx rx n i ↔
        ∃ j, i ≤ j ∧ j < i + n ∧ c = tileCall l tx j j rx) := by
  intro n
  induction n with
  | zero =>
    intro i
    simp only [Level_drawColumn.loop, List.not_mem_nil, false_iff]
    rintro ⟨j, h1, h2, _⟩
    simp at h2
    omega
  | succ n ih =>
    intro i
    simp only [Level_drawColumn.loop, List.mem_cons, ih (i + 1)]
    constructor
    · rintro (rfl | ⟨j, h1, h2, rfl⟩)
      · exact ⟨i, le_refl _, by push_cast; omega, rfl⟩
      · exact ⟨j, by omega, by push_cast; omega, rfl⟩
    · rintro ⟨j, h1, h2, rfl⟩
      push_cast at h2
      by_cases hji : j = i
      · subst hji; exact Or.inl rfl
      · exact Or.inr ⟨j, by omega, by omega, rfl⟩

theorem hz_mem_drawColumn (SV : Nat) {l : LEVEL} (hl : LevelOK l) (x rx : Int)
    (hr0 : -32768 ≤ rx) (hr1 : rx ≤ 32767) (c : TileCall) :
    c ∈ Level_drawColumn SV l x rx ↔
      (0 ≤ rx ∧ rx < l.width) ∧
        ∃ i : Int, 0 ≤ i ∧ i < SV ∧ c = tileCall l (u8 x % 32) i i rx := by
  obtain ⟨_, hw0, hw, _, _⟩ := hl
  have er : i16 rx = rx := i16_id hr0 hr1
  have ew : u16 (l.width - 1) = l.width - 1 := u16_id (by omega) (by omega)
  simp only [Level_drawColumn, er, ew, VRAM_TILES_H]
  by_cases hneg : rx < 0
  · simp only [hneg, true_or, if_true, List.not_mem_nil, false_iff]
    rintro ⟨⟨h, _⟩, _⟩
    omega
  · have eur : u16 rx = rx := u16_id (by omega) (by omega)
    rw [eur]
    by_cases hbig : rx > l.width - 1
    · simp only [hbig, or_true, if_true, List.not_mem_nil, false_iff]
      rintro ⟨⟨_, h⟩, _⟩
      omega
    · rw [if_neg (by tauto), hz_mem_colLoop]
      constructor
      · rintro ⟨j, h1, h2, rfl⟩
        exact ⟨⟨by omega, by omega⟩, j, h1, by omega, rfl⟩
      · rintro ⟨_, i, h1, h2, rfl⟩
        exact ⟨i, h1, by omega, rfl⟩

theorem hz_addressed_inj {SV : Nat} {l : LEVEL} {cxt : Int} {c d : TileCall}
    (hc : Addressed SV l cxt c) (hd : Addressed SV l cxt d)
    (hx : c.x = d.x) (hy : c.y = d.y) : c = d := by
  obtain ⟨wx, i, _, _, a1, a2, _, _, rfl⟩ := hc
  obtain ⟨ux, j, _, _, b1, b2, _, _, rfl⟩ := hd
  simp only [tileCall] at hx hy
  have ex : wx = ux := by omega
  rw [ex, hy]

theorem hz_paintAll_consistent (SV : Nat) {l : LEVEL} (hl : LevelOK l)
    (hSV : (SV : Int) ≤ l.height) (cxt : Int) (v : VRAM)
    (cs : List TileCall) (hadd : ∀ c ∈ cs, Addressed SV l cxt c)
    (hcov : ∀ wx i : Int, 0 ≤ wx → wx < l.width → cxt - 2 ≤ wx → wx ≤ cxt + 29 → 0 ≤ i → i < SV →
      tileCall l (wx % 32) i i wx ∈ cs ∨
        v (wx % 32) i = pgm_read_byte l.data (2 + i * l.width + wx)) :
    Consistent SV l cxt (paintAll v cs) := by
  intro wx i a1 a2 a3 a4 a5 a6
  have hm : InMap l wx i := ⟨a1, a2, a5, by omega⟩
  have ht := (tileCall_inMap hl hm (wx % 32) i).2
  have h := paintAll_target (Addressed SV l cxt) (fun c d hc hd => hz_addressed_inj hc hd)
    v cs hadd (tileCall l (wx % 32) i i wx) ⟨wx, i, a1, a2, a3, a4, a5, a6, rfl⟩
    (by rw [ht]; exact hcov wx i a1 a2 a3 a4 a5 a6)
  rw [ht] at h
  exact h

theorem hz_cam_tile {SH : Nat} {c : CAMERA} (hl : LevelOK c.level) (hc : Clamped SH c) :
    i16 (Int.tdiv c.x TILE_WIDTH) = c.x / 8 ∧ 0 ≤ c.x / 8 ∧ c.x / 8 ≤ c.level.width - SH := by
  obtain ⟨hx0, hx⟩ := hc
  obtain ⟨_, hw0, hw, hh0, hh⟩ := hl
  simp only [TILE_WIDTH] at hx ⊢
  rw [tdiv8 _ hx0, i16_id (by omega) (by omega)]
  omega

theorem hz_xCalls_addressed {SH : Nat} (SV : Nat) {c : CAMERA} (hl : LevelOK c.level)
    (hc : Clamped SH c) (prevX : Int) :
    ∀ d ∈ Camera_update.xCalls SV c prevX, Addressed SV c.level (c.x / 8) d := by
  obtain ⟨e1, h1, h2⟩ := hz_cam_tile hl hc
  intro d hd
  simp only [Camera_update.xCalls, e1] at hd
  have hw := hl.width_le
  split_ifs at hd with hcross hfwd
  · rw [hz_mem_drawColumn SV hl _ _ (by omega) (by omega)] at hd
    obtain ⟨⟨r0, r1⟩, i, a1, a2, rfl⟩ := hd
    refine ⟨c.x / 8 + 29, i, r0, r1, by omega, by omega, a1, a2, ?_⟩
    rw [show u8 (c.x / 8 + 29) % 32 = (c.x / 8 + 29) % 32 by unfold u8; omega]
  · rw [hz_mem_drawColumn SV hl _ _ (by omega) (by omega)] at hd
    obtain ⟨⟨r0, r1⟩, i, a1, a2, rfl⟩ := hd
    refine ⟨c.x / 8 - 2, i, r0, r1, by omega, by omega, a1, a2, ?_⟩
    rw [show u8 (c.x / 8 + 30) % 32 = (c.x / 8 - 2) % 32 by unfold u8; omega]
  · cases hd

theorem hz_xCalls_cover {SH : Nat} (SV : Nat) {c : CAMERA} (hl : LevelOK c.level)
    (hc : Clamped SH c) (x0 : Int) (hd1 : c.x - x0 ≤ 8) (hd2 : x0 - c.x ≤ 8) (wx i : Int)
    (m1 : 0 ≤ wx) (m2 : wx < c.level.width) (w1 : c.x / 8 - 2 ≤ wx) (w2 : wx ≤ c.x / 8 + 29)
    (i1 : 0 ≤ i) (i2 : i < SV) (hout : ¬ (x0 / 8 - 2 ≤ wx ∧ wx ≤ x0 / 8 + 29)) :
    tileCall c.level (wx % 32) i i wx ∈ Camera_update.xCalls SV c (u8 x0) := by
  obtain ⟨e1, h1, h2⟩ := hz_cam_tile hl hc
  have hwd := hl.width_le
  have hcx := hc.1
  simp only [Camera_update.xCalls, e1, band_mask_w _ (u8_range _).1 (u8_range _).2]
  by_cases hfw : c.x / 8 = x0 / 8 + 1
  · rw [if_pos (by unfold u8; omega), if_pos (by unfold u8; omega),
      hz_mem_drawColumn SV hl _ _ (by omega) (by omega)]
    have hwx : wx = c.x / 8 + 29 := by omega
    refine ⟨⟨by omega, by omega⟩, i, i1, i2, ?_⟩
    rw [hwx, show u8 (c.x / 8 + 29) % 32 = (c.x / 8 + 29) % 32 by unfold u8; omega]
  · have hbw : c.x / 8 = x0 / 8 - 1 := by omega
    rw [if_pos (by unfold u8; omega), if_neg (by unfold u8; omega),
      hz_mem_drawColumn SV hl _ _ (by omega) (by omega)]
    have hwx : wx = c.x / 8 - 2 := by omega
    refine ⟨⟨by omega, by omega⟩, i, i1, i2, ?_⟩
    rw [hwx, show u8 (c.x / 8 + 30) % 32 = (c.x / 8 - 2) % 32 by unfold u8; omega]

theorem hz_update_vram (SV : Nat) (c : CAMERA) (w : Hw) :
    (Camera_update SV c w).vram = paintAll w.vram (Camera_update.xCalls SV c w.scrollX) := by
  simp only [Camera_update, Hw.setTiles]

theorem hz_fill_vram (SV : Nat) (c : CAMERA) (w : Hw) :
    (Camera_fillVram SV c w).vram = paintAll w.vram (Camera_fillVram.calls SV c) := by
  simp only [Camera_fillVram, Hw.setTiles]

theorem hz_update_consistent {SH : Nat} (SV : Nat) {c : CAMERA} (hl : LevelOK c.level)
    (hSV : (SV : Int) ≤ c.level.height) (hc : Clamped SH c) (x0 : Int)
    (hdx1 : c.x - x0 ≤ 8) (hdx2 : x0 - c.x ≤ 8) (w : Hw) (hsx : w.scrollX = u8 x0)
    (hcons : Consistent SV c.level (x0 / 8) w.vram) :
    Consistent SV c.level (c.x / 8) (Camera_update SV c w).vram := by
  rw [hz_update_vram]
  apply hz_paintAll_consistent SV hl hSV
  · exact hz_xCalls_addressed SV hl hc _
  · intro wx i a1 a2 a3 a4 a5 a6
    by_cases hox : x0 / 8 - 2 ≤ wx ∧ wx ≤ x0 / 8 + 29
    · exact Or.inr (hcons wx i a1 a2 hox.1 hox.2 a5 a6)
    · refine Or.inl ?_
      rw [hsx]
      exact hz_xCalls_cover SV hl hc x0 hdx1 hdx2 wx i a1 a2 a3 a4 a5 a6 hox

theorem hz_mem_fillLoop (SV : Nat) (l : LEVEL) (cxt : Int) (c : TileCall) :
    ∀ (n : Nat) (i : Int),
      (c ∈ Camera_fillVram.loop SV l cxt n i ↔
        ∃ j, i ≤ j ∧ j < i + n ∧ c ∈ Level_drawColumn SV l (cxt + j) (cxt + j)) := by
  intro n
  induction n with
  | zero =>
    intro i
    simp only [Camera_fillVram.loop, List.not_mem_nil, false_iff]
    rintro ⟨j, h1, h2, _⟩
    simp at h2
    omega
  | succ n ih =>
    intro i
    simp only [Camera_fillVram.loop, List.mem_append, ih (i + 1)]
    constructor
    · rintro (h | ⟨j, h1, h2, h3⟩)
      · exact ⟨i, le_refl _, by push_cast; omega, h⟩
      · exact ⟨j, by omega, by push_cast; omega, h3⟩
    · rintro ⟨j, h1, h2, h3⟩
      push_cast at h2
      by_cases hji : j = i
      · subst hji; exact Or.inl h3
      · exact Or.inr ⟨j, by omega, by omega, h3⟩

theorem hz_fill_addressed {SH : Nat} (SV : Nat) {c : CAMERA} (hl : LevelOK c.level)
    (hc : Clamped SH c) :
    ∀ d ∈ Camera_fillVram.calls SV c, Addressed SV c.level (c.x / 8) d := by
  obtain ⟨e1, h1, h2⟩ := hz_cam_tile hl hc
  have hwd := hl.width_le
  have en : (VRAM_TILES_H - 2).toNat = 30 := by decide
  intro d hd
  simp only [Camera_fillVram.calls, e1, en, List.mem_append, hz_mem_fillLoop] at hd
  rcases hd with (⟨j, j0, j1, hd⟩ | hd) | hd
  · rw [hz_mem_drawColumn SV hl _ _ (by omega) (by omega)] at hd
    obtain ⟨⟨r0, r1⟩, i, a1, a2, rfl⟩ := hd
    refine ⟨c.x / 8 + j, i, r0, r1, by omega, by omega, a1, a2, ?_⟩
    rw [show u8 (c.x / 8 + j) % 32 = (c.x / 8 + j) % 32 by unfold u8; omega]
  · rw [hz_mem_drawColumn SV hl _ _ (by omega) (by omega)] at hd
    obtain ⟨⟨r0, r1⟩, i, a1, a2, rfl⟩ := hd
    refine ⟨c.x / 8 - 2, i, r0, r1, by omega, by omega, a1, a2, ?_⟩
    rw [show u8 (c.x / 8 + 30) % 32 = (c.x / 8 - 2) % 32 by unfold u8; omega]
  · rw [hz_mem_drawColumn SV hl _ _ (by omega) (by omega)] at hd
    obtain ⟨⟨r0, r1⟩, i, a1, a2, rfl⟩ := hd
    refine ⟨c.x / 8 - 1, i, r0, r1, by omega, by omega, a1, a2, ?_⟩
    rw [show u8 (c.x / 8 + 31) % 32 = (c.x / 8 - 1) % 32 by unfold u8; omega]

theorem hz_fill_cover {SH : Nat} (SV : Nat) {c : CAMERA} (hl : LevelOK c.level)
    (hc : Clamped SH c) (wx i : Int) (m1 : 0 ≤ wx) (m2 : wx < c.level.width)
    (w1 : c.x / 8 - 2 ≤ wx) (w2 : wx ≤ c.x / 8 + 29) (i1 : 0 ≤ i) (i2 : i < SV) :
    tileCall c.level (wx % 32) i i wx ∈ Camera_fillVram.calls SV c := by
  obtain ⟨e1, h1, h2⟩ := hz_cam_tile hl hc
  have hwd := hl.width_le
  have en : (VRAM_TILES_H - 2).toNat = 30 := by decide
  simp only [Camera_fillVram.calls, e1, en, List.mem_append, hz_mem_fillLoop]
  by_cases ha : c.x / 8 ≤ wx
  · refine Or.inl (Or.inl ⟨wx - c.x / 8, by omega, by norm_num; omega, ?_⟩)
    rw [hz_mem_drawColumn SV hl _ _ (by omega) (by omega)]
    refine ⟨⟨by omega, by omega⟩, i, i1, i2, ?_⟩
    rw [show c.x / 8 + (wx - c.x / 8) = wx by ring,
      show u8 wx % 32 = wx % 32 by unfold u8; omega]
  · by_cases hb : wx = c.x / 8 - 2
    · refine Or.inl (Or.inr ?_)
      rw [hz_mem_drawColumn SV hl _ _ (by omega) (by omega)]
      refine ⟨⟨by omega, by omega⟩, i, i1, i2, ?_⟩
      rw [hb, show u8 (c.x / 8 + 30) % 32 = (c.x / 8 - 2) % 32 by unfold u8; omega]
    · have hb2 : wx = c.x / 8 - 1 := by omega
      refine Or.inr ?_
      rw [hz_mem_drawColumn SV hl _ _ (by omega) (by omega)]
      refine ⟨⟨by omega, by omega⟩, i, i1, i2, ?_⟩
      rw [hb2, show u8 (c.x / 8 + 31) % 32 = (c.x / 8 - 1) % 32 by unfold u8; omega]

theorem hz_fill_consistent {SH : Nat} (SV : Nat) {c : CAMERA} (hl : LevelOK c.level)
    (hSV : (SV : Int) ≤ c.level.height) (hc : Clamped SH c) (w : Hw) :
    Consistent SV c.level (c.x / 8) (Camera_fillVram SV c w).vram := by
  rw [hz_fill_vram]
  exact hz_paintAll_consistent SV hl hSV _ _ _ (hz_fill_addressed SV hl hc)
    (fun wx i a1 a2 a3 a4 a5 a6 => Or.inl (hz_fill_cover SV hl hc wx i a1 a2 a3 a4 a5 a6))

theorem hz_moveTo_spec (SH : Nat) (c : CAMERA) (x : Int)
    (hSH : (SH : Int) ≤ c.level.width) (hw : c.level.width ≤ 255) :
    (Camera_moveTo SH c x).x = min (max (i16 x) 0) ((c.level.width - SH) * 8) ∧
    (Camera_moveTo SH c x).level = c.level := by
  simp only [Camera_moveTo, TILE_WIDTH]
  exact ⟨clamp_axis _ _ _ hSH hw, trivial⟩

theorem hz_moveTo_clamped (SH : Nat) (c : CAMERA) (x : Int)
    (hSH : (SH : Int) ≤ c.level.width) (hw : c.level.width ≤ 255) :
    Clamped SH (Camera_moveTo SH c x) := by
  obtain ⟨ex, el⟩ := hz_moveTo_spec SH c x hSH hw
  simp only [Clamped, ex, el, TILE_WIDTH]
  omega

end Horiz

namespace Horiz

theorem hz_start_inv (SH SV : Nat) (m : Flash) (w : Hw) (hl : LevelOK (Level_initFromMap m))
    (hSH : (SH : Int) ≤ (Level_initFromMap m).width)
    (hSV : (SV : Int) ≤ (Level_initFromMap m).height) :
    Inv SH SV (Level_initFromMap m) (start SV m w) := by
  have hc : Clamped SH (Camera_init (Level_initFromMap m) w).1 := by
    simp only [Clamped, Camera_init, TILE_WIDTH]
    omega
  have hcons := hz_fill_consistent SV (c := (Camera_init (Level_initFromMap m) w).1) hl hSV hc
    (Camera_init (Level_initFromMap m) w).2
  refine ⟨rfl, hc, ?_, hcons⟩
  simp only [start, Camera_fillVram, Hw.setTiles, Camera_init]

theorem hz_frame_inv (SH SV : Nat) (l : LEVEL) (hl : LevelOK l) (hSH : (SH : Int) ≤ l.width)
    (hSV : (SV : Int) ≤ l.height) (s : CAMERA × Hw) (hs : Inv SH SV l s) (t : Int)
    (hx : (Camera_moveTo SH s.1 t).x - s.1.x ≤ TILE_WIDTH ∧
      s.1.x - (Camera_moveTo SH s.1 t).x ≤ TILE_WIDTH) :
    Inv SH SV l (frame SH SV s t) := by
  obtain ⟨hlev, hcl, hsx, hcons⟩ := hs
  subst hlev
  have hsp := hz_moveTo_spec SH s.1 t hSH hl.width_le
  have hc := hz_moveTo_clamped SH s.1 t hSH hl.width_le
  have hl1 : LevelOK (Camera_moveTo SH s.1 t).level := by rw [hsp.2]; exact hl
  have hcons1 : Consistent SV (Camera_moveTo SH s.1 t).level (s.1.x / 8) s.2.vram := by
    rw [hsp.2]; exact hcons
  have h := hz_update_consistent SV hl1 (by rw [hsp.2]; exact hSV) hc s.1.x hx.1 hx.2 s.2 hsx
    hcons1
  rw [hsp.2] at h
  exact ⟨hsp.2, hc, hz_update_scroll _ _ _, h⟩

theorem hz_frames_inv (SH SV : Nat) (l : LEVEL) (hl : LevelOK l) (hSH : (SH : Int) ≤ l.width)
    (hSV : (SV : Int) ≤ l.height) (ts : List Int) :
    ∀ s : CAMERA × Hw, Inv SH SV l s → SlowMoves SH s.1 ts →
      Inv SH SV l (frames SH SV s ts) := by
  induction ts with
  | nil => intro s hs _; exact hs
  | cons t ts ih =>
    intro s hs hslow
    obtain ⟨hx, hrest⟩ := hslow
    exact ih (frame SH SV s t) (hz_frame_inv SH SV l hl hSH hSV s hs t hx) hrest

theorem hz_slowMoves_take (SH : Nat) (ts : List Int) :
    ∀ (c : CAMERA) (k : Nat), SlowMoves SH c ts → SlowMoves SH c (ts.take k) := by
  induction ts with
  | nil => intro c k h; simpa using h
  | cons t ts ih =>
    intro c k h
    cases k with
    | zero => exact trivial
    | succ k => exact ⟨h.1, ih _ k h.2⟩

theorem hz_demo_slow : SlowMoves 28 (start 28 demoMap demoHw).1 [8, 16, 15] := by
  refine ⟨⟨?_, ?_⟩, ⟨?_, ?_⟩, ⟨?_, ?_⟩, trivial⟩ <;> decide

end Horiz

/-- C6. Single-axis consistency (`horiz.c`): from `Camera_init` and `Camera_fillVram` on a
well-formed level at least as large as the screen, after every `Camera_update` of a
sequence of frames that each displace the camera by at most 8 units, every in-map world
column `wx` with `cxt-2 <= wx <= cxt+29` and every row `i < SCREEN_TILES_V` satisfy
`VRAM[wx mod 32][i] = map byte 2 + i*width + wx`. -/
theorem C6_single_axis_consistency (SCREEN_TILES_H SCREEN_TILES_V : Nat) (map : Flash)
    (w : Hw) (ts : List Int)
    (hw0 : 0 < (Level_initFromMap map).width) (hh0 : 0 < (Level_initFromMap map).height)
    (hSH : (SCREEN_TILES_H : Int) ≤ (Level_initFromMap map).width)
    (hSV : (SCREEN_TILES_V : Int) ≤ (Level_initFromMap map).height)
    (hslow : Horiz.SlowMoves SCREEN_TILES_H (Horiz.start SCREEN_TILES_V map w).1 ts) :
    ∀ k : Nat,
      let s := Horiz.frames SCREEN_TILES_H SCREEN_TILES_V (Horiz.start SCREEN_TILES_V map w)
        (ts.take k)
      let l := Level_initFromMap map
      s.1.level = l ∧
      ∀ wx i : Int, 0 ≤ wx → wx < l.width → s.1.x / 8 - 2 ≤ wx → wx ≤ s.1.x / 8 + 29 →
        0 ≤ i → i < SCREEN_TILES_V →
        s.2.vram (wx % 32) i = pgm_read_byte map (2 + i * l.width + wx) := by
  intro k s l
  have hl := levelOK_init map hw0 hh0
  have hinv := Horiz.hz_frames_inv SCREEN_TILES_H SCREEN_TILES_V l hl hSH hSV (ts.take k)
    (Horiz.start SCREEN_TILES_V map w)
    (Horiz.hz_start_inv SCREEN_TILES_H SCREEN_TILES_V map w hl hSH hSV)
    (Horiz.hz_slowMoves_take _ ts _ k hslow)
  exact ⟨hinv.level_eq, hinv.consistent⟩

theorem C6_single_axis_consistency_witness :
    Horiz.SlowMoves 28 (Horiz.start 28 demoMap demoHw).1 [8, 16, 15] ∧
    (Horiz.frames 28 28 (Horiz.start 28 demoMap demoHw) ([8, 16, 15].take 3)).2.vram
        (30 % 32) 27
      = pgm_read_byte demoMap (2 + 27 * (Level_initFromMap demoMap).width + 30) :=
  ⟨Horiz.hz_demo_slow,
   (C6_single_axis_consistency 28 28 demoMap demoHw [8, 16, 15] (by decide) (by decide)
      (by decide) (by decide) Horiz.hz_demo_slow 3).2 30 27 (by decide) (by decide) (by decide)
      (by decide) (by decide) (by decide)⟩

/-- C7. Map source format: after `Level_initFromMap(l, m)`, `l.width = m[0]` and
`l.height = m[1]` (each in `0..255`), and for every `x < l.width`, `y < l.height`,
`Level_getTileAt(l, y*l.width + x) = m[2 + y*l.width + x]`: the tiles are read row-major
right after the two header bytes. -/
theorem C7_map_format (m : Flash) :
    let l := Level_initFromMap m
    l.width = ((m 0).val : Int) ∧ l.height = ((m 1).val : Int) ∧
    (0 ≤ l.width ∧ l.width ≤ 255 ∧ 0 ≤ l.height ∧ l.height ≤ 255) ∧
    ∀ x y : Int, 0 ≤ x → x < l.width → 0 ≤ y → y < l.height →
      Level_getTileAt l (y * l.width + x) = ((m (2 + y * l.width + x).toNat).val : Int) := by
  intro l
  have hw := pgm_read_byte_range m 0
  have hh := pgm_read_byte_range m 1
  refine ⟨rfl, rfl, ⟨hw.1, hw.2, hh.1, hh.2⟩, ?_⟩
  intro x y hx0 hx hy0 hy
  have hl : LevelOK l := levelOK_init m (lt_of_le_of_lt hx0 hx) (lt_of_le_of_lt hy0 hy)
  exact getTileAt_inMap hl ⟨hx0, hx, hy0, hy⟩

theorem C7_map_format_witness :
    Level_getTileAt (Level_initFromMap demoMap) (3 * (Level_initFromMap demoMap).width + 5)
      = ((demoMap (2 + 3 * (Level_initFromMap demoMap).width + 5).toNat).val : Int) :=
  (C7_map_format demoMap).2.2.2 5 3 (by decide) (by decide) (by decide) (by decide)

namespace HorizVert

theorem rowFirst_vram (c : CAMERA) (w : Hw) :
    (Camera_update_rowFirst c w).vram =
      paintAll w.vram (Camera_update.yCalls c w.scrollY ++ Camera_update.xCalls c w.scrollX) := by
  simp only [Camera_update_rowFirst, Hw.setTiles]

theorem corner_mem_xCalls {SH SV : Nat} {c : CAMERA} (hl : LevelOK c.level)
    (hc : Clamped SH SV c) (w : Hw) (hcx : crossX c w) (wy : Int)
    (hm : InMap c.level (redrawnColumn c w) wy)
    (hwy : c.y / 8 - 2 ≤ wy ∧ wy ≤ c.y / 8 + 29) :
    tileCall c.level (redrawnColumn c w % 32) (wy % 32) wy (redrawnColumn c w)
        ∈ Camera_update.xCalls c w.scrollX ∧
      c.x / 8 - 2 ≤ redrawnColumn c w ∧ redrawnColumn c w ≤ c.x / 8 + 29 := by
  obtain ⟨e1, e2, h1, h2, h3, h4⟩ := cam_tile hl hc
  obtain ⟨m1, m2, m3, m4⟩ := hm
  have hwd := hl.width_le
  simp only [redrawnColumn, e1] at m1 m2 ⊢
  simp only [Camera_update.xCalls, e1, e2]
  have hcx1 : band w.scrollX (bnot (TILE_WIDTH - 1)) ≠ band (u8 c.x) (bnot (TILE_WIDTH - 1)) :=
    hcx
  rw [if_pos hcx1]
  split_ifs with hfw
  · rw [if_pos hfw] at m1 m2
    rw [mem_drawColumn hl _ _ _ h3 (by omega) (by omega) (by omega)]
    refine ⟨⟨⟨m1, m2⟩, wy, hwy.1, hwy.2, m3, m4, ?_⟩, by omega, by omega⟩
    rw [show u8 (c.x / 8 + 29) % 32 = (c.x / 8 + 29) % 32 by unfold u8; omega]
  · rw [if_neg hfw] at m1 m2
    rw [mem_drawColumn hl _ _ _ h3 (by omega) (by omega) (by omega)]
    refine ⟨⟨⟨m1, m2⟩, wy, hwy.1, hwy.2, m3, m4, ?_⟩, by omega, by omega⟩
    rw [show u8 (c.x / 8 + 30) % 32 = (c.x / 8 - 2) % 32 by unfold u8; omega]

theorem corner_mem_yCalls {SH SV : Nat} {c : CAMERA} (hl : LevelOK c.level)
    (hc : Clamped SH SV c) (w : Hw) (hcy : crossY c w) (wx : Int)
    (hm : InMap c.level wx (redrawnRow c w))
    (hwx : c.x / 8 - 2 ≤ wx ∧ wx ≤ c.x / 8 + 29) :
    tileCall c.level (wx % 32) (redrawnRow c w % 32) (redrawnRow c w) wx
        ∈ Camera_update.yCalls c w.scrollY ∧
      c.y / 8 - 2 ≤ redrawnRow c w ∧ redrawnRow c w ≤ c.y / 8 + 29 := by
  obtain ⟨e1, e2, h1, h2, h3, h4⟩ := cam_tile hl hc
  obtain ⟨m1, m2, m3, m4⟩ := hm
  have hht := hl.height_le
  simp only [redrawnRow, e2] at m3 m4 ⊢
  simp only [Camera_update.yCalls, e1, e2]
  have hcy1 : band w.scrollY (bnot (TILE_HEIGHT - 1)) ≠ band (u8 c.y) (bnot (TILE_HEIGHT - 1)) :=
    hcy
  rw [if_pos hcy1]
  split_ifs with hfw
  · rw [if_pos hfw] at m3 m4
    rw [mem_drawRow hl _ _ _ h1 (by omega) (by omega) (by omega)]
    refine ⟨⟨⟨m3, m4⟩, wx, hwx.1, hwx.2, m1, m2, ?_⟩, by omega, by omega⟩
    rw [show u8 (c.y / 8 + 29) % 32 = (c.y / 8 + 29) % 32 by unfold u8; omega]
  · rw [if_neg hfw] at m3 m4
    rw [mem_drawRow hl _ _ _ h1 (by omega) (by omega) (by omega)]
    refine ⟨⟨⟨m3, m4⟩, wx, hwx.1, hwx.2, m1, m2, ?_⟩, by omega, by omega⟩
    rw [show u8 (c.y / 8 + 30) % 32 = (c.y / 8 - 2) % 32 by unfold u8; omega]

/-- C8. Diagonal crossing is order-independent: for a clamped camera on a well-formed
level, the column-then-row order of `Camera_update` and the row-then-column order give the
same VRAM; and when both an X and a Y crossing are detected, the in-map corner tile
(redrawn column, redrawn row) is written by both redraws and its buffer cell ends up equal
to `Level_getTileAt` of its post-move world coordinates in either order. -/
theorem C8_diagonal_order_independent (SCREEN_TILES_H SCREEN_TILES_V : Nat) (c : CAMERA)
    (w : Hw) (hl : LevelOK c.level) (hc : Clamped SCREEN_TILES_H SCREEN_TILES_V c) :
    (Camera_update c w).vram = (Camera_update_rowFirst c w).vram ∧
    (crossX c w → crossY c w → InMap c.level (redrawnColumn c w) (redrawnRow c w) →
      (tileCall c.level (redrawnColumn c w % 32) (redrawnRow c w % 32) (redrawnRow c w)
          (redrawnColumn c w) ∈ Camera_update.xCalls c w.scrollX ∧
        tileCall c.level (redrawnColumn c w % 32) (redrawnRow c w % 32) (redrawnRow c w)
          (redrawnColumn c w) ∈ Camera_update.yCalls c w.scrollY) ∧
      InWindow (c.x / 8) (c.y / 8) (redrawnColumn c w) (redrawnRow c w) ∧
      (Camera_update c w).vram (redrawnColumn c w % 32) (redrawnRow c w % 32)
        = Level_getTileAt c.level (redrawnRow c w * c.level.width + redrawnColumn c w) ∧
      (Camera_update_rowFirst c w).vram (redrawnColumn c w % 32) (redrawnRow c w % 32)
        = Level_getTileAt c.level (redrawnRow c w * c.level.width + redrawnColumn c w)) := by
  have hadd : ∀ d ∈ Camera_update.xCalls c w.scrollX ++ Camera_update.yCalls c w.scrollY,
      Addressed c.level (c.x / 8) (c.y / 8) d := by
    intro d hd
    rcases List.mem_append.1 hd with h | h
    · exact xCalls_addressed hl hc _ d h
    · exact yCalls_addressed hl hc _ d h
  have heq : (Camera_update c w).vram = (Camera_update_rowFirst c w).vram := by
    rw [update_vram, rowFirst_vram]
    exact paintAll_congr_mem _ _ _ _ _ hadd (fun d => by
      simp only [List.mem_append]; exact Or.comm)
  refine ⟨heq, ?_⟩
  intro hcx hcy hm
  have hyw : c.y / 8 - 2 ≤ redrawnRow c w ∧ redrawnRow c w ≤ c.y / 8 + 29 := by
    obtain ⟨e1, e2, _⟩ := cam_tile hl hc
    simp only [redrawnRow, e2]
    split_ifs <;> omega
  obtain ⟨hmx, hxw⟩ := corner_mem_xCalls hl hc w hcx _ hm hyw
  obtain ⟨hmy, _⟩ := corner_mem_yCalls hl hc w hcy _ hm hxw
  have hwin : InWindow (c.x / 8) (c.y / 8) (redrawnColumn c w) (redrawnRow c w) :=
    ⟨hxw.1, hxw.2, hyw.1, hyw.2⟩
  have hval : (Camera_update c w).vram (redrawnColumn c w % 32) (redrawnRow c w % 32)
      = Level_getTileAt c.level (redrawnRow c w * c.level.width + redrawnColumn c w) := by
    rw [update_vram, getTileAt_inMap hl hm]
    have ht := (tileCall_inMap hl hm (redrawnColumn c w % 32) (redrawnRow c w % 32)).2
    have h := paintAll_target (Addressed c.level (c.x / 8) (c.y / 8))
      (fun a b ha hb => addressed_inj ha hb) w.vram _ hadd _ ⟨_, _, hm, hwin, rfl⟩
      (Or.inl (List.mem_append.2 (Or.inl hmx)))
    rw [ht] at h
    exact h
  exact ⟨⟨hmx, hmy⟩, hwin, hval, by rw [← heq]; exact hval⟩

end HorizVert

namespace HorizVert

theorem demo_levelOK : LevelOK (Level_initFromMap demoMap) :=
  ⟨rfl, by decide, by decide, by decide, by decide⟩

theorem C8_diagonal_order_independent_witness :
    (Clamped 28 28 demoCam ∧ crossX demoCam demoHwDiag ∧ crossY demoCam demoHwDiag ∧
      InMap demoCam.level (redrawnColumn demoCam demoHwDiag) (redrawnRow demoCam demoHwDiag)) ∧
    (Camera_update demoCam demoHwDiag).vram (redrawnColumn demoCam demoHwDiag % 32)
        (redrawnRow demoCam demoHwDiag % 32)
      = Level_getTileAt demoCam.level
          (redrawnRow demoCam demoHwDiag * demoCam.level.width
            + redrawnColumn demoCam demoHwDiag) :=
  have hc : Clamped 28 28 demoCam := ⟨by decide, by decide, by decide, by decide⟩
  have hx : crossX demoCam demoHwDiag := by unfold crossX; decide
  have hy : crossY demoCam demoHwDiag := by unfold crossY; decide
  have hm : InMap demoCam.level (redrawnColumn demoCam demoHwDiag)
      (redrawnRow demoCam demoHwDiag) := ⟨by decide, by decide, by decide, by decide⟩
  ⟨⟨hc, hx, hy, hm⟩,
   ((C8_diagonal_order_independent 28 28 demoCam demoHwDiag demo_levelOK hc).2 hx hy hm).2.2.1⟩

end HorizVert

namespace HorizVert

theorem colLoop_x (l : LEVEL) (tx y rx : Int) (d : TileCall) :
    ∀ (n : Nat) (i : Int), d ∈ Level_drawColumn.loop l tx y rx n i → d.x = tx := by
  intro n
  induction n with
  | zero => intro i h; cases h
  | succ n ih =>
    intro i h
    simp only [Level_drawColumn.loop] at h
    split_ifs at h
    · cases h
    · rcases List.mem_cons.1 h with rfl | h
      · rfl
      · exact ih _ h

theorem drawColumn_x (l : LEVEL) (x y rx : Int) :
    ∀ d ∈ Level_drawColumn l x y rx, d.x = u8 x % VRAM_TILES_H := by
  intro d hd
  simp only [Level_drawColumn] at hd
  by_cases hg : i16 rx < 0 ∨ u16 (i16 rx) > u16 (l.width - 1)
  · rw [if_pos hg] at hd; cases hd
  · rw [if_neg hg] at hd
    rcases List.mem_append.1 hd with h | h
    · rcases List.mem_append.1 h with h | h
      · exact colLoop_x _ _ _ _ _ _ _ h
      · split_ifs at h
        · rw [List.mem_singleton.1 h]; rfl
        · cases h
    · split_ifs at h
      · rw [List.mem_singleton.1 h]; rfl
      · cases h

theorem rowLoop_y (l : LEVEL) (x ty ry : Int) (d : TileCall) :
    ∀ (n : Nat) (i : Int), d ∈ Level_drawRow.loop l x ty ry n i → d.y = ty := by
  intro n
  induction n with
  | zero => intro i h; cases h
  | succ n ih =>
    intro i h
    simp only [Level_drawRow.loop] at h
    split_ifs at h
    · cases h
    · rcases List.mem_cons.1 h with rfl | h
      · rfl
      · exact ih _ h

theorem drawRow_y (l : LEVEL) (x y ry : Int) :
    ∀ d ∈ Level_drawRow l x y ry, d.y = u8 y % VRAM_TILES_V := by
  intro d hd
  simp only [Level_drawRow] at hd
  by_cases hg : i16 ry < 0 ∨ u16 (i16 ry) > u16 (l.height - 1)
  · rw [if_pos hg] at hd; cases hd
  · rw [if_neg hg] at hd
    rcases List.mem_append.1 hd with h | h
    · rcases List.mem_append.1 h with h | h
      · exact rowLoop_y _ _ _ _ _ _ _ h
      · split_ifs at h
        · rw [List.mem_singleton.1 h]; rfl
        · cases h
    · split_ifs at h
      · rw [List.mem_singleton.1 h]; rfl
      · cases h

theorem xCalls_strip (c : CAMERA) (w : Hw) :
    ∀ d ∈ Camera_update.xCalls c w.scrollX, crossX c w ∧ d.x = redrawnBufferColumn c w := by
  intro d hd
  simp only [Camera_update.xCalls] at hd
  by_cases hcr : band w.scrollX (bnot (TILE_WIDTH - 1)) ≠ band (u8 c.x) (bnot (TILE_WIDTH - 1))
  · rw [if_pos hcr] at hd
    refine ⟨hcr, ?_⟩
    simp only [redrawnBufferColumn]
    by_cases hfw : u8 (u8 c.x - w.scrollX) < u8 (w.scrollX - u8 c.x)
    · rw [if_pos hfw] at hd ⊢
      exact drawColumn_x _ _ _ _ d hd
    · rw [if_neg hfw] at hd ⊢
      exact drawColumn_x _ _ _ _ d hd
  · rw [if_neg hcr] at hd
    cases hd

theorem yCalls_strip (c : CAMERA) (w : Hw) :
    ∀ d ∈ Camera_update.yCalls c w.scrollY, crossY c w ∧ d.y = redrawnBufferRow c w := by
  intro d hd
  simp only [Camera_update.yCalls] at hd
  by_cases hcr : band w.scrollY (bnot (TILE_HEIGHT - 1)) ≠ band (u8 c.y) (bnot (TILE_HEIGHT - 1))
  · rw [if_pos hcr] at hd
    refine ⟨hcr, ?_⟩
    simp only [redrawnBufferRow]
    by_cases hfw : u8 (u8 c.y - w.scrollY) < u8 (w.scrollY - u8 c.y)
    · rw [if_pos hfw] at hd ⊢
      exact drawRow_y _ _ _ _ d hd
    · rw [if_neg hfw] at hd ⊢
      exact drawRow_y _ _ _ _ d hd
  · rw [if_neg hcr] at hd
    cases hd

end HorizVert

namespace Horiz

theorem hz_colLoop_x (l : LEVEL) (tx rx : Int) (d : TileCall) :
    ∀ (n : Nat) (i : Int), d ∈ Level_drawColumn.loop l tx rx n i → d.x = tx := by
  intro n
  induction n with
  | zero => intro i h; cases h
  | succ n ih =>
    intro i h
    simp only [Level_drawColumn.loop] at h
    rcases List.mem_cons.1 h with rfl | h
    · rfl
    · exact ih _ h

theorem hz_colLoop_length (l : LEVEL) (tx rx : Int) :
    ∀ (n : Nat) (i : Int), (Level_drawColumn.loop l tx rx n i).length = n := by
  intro n
  induction n with
  | zero => intro i; rfl
  | succ n ih => intro i; simp only [Level_drawColumn.loop, List.length_cons, ih]

theorem hz_drawColumn_strip (SV : Nat) (l : LEVEL) (x rx : Int) :
    ((Level_drawColumn SV l x rx).length = 0 ∨ (Level_drawColumn SV l x rx).length = SV) ∧
    ∀ d ∈ Level_drawColumn SV l x rx, d.x = u8 x % VRAM_TILES_H := by
  simp only [Level_drawColumn]
  split_ifs with h
  · exact ⟨Or.inl rfl, fun d hd => by cases hd⟩
  · exact ⟨Or.inr (hz_colLoop_length _ _ _ _ _), fun d hd => hz_colLoop_x _ _ _ _ _ _ hd⟩

theorem hz_update_calls (SV : Nat) (c : CAMERA) (w : Hw) :
    (Camera_update SV c w).calls = w.calls ++ Camera_update.xCalls SV c w.scrollX := by
  simp only [Camera_update, Hw.setTiles]

theorem hz_xCalls_strip (SV : Nat) (c : CAMERA) (w : Hw) :
    ((Camera_update.xCalls SV c w.scrollX).length = 0 ∨
      (Camera_update.xCalls SV c w.scrollX).length = SV) ∧
    ∀ d ∈ Camera_update.xCalls SV c w.scrollX, d.x = redrawnBufferColumn c w := by
  simp only [Camera_update.xCalls, redrawnBufferColumn]
  by_cases hcr : band w.scrollX (bnot (TILE_WIDTH - 1)) ≠ band (u8 c.x) (bnot (TILE_WIDTH - 1))
  · rw [if_pos hcr]
    by_cases hfw : u8 (u8 c.x - w.scrollX) < u8 (w.scrollX - u8 c.x)
    · rw [if_pos hfw, if_pos hfw]
      exact hz_drawColumn_strip SV _ _ _
    · rw [if_neg hfw, if_neg hfw]
      exact hz_drawColumn_strip SV _ _ _
  · rw [if_neg hcr]
    exact ⟨Or.inl rfl, fun d hd => by cases hd⟩

end Horiz

/-- C9. Partial redraw only touches one edge strip per axis: for every state of
`horiz-vert.c`, a single `Camera_update` changes VRAM cells only inside the redrawn buffer
column (and only when an X crossing is detected) and the redrawn buffer row (and only when
a Y crossing is detected); every other cell is unchanged, and when no crossing is detected
VRAM is unchanged and no `SetTile` call is issued (the camera and the level are not written
by `Camera_update`).  In `horiz.c` a single `Camera_update` issues either 0 or exactly
`SCREEN_TILES_V` `SetTile` calls, all in the same buffer column. -/
theorem C9_partial_redraw (SCREEN_TILES_V : Nat) (c : HorizVert.CAMERA) (ch : Horiz.CAMERA)
    (w : Hw) (_hSV : SCREEN_TILES_V ≤ 255) :
    (∀ a b : Int,
      (a ≠ HorizVert.redrawnBufferColumn c w ∨ ¬ HorizVert.crossX c w) →
      (b ≠ HorizVert.redrawnBufferRow c w ∨ ¬ HorizVert.crossY c w) →
      (HorizVert.Camera_update c w).vram a b = w.vram a b) ∧
    (¬ HorizVert.crossX c w → ¬ HorizVert.crossY c w →
      (HorizVert.Camera_update c w).vram = w.vram ∧
      (HorizVert.Camera_update c w).calls = w.calls) ∧
    (∃ new : List TileCall,
      (Horiz.Camera_update SCREEN_TILES_V ch w).calls = w.calls ++ new ∧
      (new.length = 0 ∨ new.length = SCREEN_TILES_V) ∧
      ∀ d ∈ new, d.x = Horiz.redrawnBufferColumn ch w) := by
  have hframe : ∀ a b : Int,
      (a ≠ HorizVert.redrawnBufferColumn c w ∨ ¬ HorizVert.crossX c w) →
      (b ≠ HorizVert.redrawnBufferRow c w ∨ ¬ HorizVert.crossY c w) →
      (HorizVert.Camera_update c w).vram a b = w.vram a b := by
    intro a b ha hb
    rw [HorizVert.update_vram]
    apply paintAll_frame
    intro d hd hcell
    rcases List.mem_append.1 hd with h | h
    · obtain ⟨h1, h2⟩ := HorizVert.xCalls_strip c w d h
      rcases ha with ha | ha
      · exact ha (by rw [hcell.1, h2])
      · exact ha h1
    · obtain ⟨h1, h2⟩ := HorizVert.yCalls_strip c w d h
      rcases hb with hb | hb
      · exact hb (by rw [hcell.2, h2])
      · exact hb h1
  refine ⟨hframe, ?_, ?_⟩
  · intro hx hy
    refine ⟨?_, ?_⟩
    · funext a b
      exact hframe a b (Or.inr hx) (Or.inr hy)
    · have e1 : HorizVert.Camera_update.xCalls c w.scrollX = [] := by
        cases hxc : HorizVert.Camera_update.xCalls c w.scrollX with
        | nil => rfl
        | cons d ds =>
          exact absurd (HorizVert.xCalls_strip c w d (by rw [hxc]; exact List.mem_cons_self _ _)).1 hx
      have e2 : HorizVert.Camera_update.yCalls c w.scrollY = [] := by
        cases hyc : HorizVert.Camera_update.yCalls c w.scrollY with
        | nil => rfl
        | cons d ds =>
          exact absurd (HorizVert.yCalls_strip c w d (by rw [hyc]; exact List.mem_cons_self _ _)).1 hy
      rw [HorizVert.update_calls, e1, e2, List.append_nil, List.append_nil]
  · exact ⟨_, Horiz.hz_update_calls SCREEN_TILES_V ch w,
      (Horiz.hz_xCalls_strip SCREEN_TILES_V ch w).1, (Horiz.hz_xCalls_strip SCREEN_TILES_V ch w).2⟩

theorem C9_partial_redraw_witness :
    (28 : Nat) ≤ 255 ∧
    ∀ a b : Int,
      (a ≠ HorizVert.redrawnBufferColumn demoCam demoHwDiag ∨
        ¬ HorizVert.crossX demoCam demoHwDiag) →
      (b ≠ HorizVert.redrawnBufferRow demoCam demoHwDiag ∨
        ¬ HorizVert.crossY demoCam demoHwDiag) →
      (HorizVert.Camera_update demoCam demoHwDiag).vram a b = demoHwDiag.vram a b :=
  ⟨by decide,
   (C9_partial_redraw 28 demoCam ⟨8, Level_initFromMap demoMap⟩ demoHwDiag (by decide)).1⟩

theorem HorizVert.moveTo_x (SH SV : Nat) (c : HorizVert.CAMERA) (x y : Int)
    (hSH : (SH : Int) ≤ c.level.width) (hw : c.level.width ≤ 255) :
    (HorizVert.Camera_moveTo SH SV c x y).x
      = min (max (i16 x) 0) ((c.level.width - SH) * 8) := by
  simp only [HorizVert.Camera_moveTo, TILE_WIDTH]
  exact clamp_axis _ _ _ hSH hw

theorem HorizVert.moveTo_y (SH SV : Nat) (c : HorizVert.CAMERA) (x y : Int)
    (hSV : (SV : Int) ≤ c.level.height) (hh : c.level.height ≤ 255) :
    (HorizVert.Camera_moveTo SH SV c x y).y
      = min (max (i16 y) 0) ((c.level.height - SV) * 8) := by
  simp only [HorizVert.Camera_moveTo, TILE_HEIGHT]
  exact clamp_axis _ _ _ hSV hh

/-- C10. Boundary pinning: on any level with `SCREEN_TILES_H <= width` (a byte), if the
camera is at `c.x = xMax` and `Camera_update` has been called at that position, then for
every `k >= 0` with `xMax + k` representable in int16, `Camera_moveTo(c, xMax + k, c.y)`
leaves `c.x = xMax` and the X block of the following `Camera_update` issues no `SetTile`
call and no `Level_getTileAt` query; symmetrically for the Y axis on any level with
`SCREEN_TILES_V <= height`.  Neither half assumes anything about the other axis. -/
theorem C10_boundary_pinning (SCREEN_TILES_H SCREEN_TILES_V : Nat) (c : HorizVert.CAMERA)
    (w0 : Hw) (k : Int) (hk : 0 ≤ k) :
    let w := HorizVert.Camera_update c w0
    ((SCREEN_TILES_H : Int) ≤ c.level.width → c.level.width ≤ 255 →
      c.x = (c.level.width - SCREEN_TILES_H) * TILE_WIDTH → c.x + k ≤ 32767 →
      let c1 := HorizVert.Camera_moveTo SCREEN_TILES_H SCREEN_TILES_V c (c.x + k) c.y
      c1.x = c.x ∧ HorizVert.Camera_update.xCalls c1 w.scrollX = []) ∧
    ((SCREEN_TILES_V : Int) ≤ c.level.height → c.level.height ≤ 255 →
      c.y = (c.level.height - SCREEN_TILES_V) * TILE_HEIGHT → c.y + k ≤ 32767 →
      let c2 := HorizVert.Camera_moveTo SCREEN_TILES_H SCREEN_TILES_V c c.x (c.y + k)
      c2.y = c.y ∧ HorizVert.Camera_update.yCalls c2 w.scrollY = []) := by
  intro w
  have hsx : w.scrollX = u8 c.x := (HorizVert.update_scroll c w0).1
  have hsy : w.scrollY = u8 c.y := (HorizVert.update_scroll c w0).2
  constructor
  · intro hSH hw hx hk16 c1
    have hsp := HorizVert.moveTo_x SCREEN_TILES_H SCREEN_TILES_V c (c.x + k) c.y hSH hw
    have e : c1.x = c.x := by
      show (HorizVert.Camera_moveTo SCREEN_TILES_H SCREEN_TILES_V c (c.x + k) c.y).x = c.x
      rw [hsp, i16_id (by simp only [TILE_WIDTH] at hx; omega) hk16]
      simp only [TILE_WIDTH] at hx
      omega
    refine ⟨e, ?_⟩
    have := HorizVert.xCalls_self c1
    rw [e] at this
    rw [hsx]
    exact this
  · intro hSV hh hy hk16 c2
    have hsp := HorizVert.moveTo_y SCREEN_TILES_H SCREEN_TILES_V c c.x (c.y + k) hSV hh
    have e : c2.y = c.y := by
      show (HorizVert.Camera_moveTo SCREEN_TILES_H SCREEN_TILES_V c c.x (c.y + k)).y = c.y
      rw [hsp, i16_id (by simp only [TILE_HEIGHT] at hy; omega) hk16]
      simp only [TILE_HEIGHT] at hy
      omega
    refine ⟨e, ?_⟩
    have := HorizVert.yCalls_self c2
    rw [e] at this
    rw [hsy]
    exact this

theorem C10_boundary_pinning_witness :
    ((0 : Int) ≤ 5 ∧ ((28 : Nat) : Int) ≤ (Level_initFromMap demoMap).width ∧
      (96 : Int) = ((Level_initFromMap demoMap).width - (28 : Nat)) * TILE_WIDTH) ∧
    (HorizVert.Camera_moveTo 28 60 ⟨96, 0, Level_initFromMap demoMap⟩ (96 + 5) 0).x = 96 ∧
    HorizVert.Camera_update.xCalls
      (HorizVert.Camera_moveTo 28 60 ⟨96, 0, Level_initFromMap demoMap⟩ (96 + 5) 0)
      (HorizVert.Camera_update ⟨96, 0, Level_initFromMap demoMap⟩ demoHw).scrollX = [] :=
  ⟨⟨by decide, by decide, by decide⟩,
   (C10_boundary_pinning 28 60 ⟨96, 0, Level_initFromMap demoMap⟩ demoHw 5 (by decide)).1
      (by decide) (by decide) (by decide) (by decide)⟩


/-- C11 (as stated, refuted). The claim says `Level_getTileAt` fails with `OutOfRange` when
the index exceeds `width*height - 1`.  On the 40 x 40 demo level the index 1600 exceeds
1599, the spec's lookup fails, but the C function returns the byte 66 found past the tile
data: it has no bounds check and no failure path. -/
theorem C11_lookup_counterexample :
    (1600 : Int) > (Level_initFromMap demoMap).width * (Level_initFromMap demoMap).height - 1 ∧
    tileAt_spec (Level_initFromMap demoMap) 1600 = Except.error LookupError.OutOfRange ∧
    Level_getTileAt.outcome (Level_initFromMap demoMap) 1600 = Except.ok 66 ∧
    Level_getTileAt.outcome (Level_initFromMap demoMap) 1600
      ≠ Except.error LookupError.OutOfRange := by
  refine ⟨by decide, ?_, ?_, ?_⟩
  · unfold tileAt_spec
    rw [if_pos (by decide)]
  · unfold Level_getTileAt.outcome
    congr 1
  · unfold Level_getTileAt.outcome
    intro h
    cases h

/-- C11 (amended). `Level_getTileAt` performs no bounds check and never fails: for every
uint16 index it returns the byte at map offset `(2 + index) mod 65536`; when
`index <= width*height - 1` this is the tile identifier `m[2 + index]` and the call agrees
with the spec's lookup. -/
theorem C11_lookup_total (map : Flash) (index : Int) (h0 : 0 ≤ index) (h1 : index ≤ 65535) :
    Level_getTileAt.outcome (Level_initFromMap map) index
      = Except.ok (pgm_read_byte map ((2 + index) % 65536)) ∧
    (0 ≤ pgm_read_byte map ((2 + index) % 65536) ∧
      pgm_read_byte map ((2 + index) % 65536) ≤ 255) ∧
    (index ≤ (Level_initFromMap map).width * (Level_initFromMap map).height - 1 →
      Level_getTileAt.outcome (Level_initFromMap map) index
        = Except.ok (pgm_read_byte map (2 + index)) ∧
      Level_getTileAt.outcome (Level_initFromMap map) index
        = tileAt_spec (Level_initFromMap map) index) := by
  have e : Level_getTileAt (Level_initFromMap map) index
      = pgm_read_byte map ((2 + index) % 65536) := by
    simp only [Level_getTileAt, Level_initFromMap, u16]
    rw [Int.emod_eq_of_lt h0 (by omega)]
  refine ⟨by simp only [Level_getTileAt.outcome, e], pgm_read_byte_range _ _, ?_⟩
  intro hin
  have hw := pgm_read_byte_range map 0
  have hh := pgm_read_byte_range map 1
  have hwh : (Level_initFromMap map).width * (Level_initFromMap map).height ≤ 255 * 255 :=
    mul_le_mul hw.2 hh.2 hh.1 (by norm_num)
  have e2 : (2 + index) % 65536 = 2 + index := Int.emod_eq_of_lt (by omega) (by omega)
  refine ⟨by simp only [Level_getTileAt.outcome, e, e2], ?_⟩
  simp only [Level_getTileAt.outcome, e, e2, tileAt_spec]
  rw [if_neg (by omega)]
  rfl

theorem C11_lookup_total_witness :
    ((0 : Int) ≤ 1600 ∧ (1600 : Int) ≤ 65535) ∧
    Level_getTileAt.outcome (Level_initFromMap demoMap) 1600
      = Except.ok (pgm_read_byte demoMap ((2 + 1600) % 65536)) :=
  ⟨⟨by decide, by decide⟩, (C11_lookup_total demoMap 1600 (by decide) (by decide)).1⟩

namespace Horiz

theorem hz_rightMoves_x (SH SV : Nat) :
    ∀ (n : Nat) (s : CAMERA × Hw), (SH : Int) ≤ s.1.level.width → s.1.level.width ≤ 255 →
      0 ≤ s.1.x → s.1.x ≤ (s.1.level.width - SH) * 8 →
      (rightMoves SH SV n s).1.x = min (s.1.x + n) ((s.1.level.width - SH) * 8) := by
  intro n
  induction n with
  | zero =>
    intro s _ _ _ h
    simp only [rightMoves]
    push_cast
    omega
  | succ n ih =>
    intro s hSH hw h0 h1
    obtain ⟨ex, el⟩ := hz_moveTo_spec SH s.1 (s.1.x + 1) hSH hw
    rw [i16_id (by omega) (by omega)] at ex
    have hs : (stepRight SH SV s).1 = Camera_moveTo SH s.1 (s.1.x + 1) := rfl
    have := ih (stepRight SH SV s) (by rw [hs, el]; exact hSH) (by rw [hs, el]; exact hw)
      (by rw [hs, ex]; omega) (by rw [hs, ex, el]; omega)
    simp only [rightMoves]
    rw [this, hs, ex, el]
    push_cast
    omega

theorem hz_start_x (SV : Nat) (map : Flash) (w : Hw) :
    (start SV map w).1.x = 0 ∧ (start SV map w).1.level = Level_initFromMap map :=
  ⟨rfl, rfl⟩

end Horiz

/-- C12 (as stated, refuted). On the width-40 demo level with `SCREEN_TILES_H = 28`, after
30 passes of the main loop with `BTN_RIGHT` held (each `Camera_moveTo(c, c.x + 1)` then
`Camera_update`) the camera is at `x = 30`, not clamped at 96. -/
theorem C12_worked_example_counterexample :
    (Level_initFromMap demoMap).width = 40 ∧
    (Horiz.rightMoves 28 28 30 (Horiz.start 28 demoMap demoHw)).1.x = 30 ∧
    (Horiz.rightMoves 28 28 30 (Horiz.start 28 demoMap demoHw)).1.x ≠ 96 := by
  have h := Horiz.hz_rightMoves_x 28 28 30 (Horiz.start 28 demoMap demoHw) (by decide)
    (by decide) (by decide) (by decide)
  have e : (Horiz.rightMoves 28 28 30 (Horiz.start 28 demoMap demoHw)).1.x = 30 := by
    rw [h]; decide
  exact ⟨by decide, e, by rw [e]; decide⟩

/-- C12 (amended). For a level of width 40 with `SCREEN_TILES_H = 28`, starting from
`Camera_init` and `Camera_fillVram`, after `n` single-right moves of the main loop the
camera is at `x = min(n, 96)`: it is at 30 after 30 moves and is clamped at
`(40-28)*8 = 96` from the 96th move on. -/
theorem C12_worked_example (SCREEN_TILES_V : Nat) (map : Flash) (w : Hw) (n : Nat)
    (hw : (Level_initFromMap map).width = 40) :
    (Horiz.rightMoves 28 SCREEN_TILES_V n (Horiz.start SCREEN_TILES_V map w)).1.x
      = min (n : Int) 96 ∧
    (n = 30 →
      (Horiz.rightMoves 28 SCREEN_TILES_V n (Horiz.start SCREEN_TILES_V map w)).1.x = 30) ∧
    (96 ≤ n →
      (Horiz.rightMoves 28 SCREEN_TILES_V n (Horiz.start SCREEN_TILES_V map w)).1.x
        = (40 - 28) * 8) := by
  obtain ⟨e0, el⟩ := Horiz.hz_start_x SCREEN_TILES_V map w
  have h := Horiz.hz_rightMoves_x 28 SCREEN_TILES_V n (Horiz.start SCREEN_TILES_V map w)
    (by rw [el, hw]; norm_num) (by rw [el, hw]; norm_num) (by rw [e0])
    (by rw [e0, el, hw]; norm_num)
  rw [e0, el, hw] at h
  have h2 : (Horiz.rightMoves 28 SCREEN_TILES_V n (Horiz.start SCREEN_TILES_V map w)).1.x
      = min (n : Int) 96 := by
    rw [h]; norm_num
  refine ⟨h2, ?_, ?_⟩
  · intro hn; rw [h2, hn]; norm_num
  · intro hn; rw [h2]; omega

theorem C12_worked_example_witness :
    (Level_initFromMap demoMap).width = 40 ∧
    (Horiz.rightMoves 28 28 96 (Horiz.start 28 demoMap demoHw)).1.x = min ((96 : Nat) : Int) 96 :=
  ⟨by decide, (C12_worked_example 28 demoMap demoHw 96 (by decide)).1⟩


/-- Two runs of `SetTile` sequences agree on a region `R` of the buffer when the buffers
agreed on `R` before, the first sequence is contained in the second, every call of the
second that lands in `R` is also in the first, and calls of the second that hit the same
cell carry the same tile. -/
theorem paintAll_agree (R : Int → Int → Prop) (cs ds : List TileCall) (v1 v2 : VRAM)
    (hv : ∀ a b, R a b → v1 a b = v2 a b)
    (hds : ∀ c ∈ ds, ∀ d ∈ ds, c.x = d.x → c.y = d.y → c.tile = d.tile)
    (hsub : ∀ c ∈ cs, c ∈ ds)
    (hmem : ∀ d ∈ ds, R d.x d.y → d ∈ cs) :
    ∀ a b, R a b → paintAll v1 cs a b = paintAll v2 ds a b := by
  intro a b hR
  by_cases hit : ∃ c ∈ cs, a = c.x ∧ b = c.y
  · obtain ⟨c, hc, hx, hy⟩ := hit
    have h1 : paintAll v1 cs a b = c.tile :=
      paintAll_hit cs v1 a b _ ⟨c, hc, hx, hy⟩ (fun d hd hdx hdy =>
        hds d (hsub d hd) c (hsub c hc) (by rw [← hdx, hx]) (by rw [← hdy, hy]))
    have h2 : paintAll v2 ds a b = c.tile :=
      paintAll_hit ds v2 a b _ ⟨c, hsub c hc, hx, hy⟩ (fun d hd hdx hdy =>
        hds d hd c (hsub c hc) (by rw [← hdx, hx]) (by rw [← hdy, hy]))
    rw [h1, h2]
  · rw [paintAll_frame cs v1 a b (fun c hc hcell => hit ⟨c, hc, hcell⟩),
      paintAll_frame ds v2 a b (fun d hd hcell =>
        hit ⟨d, hmem d hd (by rw [← hcell.1, ← hcell.2]; exact hR), hcell⟩)]
    exact hv a b hR

theorem addressed_coherent {l : LEVEL} {cxt cyt : Int} (ds : List TileCall)
    (h : ∀ d ∈ ds, Addressed l cxt cyt d) :
    ∀ c ∈ ds, ∀ d ∈ ds, c.x = d.x → c.y = d.y → c.tile = d.tile := by
  intro c hc d hd hx hy
  rw [addressed_inj (h c hc) (h d hd) hx hy]

theorem tileCall_y (l : LEVEL) (x y row col : Int) : (tileCall l x y row col).y = y := rfl

theorem tileCall_x (l : LEVEL) (x y row col : Int) : (tileCall l x y row col).x = x := rfl

namespace HorizVert

/-- A column redraw of `horiz.c` is the part of the column redraw of `horiz-vert.c` at
camera row 0 that lands in buffer rows `0..SCREEN_TILES_V-1`. -/
theorem drawColumn_restrict (SV : Nat) {l : LEVEL} (hl : LevelOK l) (hSV : (SV : Int) ≤ l.height)
    (hSV30 : SV ≤ 30) (x rx : Int) (hr0 : -32768 ≤ rx) (hr1 : rx ≤ 32767) :
    (∀ c ∈ Horiz.Level_drawColumn SV l x rx, c ∈ Level_drawColumn l x 0 rx) ∧
    (∀ d ∈ Level_drawColumn l x 0 rx, 0 ≤ d.y ∧ d.y < SV →
      d ∈ Horiz.Level_drawColumn SV l x rx) := by
  have hh := hl.height_pos
  constructor
  · intro c hc
    rw [Horiz.hz_mem_drawColumn SV hl x rx hr0 hr1] at hc
    obtain ⟨hg, i, i0, i1, rfl⟩ := hc
    rw [mem_drawColumn hl x 0 rx (le_refl _) (by omega) hr0 hr1]
    refine ⟨hg, i, by omega, by omega, i0, by omega, ?_⟩
    rw [show i % 32 = i by omega]
  · intro d hd hy
    rw [mem_drawColumn hl x 0 rx (le_refl _) (by omega) hr0 hr1] at hd
    obtain ⟨hg, wy, a1, a2, a3, a4, rfl⟩ := hd
    rw [tileCall_y] at hy
    rw [Horiz.hz_mem_drawColumn SV hl x rx hr0 hr1]
    refine ⟨hg, wy, a3, by omega, ?_⟩
    rw [show wy % 32 = wy by omega]

theorem yCalls_zero (c : CAMERA) (hy : c.y = 0) : Camera_update.yCalls c 0 = [] := by
  have h := yCalls_self c
  rw [hy] at h
  exact h

theorem xCalls_zero (c : CAMERA) (hx : c.x = 0) : Camera_update.xCalls c 0 = [] := by
  have h := xCalls_self c
  rw [hx] at h
  exact h

/-- The calls of `Camera_update` of `horiz.c` versus the X block of `horiz-vert.c` at
camera row 0. -/
theorem xCalls_restrict {SH : Nat} (SV : Nat) {c : CAMERA} (hl : LevelOK c.level)
    (hc : Clamped SH SV c) (hy : c.y = 0) (hSV : (SV : Int) ≤ c.level.height)
    (hSV30 : SV ≤ 30) (prevX : Int) :
    (∀ d ∈ Horiz.Camera_update.xCalls SV ⟨c.x, c.level⟩ prevX,
      d ∈ Camera_update.xCalls c prevX) ∧
    (∀ d ∈ Camera_update.xCalls c prevX, 0 ≤ d.y ∧ d.y < SV →
      d ∈ Horiz.Camera_update.xCalls SV ⟨c.x, c.level⟩ prevX) := by
  obtain ⟨e1, e2, h1, h2, h3, h4⟩ := cam_tile hl hc
  have hwd := hl.width_le
  have e0 : c.y / 8 = 0 := by omega
  simp only [Camera_update.xCalls, Horiz.Camera_update.xCalls, e1, e2, e0]
  by_cases hcr : band prevX (bnot (TILE_WIDTH - 1)) ≠ band (u8 c.x) (bnot (TILE_WIDTH - 1))
  · rw [if_pos hcr, if_pos hcr]
    by_cases hfw : u8 (u8 c.x - prevX) < u8 (prevX - u8 c.x)
    · rw [if_pos hfw, if_pos hfw]
      exact drawColumn_restrict SV hl hSV hSV30 _ _ (by omega) (by omega)
    · rw [if_neg hfw, if_neg hfw]
      exact drawColumn_restrict SV hl hSV hSV30 _ _ (by omega) (by omega)
  · rw [if_neg hcr, if_neg hcr]
    exact ⟨fun d hd => hd, fun d hd _ => hd⟩

/-- The calls of `Camera_fillVram` of `horiz.c` versus those of `horiz-vert.c` at camera
row 0. -/
theorem fill_restrict {SH : Nat} (SV : Nat) {c : CAMERA} (hl : LevelOK c.level)
    (hc : Clamped SH SV c) (hy : c.y = 0) (hSV : (SV : Int) ≤ c.level.height)
    (hSV30 : SV ≤ 30) :
    (∀ d ∈ Horiz.Camera_fillVram.calls SV ⟨c.x, c.level⟩, d ∈ Camera_fillVram.calls c) ∧
    (∀ d ∈ Camera_fillVram.calls c, 0 ≤ d.y ∧ d.y < SV →
      d ∈ Horiz.Camera_fillVram.calls SV ⟨c.x, c.level⟩) := by
  obtain ⟨e1, e2, h1, h2, h3, h4⟩ := cam_tile hl hc
  have hwd := hl.width_le
  have e0 : c.y / 8 = 0 := by omega
  simp only [Camera_fillVram.calls, Horiz.Camera_fillVram.calls, e1, e2, e0, List.mem_append,
    mem_fillLoop, Horiz.hz_mem_fillLoop]
  constructor
  · rintro d ((⟨j, j0, j1, hd⟩ | hd) | hd)
    · have hj : j < 30 := by
        have : ((VRAM_TILES_H - 2).toNat : Int) = 30 := by decide
        omega
      exact Or.inl (Or.inl ⟨j, j0, j1,
        (drawColumn_restrict SV hl hSV hSV30 _ _ (by omega) (by omega)).1 d hd⟩)
    · exact Or.inl (Or.inr
        ((drawColumn_restrict SV hl hSV hSV30 _ _ (by omega) (by omega)).1 d hd))
    · exact Or.inr ((drawColumn_restrict SV hl hSV hSV30 _ _ (by omega) (by omega)).1 d hd)
  · rintro d ((⟨j, j0, j1, hd⟩ | hd) | hd) hy
    · have hj : j < 30 := by
        have : ((VRAM_TILES_H - 2).toNat : Int) = 30 := by decide
        omega
      exact Or.inl (Or.inl ⟨j, j0, j1,
        (drawColumn_restrict SV hl hSV hSV30 _ _ (by omega) (by omega)).2 d hd hy⟩)
    · exact Or.inl (Or.inr
        ((drawColumn_restrict SV hl hSV hSV30 _ _ (by omega) (by omega)).2 d hd hy))
    · exact Or.inr
        ((drawColumn_restrict SV hl hSV hSV30 _ _ (by omega) (by omega)).2 d hd hy)

end HorizVert

namespace HorizVert

theorem hz_cam_eta (ch : Horiz.CAMERA) (c : CAMERA) (hx : ch.x = c.x)
    (hl : ch.level = c.level) : ch = ⟨c.x, c.level⟩ := by
  cases ch
  simp only at hx hl
  rw [hx, hl]

theorem simX_start (SH SV : Nat) (m : Flash) (w : Hw) (hl : LevelOK (Level_initFromMap m))
    (hSH : (SH : Int) ≤ (Level_initFromMap m).width)
    (hSV : (SV : Int) ≤ (Level_initFromMap m).height) (hSV30 : SV ≤ 30) :
    SimX SH SV (Level_initFromMap m) (Horiz.start SV m w) (start m w) := by
  have hc : Clamped SH SV ⟨0, 0, Level_initFromMap m⟩ := by
    simp only [Clamped, TILE_WIDTH, TILE_HEIGHT]
    omega
  refine ⟨rfl, rfl, hc, rfl, rfl, ?_, ?_, ?_⟩
  · simp only [start, Horiz.start, Camera_fillVram, Horiz.Camera_fillVram, Hw.setTiles,
      Camera_init, Horiz.Camera_init]
  · simp only [start, Camera_fillVram, Hw.setTiles, Camera_init]
    rfl
  · intro a b b0 b1
    have hr := fill_restrict SV (c := ⟨0, 0, Level_initFromMap m⟩) hl hc rfl hSV hSV30
    have e1 : (Horiz.start SV m w).2.vram
        = paintAll w.vram (Horiz.Camera_fillVram.calls SV ⟨0, Level_initFromMap m⟩) := by
      simp only [Horiz.start, Horiz.Camera_fillVram, Hw.setTiles, Horiz.Camera_init]
    have e2 : (start m w).2.vram
        = paintAll w.vram (Camera_fillVram.calls ⟨0, 0, Level_initFromMap m⟩) := by
      simp only [start, Camera_fillVram, Hw.setTiles, Camera_init]
    rw [e1, e2]
    exact paintAll_agree (fun _ y => 0 ≤ y ∧ y < SV) _ _ _ _ (fun _ _ _ => rfl)
      (addressed_coherent _ (fill_addressed hl hc)) hr.1 hr.2 a b ⟨b0, b1⟩

theorem simX_frame (SH SV : Nat) (l : LEVEL) (hl : LevelOK l) (hSH : (SH : Int) ≤ l.width)
    (hSV : (SV : Int) ≤ l.height) (hSV30 : SV ≤ 30) (sh : Horiz.CAMERA × Hw)
    (s : CAMERA × Hw) (h : SimX SH SV l sh s) (x : Int) :
    SimX SH SV l (Horiz.frame SH SV sh x) (frame SH SV s (x, 0)) := by
  obtain ⟨hlh, hls, hcl, hx, hy, hsx, hsy, hv⟩ := h
  subst hls
  have hsp := moveTo_spec SH SV s.1 x 0 hSH hl.width_le hSV hl.height_le
  have hzsp := Horiz.hz_moveTo_spec SH sh.1 x (by rw [hlh]; exact hSH)
    (by rw [hlh]; exact hl.width_le)
  have hc := moveTo_clamped SH SV s.1 x 0 hSH hl.width_le hSV hl.height_le
  have hl1 : LevelOK (Camera_moveTo SH SV s.1 x 0).level := by rw [hsp.2.2]; exact hl
  have hx1 : (Horiz.Camera_moveTo SH sh.1 x).x = (Camera_moveTo SH SV s.1 x 0).x := by
    rw [hzsp.1, hsp.1, hlh]
  have hy1 : (Camera_moveTo SH SV s.1 x 0).y = 0 := by
    rw [hsp.2.1, i16_id (by norm_num) (by norm_num)]
    have := hl.height_le
    omega
  have heta := hz_cam_eta (Horiz.Camera_moveTo SH sh.1 x) (Camera_moveTo SH SV s.1 x 0) hx1
    (by rw [hzsp.2, hsp.2.2, hlh])
  have hr := xCalls_restrict SV hl1 hc hy1 (by rw [hsp.2.2]; exact hSV) hSV30
    s.2.scrollX
  refine ⟨by show (Horiz.Camera_moveTo SH sh.1 x).level = s.1.level; rw [hzsp.2, hlh],
    hsp.2.2, hc, hx1, hy1, ?_, ?_, ?_⟩
  · show (Horiz.Camera_update SV (Horiz.Camera_moveTo SH sh.1 x) sh.2).scrollX
      = (Camera_update (Camera_moveTo SH SV s.1 x 0) s.2).scrollX
    rw [Horiz.hz_update_scroll, (update_scroll _ _).1, hx1]
  · show (Camera_update (Camera_moveTo SH SV s.1 x 0) s.2).scrollY = 0
    rw [(update_scroll _ _).2, hy1]
    rfl
  · intro a b b0 b1
    show (Horiz.Camera_update SV (Horiz.Camera_moveTo SH sh.1 x) sh.2).vram a b
      = (Camera_update (Camera_moveTo SH SV s.1 x 0) s.2).vram a b
    rw [Horiz.hz_update_vram, update_vram, hsy, yCalls_zero _ hy1, List.append_nil, heta, hsx]
    exact paintAll_agree (fun _ y => 0 ≤ y ∧ y < SV) _ _ _ _
      (fun a b hb => hv a b hb.1 hb.2)
      (addressed_coherent _ (xCalls_addressed hl1 hc _)) hr.1 hr.2 a b ⟨b0, b1⟩

theorem simX_frames (SH SV : Nat) (l : LEVEL) (hl : LevelOK l) (hSH : (SH : Int) ≤ l.width)
    (hSV : (SV : Int) ≤ l.height) (hSV30 : SV ≤ 30) (xs : List Int) :
    ∀ (sh : Horiz.CAMERA × Hw) (s : CAMERA × Hw), SimX SH SV l sh s →
      SimX SH SV l (Horiz.frames SH SV sh xs) (framesX SH SV s xs) := by
  induction xs with
  | nil => intro sh s h; exact h
  | cons x xs ih =>
    intro sh s h
    exact ih _ _ (simX_frame SH SV l hl hSH hSV hSV30 sh s h x)

end HorizVert

namespace Vert

theorem vt_mem_rowLoop (l : LEVEL) (ty ry : Int) (c : TileCall) :
    ∀ (n : Nat) (i : Int),
      (c ∈ Level_drawRow.loop l ty ry n i ↔
        ∃ j, i ≤ j ∧ j < i + n ∧ c = tileCall l j ty ry j) := by
  intro n
  induction n with
  | zero =>
    intro i
    simp only [Level_drawRow.loop, List.not_mem_nil, false_iff]
    rintro ⟨j, h1, h2, _⟩
    simp at h2
    omega
  | succ n ih =>
    intro i
    simp only [Level_drawRow.loop, List.mem_cons, ih (i + 1)]
    constructor
    · rintro (rfl | ⟨j, h1, h2, rfl⟩)
      · exact ⟨i, le_refl _, by push_cast; omega, rfl⟩
      · exact ⟨j, by omega, by push_cast; omega, rfl⟩
    · rintro ⟨j, h1, h2, rfl⟩
      push_cast at h2
      by_cases hji : j = i
      · subst hji; exact Or.inl rfl
      · exact Or.inr ⟨j, by omega, by omega, rfl⟩

theorem vt_mem_drawRow (SH : Nat) {l : LEVEL} (hl : LevelOK l) (y ry : Int)
    (hr0 : -32768 ≤ ry) (hr1 : ry ≤ 32767) (c : TileCall) :
    c ∈ Level_drawRow SH l y ry ↔
      (0 ≤ ry ∧ ry < l.height) ∧
        ∃ i : Int, 0 ≤ i ∧ i < SH ∧ c = tileCall l i (u8 y % 32) ry i := by
  obtain ⟨_, _, _, hh0, hh⟩ := hl
  have er : i16 ry = ry := i16_id hr0 hr1
  have eh : u16 (l.height - 1) = l.height - 1 := u16_id (by omega) (by omega)
  simp only [Level_drawRow, er, eh, VRAM_TILES_V]
  by_cases hneg : ry < 0
  · simp only [hneg, true_or, if_true, List.not_mem_nil, false_iff]
    rintro ⟨⟨h, _⟩, _⟩
    omega
  · have eur : u16 ry = ry := u16_id (by omega) (by omega)
    rw [eur]
    by_cases hbig : ry > l.height - 1
    · simp only [hbig, or_true, if_true, List.not_mem_nil, false_iff]
      rintro ⟨⟨_, h⟩, _⟩
      omega
    · rw [if_neg (by tauto), vt_mem_rowLoop]
      constructor
      · rintro ⟨j, h1, h2, rfl⟩
        exact ⟨⟨by omega, by omega⟩, j, h1, by omega, rfl⟩
      · rintro ⟨_, i, h1, h2, rfl⟩
        exact ⟨i, h1, by omega, rfl⟩

theorem vt_mem_fillLoop (SH : Nat) (l : LEVEL) (cyt : Int) (c : TileCall) :
    ∀ (n : Nat) (i : Int),
      (c ∈ Camera_fillVram.loop SH l cyt n i ↔
        ∃ j, i ≤ j ∧ j < i + n ∧ c ∈ Level_drawRow SH l (cyt + j) (cyt + j)) := by
  intro n
  induction n with
  | zero =>
    intro i
    simp only [Camera_fillVram.loop, List.not_mem_nil, false_iff]
    rintro ⟨j, h1, h2, _⟩
    simp at h2
    omega
  | succ n ih =>
    intro i
    simp only [Camera_fillVram.loop, List.mem_append, ih (i + 1)]
    constructor
    · rintro (h | ⟨j, h1, h2, h3⟩)
      · exact ⟨i, le_refl _, by push_cast; omega, h⟩
      · exact ⟨j, by omega, by push_cast; omega, h3⟩
    · rintro ⟨j, h1, h2, h3⟩
      push_cast at h2
      by_cases hji : j = i
      · subst hji; exact Or.inl h3
      · exact Or.inr ⟨j, by omega, by omega, h3⟩

theorem vt_moveTo_spec (SV : Nat) (c : CAMERA) (y : Int)
    (hSV : (SV : Int) ≤ c.level.height) (hh : c.level.height ≤ 255) :
    (Camera_moveTo SV c y).y = min (max (i16 y) 0) ((c.level.height - SV) * 8) ∧
    (Camera_moveTo SV c y).level = c.level := by
  simp only [Camera_moveTo, TILE_HEIGHT]
  exact ⟨clamp_axis _ _ _ hSV hh, trivial⟩

theorem vt_update_vram (SH : Nat) (c : CAMERA) (w : Hw) :
    (Camera_update SH c w).vram = paintAll w.vram (Camera_update.yCalls SH c w.scrollY) := by
  simp only [Camera_update, Hw.setTiles]

end Vert

namespace HorizVert

theorem drawRow_restrict (SH : Nat) {l : LEVEL} (hl : LevelOK l) (hSH : (SH : Int) ≤ l.width)
    (hSH30 : SH ≤ 30) (y ry : Int) (hr0 : -32768 ≤ ry) (hr1 : ry ≤ 32767) :
    (∀ c ∈ Vert.Level_drawRow SH l y ry, c ∈ Level_drawRow l 0 y ry) ∧
    (∀ d ∈ Level_drawRow l 0 y ry, 0 ≤ d.x ∧ d.x < SH →
      d ∈ Vert.Level_drawRow SH l y ry) := by
  have hw := hl.width_pos
  constructor
  · intro c hc
    rw [Vert.vt_mem_drawRow SH hl y ry hr0 hr1] at hc
    obtain ⟨hg, i, i0, i1, rfl⟩ := hc
    rw [mem_drawRow hl 0 y ry (le_refl _) (by omega) hr0 hr1]
    refine ⟨hg, i, by omega, by omega, i0, by omega, ?_⟩
    rw [show i % 32 = i by omega]
  · intro d hd hx
    rw [mem_drawRow hl 0 y ry (le_refl _) (by omega) hr0 hr1] at hd
    obtain ⟨hg, wx, a1, a2, a3, a4, rfl⟩ := hd
    rw [tileCall_x] at hx
    rw [Vert.vt_mem_drawRow SH hl y ry hr0 hr1]
    refine ⟨hg, wx, a3, by omega, ?_⟩
    rw [show wx % 32 = wx by omega]

theorem yCalls_restrict (SH : Nat) {SV : Nat} {c : CAMERA} (hl : LevelOK c.level)
    (hc : Clamped SH SV c) (hx : c.x = 0) (hSH : (SH : Int) ≤ c.level.width)
    (hSH30 : SH ≤ 30) (prevY : Int) :
    (∀ d ∈ Vert.Camera_update.yCalls SH ⟨c.y, c.level⟩ prevY,
      d ∈ Camera_update.yCalls c prevY) ∧
    (∀ d ∈ Camera_update.yCalls c prevY, 0 ≤ d.x ∧ d.x < SH →
      d ∈ Vert.Camera_update.yCalls SH ⟨c.y, c.level⟩ prevY) := by
  obtain ⟨e1, e2, h1, h2, h3, h4⟩ := cam_tile hl hc
  have hht := hl.height_le
  have e0 : c.x / 8 = 0 := by omega
  simp only [Camera_update.yCalls, Vert.Camera_update.yCalls, e1, e2, e0]
  by_cases hcr : band prevY (bnot (TILE_HEIGHT - 1)) ≠ band (u8 c.y) (bnot (TILE_HEIGHT - 1))
  · rw [if_pos hcr, if_pos hcr]
    by_cases hfw : u8 (u8 c.y - prevY) < u8 (prevY - u8 c.y)
    · rw [if_pos hfw, if_pos hfw]
      exact drawRow_restrict SH hl hSH hSH30 _ _ (by omega) (by omega)
    · rw [if_neg hfw, if_neg hfw]
      exact drawRow_restrict SH hl hSH hSH30 _ _ (by omega) (by omega)
  · rw [if_neg hcr, if_neg hcr]
    exact ⟨fun d hd => hd, fun d hd _ => hd⟩

/-- At the origin, the row-wise fill of `vert.c` and the column-wise fill of
`horiz-vert.c` issue the same calls on buffer columns `0..SCREEN_TILES_H-1`. -/
theorem fillY_restrict (SH SV : Nat) {l : LEVEL} (hl : LevelOK l)
    (hc : Clamped SH SV ⟨0, 0, l⟩) (hSH : (SH : Int) ≤ l.width) (hSH30 : SH ≤ 30) :
    (∀ d ∈ Vert.Camera_fillVram.calls SH ⟨0, l⟩, d ∈ Camera_fillVram.calls ⟨0, 0, l⟩) ∧
    (∀ d ∈ Camera_fillVram.calls ⟨0, 0, l⟩, 0 ≤ d.x ∧ d.x < SH →
      d ∈ Vert.Camera_fillVram.calls SH ⟨0, l⟩) := by
  have ec : i16 (Int.tdiv 0 TILE_HEIGHT) = 0 := by decide
  have en : (VRAM_TILES_V - 2).toNat = 30 := by decide
  have hht := hl.height_le
  constructor
  · intro d hd
    simp only [Vert.Camera_fillVram.calls, ec, en, List.mem_append, Vert.vt_mem_fillLoop] at hd
    rcases hd with (⟨j, j0, j1, hd⟩ | hd) | hd
    · rw [Vert.vt_mem_drawRow SH hl _ _ (by omega) (by push_cast at j1; omega)] at hd
      obtain ⟨⟨g0, g1⟩, i, i0, i1, rfl⟩ := hd
      push_cast at j1
      have hm : InMap l i (0 + j) := ⟨i0, by omega, g0, g1⟩
      have := fill_cover (c := ⟨0, 0, l⟩) hl hc i (0 + j) hm
        ⟨by show (0:Int) / 8 - 2 ≤ i; omega, by show i ≤ (0:Int) / 8 + 29; omega,
          by show (0:Int) / 8 - 2 ≤ 0 + j; omega, by show 0 + j ≤ (0:Int) / 8 + 29; omega⟩
      rw [show i % 32 = i by omega] at this
      rw [show u8 (0 + j) % 32 = (0 + j) % 32 by unfold u8; omega]
      exact this
    · rw [Vert.vt_mem_drawRow SH hl _ _ (by norm_num) (by norm_num)] at hd
      obtain ⟨⟨g0, _⟩, _⟩ := hd
      norm_num at g0
    · rw [Vert.vt_mem_drawRow SH hl _ _ (by norm_num) (by norm_num)] at hd
      obtain ⟨⟨g0, _⟩, _⟩ := hd
      norm_num at g0
  · intro d hd hx
    have ha : Addressed l 0 0 d := fill_addressed hl hc d hd
    obtain ⟨wx, wy, ⟨m1, m2, m3, m4⟩, ⟨w1, w2, w3, w4⟩, rfl⟩ := ha
    rw [tileCall_x] at hx
    simp only [Vert.Camera_fillVram.calls, ec, en, List.mem_append, Vert.vt_mem_fillLoop]
    refine Or.inl (Or.inl ⟨wy, m3, by norm_num; omega, ?_⟩)
    rw [Vert.vt_mem_drawRow SH hl _ _ (by omega) (by omega)]
    refine ⟨⟨by omega, by omega⟩, wx, m1, by omega, ?_⟩
    rw [show (0:Int) + wy = wy by ring, show u8 wy % 32 = wy % 32 by unfold u8; omega,
      show wx % 32 = wx by omega]

theorem vt_cam_eta (cv : Vert.CAMERA) (c : CAMERA) (hy : cv.y = c.y)
    (hl : cv.level = c.level) : cv = ⟨c.y, c.level⟩ := by
  cases cv
  simp only at hy hl
  rw [hy, hl]

theorem simY_start (SH SV : Nat) (m : Flash) (w : Hw) (hl : LevelOK (Level_initFromMap m))
    (hSH : (SH : Int) ≤ (Level_initFromMap m).width)
    (hSV : (SV : Int) ≤ (Level_initFromMap m).height) (hSH30 : SH ≤ 30) :
    SimY SH SV (Level_initFromMap m) (Vert.start SH m w) (start m w) := by
  have hc : Clamped SH SV ⟨0, 0, Level_initFromMap m⟩ := by
    simp only [Clamped, TILE_WIDTH, TILE_HEIGHT]
    omega
  refine ⟨rfl, rfl, hc, rfl, rfl, ?_, ?_, ?_⟩
  · simp only [start, Vert.start, Camera_fillVram, Vert.Camera_fillVram, Hw.setTiles,
      Camera_init, Vert.Camera_init]
  · simp only [start, Camera_fillVram, Hw.setTiles, Camera_init]
    rfl
  · intro a b a0 a1
    have hr := fillY_restrict SH SV hl hc hSH hSH30
    have e1 : (Vert.start SH m w).2.vram
        = paintAll w.vram (Vert.Camera_fillVram.calls SH ⟨0, Level_initFromMap m⟩) := by
      simp only [Vert.start, Vert.Camera_fillVram, Hw.setTiles, Vert.Camera_init]
    have e2 : (start m w).2.vram
        = paintAll w.vram (Camera_fillVram.calls ⟨0, 0, Level_initFromMap m⟩) := by
      simp only [start, Camera_fillVram, Hw.setTiles, Camera_init]
    rw [e1, e2]
    exact paintAll_agree (fun x _ => 0 ≤ x ∧ x < SH) _ _ _ _ (fun _ _ _ => rfl)
      (addressed_coherent _ (fill_addressed hl hc)) hr.1 hr.2 a b ⟨a0, a1⟩

theorem simY_frame (SH SV : Nat) (l : LEVEL) (hl : LevelOK l) (hSH : (SH : Int) ≤ l.width)
    (hSV : (SV : Int) ≤ l.height) (hSH30 : SH ≤ 30) (sv : Vert.CAMERA × Hw)
    (s : CAMERA × Hw) (h : SimY SH SV l sv s) (y : Int) :
    SimY SH SV l (Vert.frame SH SV sv y) (frame SH SV s (0, y)) := by
  obtain ⟨hlv, hls, hcl, hy, hx, hsy, hsx, hv⟩ := h
  subst hls
  have hsp := moveTo_spec SH SV s.1 0 y hSH hl.width_le hSV hl.height_le
  have hvsp := Vert.vt_moveTo_spec SV sv.1 y (by rw [hlv]; exact hSV)
    (by rw [hlv]; exact hl.height_le)
  have hc := moveTo_clamped SH SV s.1 0 y hSH hl.width_le hSV hl.height_le
  have hl1 : LevelOK (Camera_moveTo SH SV s.1 0 y).level := by rw [hsp.2.2]; exact hl
  have hy1 : (Vert.Camera_moveTo SV sv.1 y).y = (Camera_moveTo SH SV s.1 0 y).y := by
    rw [hvsp.1, hsp.2.1, hlv]
  have hx1 : (Camera_moveTo SH SV s.1 0 y).x = 0 := by
    rw [hsp.1, i16_id (by norm_num) (by norm_num)]
    have := hl.width_le
    omega
  have heta := vt_cam_eta (Vert.Camera_moveTo SV sv.1 y) (Camera_moveTo SH SV s.1 0 y) hy1
    (by rw [hvsp.2, hsp.2.2, hlv])
  have hr := yCalls_restrict SH hl1 hc hx1 (by rw [hsp.2.2]; exact hSH) hSH30
    s.2.scrollY
  refine ⟨by show (Vert.Camera_moveTo SV sv.1 y).level = s.1.level; rw [hvsp.2, hlv],
    hsp.2.2, hc, hy1, hx1, ?_, ?_, ?_⟩
  · show (Vert.Camera_update SH (Vert.Camera_moveTo SV sv.1 y) sv.2).scrollY
      = (Camera_update (Camera_moveTo SH SV s.1 0 y) s.2).scrollY
    rw [Vert.vt_update_scroll, (update_scroll _ _).2, hy1]
  · show (Camera_update (Camera_moveTo SH SV s.1 0 y) s.2).scrollX = 0
    rw [(update_scroll _ _).1, hx1]
    rfl
  · intro a b a0 a1
    show (Vert.Camera_update SH (Vert.Camera_moveTo SV sv.1 y) sv.2).vram a b
      = (Camera_update (Camera_moveTo SH SV s.1 0 y) s.2).vram a b
    rw [Vert.vt_update_vram, update_vram, hsx, xCalls_zero _ hx1, List.nil_append, heta, hsy]
    exact paintAll_agree (fun x _ => 0 ≤ x ∧ x < SH) _ _ _ _
      (fun a b ha => hv a b ha.1 ha.2)
      (addressed_coherent _ (yCalls_addressed hl1 hc _)) hr.1 hr.2 a b ⟨a0, a1⟩

theorem simY_frames (SH SV : Nat) (l : LEVEL) (hl : LevelOK l) (hSH : (SH : Int) ≤ l.width)
    (hSV : (SV : Int) ≤ l.height) (hSH30 : SH ≤ 30) (ys : List Int) :
    ∀ (sv : Vert.CAMERA × Hw) (s : CAMERA × Hw), SimY SH SV l sv s →
      SimY SH SV l (Vert.frames SH SV sv ys) (framesY SH SV s ys) := by
  induction ys with
  | nil => intro sv s h; exact h
  | cons y ys ih =>
    intro sv s h
    exact ih _ _ (simY_frame SH SV l hl hSH hSV hSH30 sv s h y)

end HorizVert


/-- C13. The single-axis programs are restrictions of the two-axis program: on a
well-formed level with `SCREEN_TILES_H <= min(width, 30)` and
`SCREEN_TILES_V <= min(height, 30)`, for every sequence of X targets and after every
frame, `horiz.c` and `horiz-vert.c` with the Y target held at 0, started from the same
kernel state, have the same camera `x`, the same `Screen.scrollX` and the same VRAM in rows
`0..SCREEN_TILES_V-1`; symmetrically `vert.c` and `horiz-vert.c` with the X target held at
0 have the same camera `y`, `Screen.scrollY` and VRAM in columns `0..SCREEN_TILES_H-1`. -/
theorem C13_single_axis_refinement (SCREEN_TILES_H SCREEN_TILES_V : Nat) (map : Flash)
    (w : Hw) (ts : List Int)
    (hw0 : 0 < (Level_initFromMap map).width) (hh0 : 0 < (Level_initFromMap map).height)
    (hSH : (SCREEN_TILES_H : Int) ≤ (Level_initFromMap map).width)
    (hSV : (SCREEN_TILES_V : Int) ≤ (Level_initFromMap map).height)
    (hSH30 : SCREEN_TILES_H ≤ 30) (hSV30 : SCREEN_TILES_V ≤ 30) :
    ∀ k : Nat,
      (let sh := Horiz.frames SCREEN_TILES_H SCREEN_TILES_V
          (Horiz.start SCREEN_TILES_V map w) (ts.take k)
       let s := HorizVert.framesX SCREEN_TILES_H SCREEN_TILES_V (HorizVert.start map w)
          (ts.take k)
       sh.1.x = s.1.x ∧ sh.2.scrollX = s.2.scrollX ∧
       ∀ a b : Int, 0 ≤ b → b < SCREEN_TILES_V → sh.2.vram a b = s.2.vram a b) ∧
      (let sv := Vert.frames SCREEN_TILES_H SCREEN_TILES_V
          (Vert.start SCREEN_TILES_H map w) (ts.take k)
       let s := HorizVert.framesY SCREEN_TILES_H SCREEN_TILES_V (HorizVert.start map w)
          (ts.take k)
       sv.1.y = s.1.y ∧ sv.2.scrollY = s.2.scrollY ∧
       ∀ a b : Int, 0 ≤ a → a < SCREEN_TILES_H → sv.2.vram a b = s.2.vram a b) := by
  intro k
  have hl := levelOK_init map hw0 hh0
  have hX := HorizVert.simX_frames SCREEN_TILES_H SCREEN_TILES_V _ hl hSH hSV hSV30 (ts.take k)
    _ _ (HorizVert.simX_start SCREEN_TILES_H SCREEN_TILES_V map w hl hSH hSV hSV30)
  have hY := HorizVert.simY_frames SCREEN_TILES_H SCREEN_TILES_V _ hl hSH hSV hSH30 (ts.take k)
    _ _ (HorizVert.simY_start SCREEN_TILES_H SCREEN_TILES_V map w hl hSH hSV hSH30)
  obtain ⟨_, _, _, x1, _, x2, _, x3⟩ := hX
  obtain ⟨_, _, _, y1, _, y2, _, y3⟩ := hY
  exact ⟨⟨x1, x2, x3⟩, ⟨y1, y2, y3⟩⟩

theorem C13_single_axis_refinement_witness :
    (((28 : Nat) : Int) ≤ (Level_initFromMap demoMap).width ∧ (28 : Nat) ≤ 30) ∧
    (Horiz.frames 28 28 (Horiz.start 28 demoMap demoHw) ([8, 300, -4].take 3)).2.vram 1 27
      = (HorizVert.framesX 28 28 (HorizVert.start demoMap demoHw) ([8, 300, -4].take 3)).2.vram
          1 27 :=
  ⟨⟨by decide, by decide⟩,
   (C13_single_axis_refinement 28 28 demoMap demoHw [8, 300, -4] (by decide) (by decide)
      (by decide) (by decide) (by decide) (by decide) 3).1.2.2 1 27 (by decide) (by decide)⟩

/-- C14. Every paint is toroidally addressed (`horiz-vert.c`): on a well-formed level with
a clamped camera, each `SetTile(bx, by, t)` issued by `Camera_fillVram` or `Camera_update`
has an in-map world coordinate `(wx, wy)` of the window with `bx = wx mod 32`,
`by = wy mod 32` and `t = Level_getTileAt(wy*width + wx)`; in particular every call of the
backward column redraw (buffer coordinate `cxt+30` truncated to uint8, world column
`cxt-2`) writes to buffer column `(cxt-2) mod 32`. -/
theorem C14_toroidal_addressing (SCREEN_TILES_H SCREEN_TILES_V : Nat) (c : HorizVert.CAMERA)
    (w : Hw) (hl : LevelOK c.level)
    (hc : HorizVert.Clamped SCREEN_TILES_H SCREEN_TILES_V c) :
    (∀ d ∈ HorizVert.Camera_fillVram.calls c ++
        (HorizVert.Camera_update.xCalls c w.scrollX ++ HorizVert.Camera_update.yCalls c w.scrollY),
      ∃ wx wy : Int, InMap c.level wx wy ∧ InWindow (c.x / 8) (c.y / 8) wx wy ∧
        d.x = wx % 32 ∧ d.y = wy % 32 ∧ d.row = wy ∧ d.col = wx ∧
        d.tile = Level_getTileAt c.level (wy * c.level.width + wx)) ∧
    (∀ d ∈ HorizVert.Level_drawColumn c.level (c.x / 8 + 30) (c.y / 8) (c.x / 8 - 2),
      d.x = (c.x / 8 - 2) % 32 ∧ d.col = c.x / 8 - 2) := by
  constructor
  · intro d hd
    have ha : Addressed c.level (c.x / 8) (c.y / 8) d := by
      rcases List.mem_append.1 hd with h | h
      · exact HorizVert.fill_addressed hl hc d h
      · rcases List.mem_append.1 h with h | h
        · exact HorizVert.xCalls_addressed hl hc _ d h
        · exact HorizVert.yCalls_addressed hl hc _ d h
    obtain ⟨wx, wy, hm, hwin, rfl⟩ := ha
    refine ⟨wx, wy, hm, hwin, rfl, rfl, rfl, rfl, ?_⟩
    rw [(tileCall_inMap hl hm _ _).2, getTileAt_inMap hl hm]
  · obtain ⟨e1, e2, h1, h2, h3, h4⟩ := HorizVert.cam_tile hl hc
    have hwd := hl.width_le
    intro d hd
    rw [HorizVert.mem_drawColumn hl _ _ _ h3 (by omega) (by omega) (by omega)] at hd
    obtain ⟨_, wy, _, _, _, _, rfl⟩ := hd
    refine ⟨?_, rfl⟩
    show u8 (c.x / 8 + 30) % 32 = (c.x / 8 - 2) % 32
    unfold u8
    omega

set_option maxRecDepth 100000 in
theorem backward_redraw_paints :
    (HorizVert.Level_drawColumn demoCamBack.level (demoCamBack.x / 8 + 30)
      (demoCamBack.y / 8) (demoCamBack.x / 8 - 2)).length = 32 ∧
    HorizVert.Camera_update.xCalls demoCamBack demoHwBack.scrollX
      = HorizVert.Level_drawColumn demoCamBack.level (demoCamBack.x / 8 + 30)
          (demoCamBack.y / 8) (demoCamBack.x / 8 - 2) := by
  constructor
  · decide
  · decide

theorem C14_toroidal_addressing_witness :
    (HorizVert.Clamped 28 28 demoCamBack ∧
      (HorizVert.Level_drawColumn demoCamBack.level (demoCamBack.x / 8 + 30)
        (demoCamBack.y / 8) (demoCamBack.x / 8 - 2)).length = 32 ∧
      HorizVert.Camera_update.xCalls demoCamBack demoHwBack.scrollX
        = HorizVert.Level_drawColumn demoCamBack.level (demoCamBack.x / 8 + 30)
            (demoCamBack.y / 8) (demoCamBack.x / 8 - 2)) ∧
    (∀ d ∈ HorizVert.Camera_fillVram.calls demoCamBack ++
        (HorizVert.Camera_update.xCalls demoCamBack demoHwBack.scrollX
          ++ HorizVert.Camera_update.yCalls demoCamBack demoHwBack.scrollY),
      ∃ wx wy : Int, InMap demoCamBack.level wx wy ∧
        InWindow (demoCamBack.x / 8) (demoCamBack.y / 8) wx wy ∧
        d.x = wx % 32 ∧ d.y = wy % 32 ∧ d.row = wy ∧ d.col = wx ∧
        d.tile = Level_getTileAt demoCamBack.level (wy * demoCamBack.level.width + wx)) ∧
    (∀ d ∈ HorizVert.Level_drawColumn demoCamBack.level (demoCamBack.x / 8 + 30)
        (demoCamBack.y / 8) (demoCamBack.x / 8 - 2),
      d.x = (demoCamBack.x / 8 - 2) % 32 ∧ d.col = demoCamBack.x / 8 - 2) :=
  have hc : HorizVert.Clamped 28 28 demoCamBack := ⟨by decide, by decide, by decide, by decide⟩
  ⟨⟨hc, backward_redraw_paints.1, backward_redraw_paints.2⟩,
   (C14_toroidal_addressing 28 28 demoCamBack demoHwBack HorizVert.demo_levelOK hc).1,
   (C14_toroidal_addressing 28 28 demoCamBack demoHwBack HorizVert.demo_levelOK hc).2⟩

/-- C19. Display origin agrees with the toroidal address: for every non-negative camera
position, after `Camera_update` `Screen.scrollX = c.x mod 256` and
`Screen.scrollY = c.y mod 256`, hence `scrollX / 8 = (c.x / 8) mod 32`,
`scrollX mod 8 = c.x mod 8`, and likewise for Y (`Camera_init` latches the origin the same
way). -/
theorem C19_display_origin (c : HorizVert.CAMERA) (w : Hw) (hx : 0 ≤ c.x) (hy : 0 ≤ c.y) :
    let w1 := HorizVert.Camera_update c w
    (w1.scrollX = c.x % 256 ∧ w1.scrollY = c.y % 256) ∧
    (w1.scrollX / TILE_WIDTH = (c.x / TILE_WIDTH) % VRAM_TILES_H ∧
      w1.scrollX % TILE_WIDTH = c.x % TILE_WIDTH) ∧
    (w1.scrollY / TILE_HEIGHT = (c.y / TILE_HEIGHT) % VRAM_TILES_V ∧
      w1.scrollY % TILE_HEIGHT = c.y % TILE_HEIGHT) ∧
    (c.x / TILE_WIDTH = Int.tdiv c.x TILE_WIDTH ∧ c.y / TILE_HEIGHT = Int.tdiv c.y TILE_HEIGHT) ∧
    ((HorizVert.Camera_init c.level w).2.scrollX = 0 ∧
      (HorizVert.Camera_init c.level w).2.scrollY = 0) := by
  intro w1
  have e1 : w1.scrollX = c.x % 256 := (HorizVert.update_scroll c w).1
  have e2 : w1.scrollY = c.y % 256 := (HorizVert.update_scroll c w).2
  simp only [TILE_WIDTH, TILE_HEIGHT, VRAM_TILES_H, VRAM_TILES_V, e1, e2, tdiv8 _ hx,
    tdiv8 _ hy]
  refine ⟨⟨trivial, trivial⟩, ⟨by omega, by omega⟩, ⟨by omega, by omega⟩, ⟨trivial, trivial⟩,
    rfl, rfl⟩

theorem C19_display_origin_witness :
    ((0 : Int) ≤ 300 ∧ (0 : Int) ≤ 520) ∧
    (HorizVert.Camera_update ⟨300, 520, Level_initFromMap demoMap⟩ demoHw).scrollX = 300 % 256 :=
  ⟨⟨by decide, by decide⟩,
   (C19_display_origin ⟨300, 520, Level_initFromMap demoMap⟩ demoHw (by decide)
      (by decide)).1.1⟩


theorem getTileAt_u16 (l : LEVEL) (k : Int) : Level_getTileAt l (u16 k) = Level_getTileAt l k := by
  unfold Level_getTileAt
  rw [show u16 (u16 k) = u16 k by unfold u16; omega]

theorem hz_loop_eq_map (l : LEVEL) (tx rx : Int) :
    ∀ (n : Nat) (i : Int),
      Horiz.Level_drawColumn.loop l tx rx n i
        = (List.range n).map (fun j : Nat => tileCall l tx (i + j) (i + j) rx) := by
  intro n
  induction n with
  | zero => intro i; rfl
  | succ n ih =>
    intro i
    rw [List.range_succ_eq_map, List.map_cons, List.map_map]
    simp only [Horiz.Level_drawColumn.loop, ih (i + 1)]
    congr 1
    · simp
    · apply List.map_congr_left
      intro j _
      simp only [Function.comp, Nat.succ_eq_add_one]
      push_cast
      rw [show i + 1 + (j : Int) = i + ((j : Int) + 1) by ring]

theorem guard_skip (dim r : Int) (hd0 : 1 ≤ dim) (hd1 : dim ≤ 65535) (hr0 : -32768 ≤ r)
    (hr1 : r ≤ 32767) (hout : r < 0 ∨ dim ≤ r) :
    i16 r < 0 ∨ u16 (i16 r) > u16 (dim - 1) := by
  rw [i16_id hr0 hr1, u16_id (show (0 : Int) ≤ dim - 1 by omega) (by omega)]
  rcases hout with h | h
  · exact Or.inl h
  · exact Or.inr (by rw [u16_id (by omega) (by omega)]; omega)

/-- C18. Out-of-map strips are skipped: for a level with `1 <= width` (a uint16) and an
int16 `realX` with `realX < 0` or `realX >= width`, `Level_drawColumn` (of `horiz-vert.c`
and of `horiz.c`) issues no `SetTile` call and no `Level_getTileAt` query and leaves VRAM
unchanged; likewise `Level_drawRow` (of `horiz-vert.c` and of `vert.c`) for `1 <= height`
and `realY < 0` or `realY >= height`.  Conversely, in `horiz.c`, for `0 <= realX < width`
`Level_drawColumn` paints exactly the `SCREEN_TILES_V` cells `(x mod VRAM_TILES_H, i)`,
`i < SCREEN_TILES_V`, in this order, with `Level_getTileAt(i*width + realX)`. -/
theorem C18_out_of_map_skipped (SCREEN_TILES_H SCREEN_TILES_V : Nat) (l : LEVEL)
    (x y r : Int) (v : VRAM) (hr0 : -32768 ≤ r) (hr1 : r ≤ 32767)
    (hx0 : 0 ≤ x) (hx1 : x ≤ 255) (_hSH : SCREEN_TILES_H ≤ 255) (_hSV : SCREEN_TILES_V ≤ 255) :
    (1 ≤ l.width → l.width ≤ 65535 → (r < 0 ∨ l.width ≤ r) →
      (HorizVert.Level_drawColumn l x y r = [] ∧
        paintAll v (HorizVert.Level_drawColumn l x y r) = v) ∧
      (Horiz.Level_drawColumn SCREEN_TILES_V l x r = [] ∧
        paintAll v (Horiz.Level_drawColumn SCREEN_TILES_V l x r) = v)) ∧
    (1 ≤ l.height → l.height ≤ 65535 → (r < 0 ∨ l.height ≤ r) →
      (HorizVert.Level_drawRow l x y r = [] ∧
        paintAll v (HorizVert.Level_drawRow l x y r) = v) ∧
      (Vert.Level_drawRow SCREEN_TILES_H l y r = [] ∧
        paintAll v (Vert.Level_drawRow SCREEN_TILES_H l y r) = v)) ∧
    (1 ≤ l.width → l.width ≤ 65535 → 0 ≤ r → r < l.width →
      Horiz.Level_drawColumn SCREEN_TILES_V l x r
        = (List.range SCREEN_TILES_V).map
            (fun i : Nat => tileCall l (x % VRAM_TILES_H) i i r) ∧
      (Horiz.Level_drawColumn SCREEN_TILES_V l x r).length = SCREEN_TILES_V ∧
      ∀ i : Nat, i < SCREEN_TILES_V →
        (tileCall l (x % VRAM_TILES_H) i i r).x = x % VRAM_TILES_H ∧
        (tileCall l (x % VRAM_TILES_H) i i r).y = i ∧
        (tileCall l (x % VRAM_TILES_H) i i r).tile = Level_getTileAt l (i * l.width + r)) := by
  refine ⟨?_, ?_, ?_⟩
  · intro hw0 hw1 hout
    have hg := guard_skip l.width r hw0 hw1 hr0 hr1 hout
    have e1 : HorizVert.Level_drawColumn l x y r = [] := by
      simp only [HorizVert.Level_drawColumn]
      rw [if_pos hg]
    have e2 : Horiz.Level_drawColumn SCREEN_TILES_V l x r = [] := by
      simp only [Horiz.Level_drawColumn]
      rw [if_pos hg]
    exact ⟨⟨e1, by rw [e1]; rfl⟩, ⟨e2, by rw [e2]; rfl⟩⟩
  · intro hh0 hh1 hout
    have hg := guard_skip l.height r hh0 hh1 hr0 hr1 hout
    have e1 : HorizVert.Level_drawRow l x y r = [] := by
      simp only [HorizVert.Level_drawRow]
      rw [if_pos hg]
    have e2 : Vert.Level_drawRow SCREEN_TILES_H l y r = [] := by
      simp only [Vert.Level_drawRow]
      rw [if_pos hg]
    exact ⟨⟨e1, by rw [e1]; rfl⟩, ⟨e2, by rw [e2]; rfl⟩⟩
  · intro hw0 hw1 h0 hlt
    have hg : ¬ (i16 r < 0 ∨ u16 (i16 r) > u16 (l.width - 1)) := by
      rw [i16_id hr0 hr1, u16_id h0 (by omega),
        u16_id (show (0 : Int) ≤ l.width - 1 by omega) (by omega)]
      omega
    have e : Horiz.Level_drawColumn SCREEN_TILES_V l x r
        = (List.range SCREEN_TILES_V).map
            (fun i : Nat => tileCall l (x % VRAM_TILES_H) i i r) := by
      simp only [Horiz.Level_drawColumn]
      rw [if_neg hg, hz_loop_eq_map, i16_id hr0 hr1,
        show u8 x = x by unfold u8; omega]
      apply List.map_congr_left
      intro j _
      rw [zero_add]
    refine ⟨e, by rw [e, List.length_map, List.length_range], ?_⟩
    intro i _
    exact ⟨rfl, rfl, getTileAt_u16 l _⟩

theorem C18_out_of_map_skipped_witness :
    ((1 : Int) ≤ (Level_initFromMap demoMap).width ∧
      ((40 : Int) < 0 ∨ (Level_initFromMap demoMap).width ≤ 40)) ∧
    HorizVert.Level_drawColumn (Level_initFromMap demoMap) 8 0 40 = [] :=
  ⟨⟨by decide, by decide⟩,
   ((C18_out_of_map_skipped 28 28 (Level_initFromMap demoMap) 8 0 40 (fun _ _ => 0)
      (by decide) (by decide) (by decide) (by decide) (by decide) (by decide)).1 (by decide)
      (by decide) (by decide)).1.1⟩


theorem demo80_levelOK : LevelOK (Level_initFromMap demoMap80) :=
  ⟨rfl, by decide, by decide, by decide, by decide⟩

/-- C20. The one-tile-per-refresh precondition is necessary (`horiz.c`,
`SCREEN_TILES_H = 28`): on the well-formed 80 x 40 demo level, from the filled origin state
a single `Camera_moveTo` to `x = 32` displaces the camera by four tiles; the following
`Camera_update` repaints at most one buffer column, and afterwards world column 32 of the
visible window `[cxt, cxt + SCREEN_TILES_H]` has `VRAM[32 mod 32][0]` different from the
map tile `0*width + 32` (the cell still holds world column 0). -/
theorem C20_precondition_necessary :
    ∃ (map : Flash) (target wx i : Int),
      (0 < (Level_initFromMap map).width ∧ 0 < (Level_initFromMap map).height ∧
        ((28 : Nat) : Int) ≤ (Level_initFromMap map).width ∧
        ((28 : Nat) : Int) ≤ (Level_initFromMap map).height) ∧
      ∀ w0 : Hw,
        let s0 := Horiz.start 28 map w0
        let c1 := Horiz.Camera_moveTo 28 s0.1 target
        let w1 := Horiz.Camera_update 28 c1 s0.2
        TILE_WIDTH < c1.x - s0.1.x ∧
        (∃ bc : Int, ∀ d ∈ Horiz.Camera_update.xCalls 28 c1 s0.2.scrollX, d.x = bc) ∧
        (c1.x / 8 ≤ wx ∧ wx ≤ c1.x / 8 + 28 ∧ wx < (Level_initFromMap map).width) ∧
        (0 ≤ i ∧ i < 28) ∧
        w1.vram (wx % 32) i ≠ pgm_read_byte map (2 + i * (Level_initFromMap map).width + wx) := by
  refine ⟨demoMap80, 32, 32, 0, ⟨by decide, by decide, by decide, by decide⟩, ?_⟩
  intro w0 s0 c1 w1
  have hl := demo80_levelOK
  have hs0x : s0.1.x = 0 := rfl
  have hc1x : c1.x = 32 := by
    show (Horiz.Camera_moveTo 28 ⟨0, Level_initFromMap demoMap80⟩ 32).x = 32
    decide
  have hc1 : c1 = ⟨32, Level_initFromMap demoMap80⟩ := by
    have e : c1 = ⟨c1.x, c1.level⟩ := rfl
    rw [e, hc1x]
    rfl
  have hsx : s0.2.scrollX = 0 := by
    simp only [s0, Horiz.start, Horiz.Camera_fillVram, Hw.setTiles, Horiz.Camera_init]
    rfl
  have hstrip := (Horiz.hz_xCalls_strip 28 c1 s0.2).2
  have hcol : Horiz.redrawnBufferColumn c1 s0.2 = 1 := by
    simp only [Horiz.redrawnBufferColumn, hsx, hc1]
    decide
  have hfill : s0.2.vram (0 % 32) 0
      = pgm_read_byte demoMap80 (2 + 0 * (Level_initFromMap demoMap80).width + 0) :=
    (Horiz.hz_start_inv 28 28 demoMap80 w0 hl (by decide) (by decide)).consistent 0 0
      (by decide) (by decide) (by show (0 : Int) / 8 - 2 ≤ 0; decide)
      (by show (0 : Int) ≤ 0 / 8 + 29; decide) (by decide) (by decide)
  have hw1 : w1.vram (32 % 32) 0 = s0.2.vram (0 % 32) 0 := by
    show (Horiz.Camera_update 28 c1 s0.2).vram (32 % 32) 0 = _
    rw [Horiz.hz_update_vram]
    apply paintAll_frame
    intro d hd hcell
    have := hstrip d hd
    rw [hcol] at this
    rw [this] at hcell
    exact absurd hcell.1 (by decide)
  refine ⟨by rw [hc1x, hs0x]; decide, ⟨_, hstrip⟩, by rw [hc1x]; decide, by decide, ?_⟩
  rw [hw1, hfill]
  decide

/-! ## The strip repainted by a crossing in the horizontal program -/

namespace HorizVert

/-- With a screen of at most 29 tiles per axis, every visible tile lies in the window kept
for the camera tile. -/
theorem visible_inWindow {SH SV : Nat} {c : CAMERA}
    (hSH : SH ≤ 29) (hSV : SV ≤ 29) {wx wy : Int} (hv : Visible SH SV c wx wy) :
    InWindow (c.x / 8) (c.y / 8) wx wy := by
  obtain ⟨⟨a1, a2⟩, ⟨b1, b2⟩⟩ := hv
  simp only [TILE_WIDTH, TILE_HEIGHT] at a1 a2 b1 b2
  refine ⟨by omega, by omega, by omega, by omega⟩

theorem demo30_slow : SlowMoves 30 28 (start demoMap demoHw).1 [(1, 0)] := by
  refine ⟨⟨?_, ?_⟩, ⟨?_, ?_⟩, trivial⟩ <;> decide

/-- C1 (as stated, refuted). The claim includes every tile of the visible window.  With
`SCREEN_TILES_H = 30` on the 40 x 40 demo level, one frame moving the camera to `(1, 0)`
is a single-unit move; world tile `(30, 0)` is in the map and visible (the screen shows
units `1 .. 240`), but VRAM cell `(30, 0)` was never painted: it still holds the initial 0
while the map byte at `2 + 0*40 + 30` is 32. -/
theorem C1_visible_window_counterexample :
    (0 < (Level_initFromMap demoMap).width ∧ 0 < (Level_initFromMap demoMap).height ∧
      ((30 : Nat) : Int) ≤ (Level_initFromMap demoMap).width ∧
      ((28 : Nat) : Int) ≤ (Level_initFromMap demoMap).height) ∧
    SlowMoves 30 28 (start demoMap demoHw).1 [(1, 0)] ∧
    InMap (Level_initFromMap demoMap) 30 0 ∧
    Visible 30 28 (frames 30 28 (start demoMap demoHw) [(1, 0)]).1 30 0 ∧
    (frames 30 28 (start demoMap demoHw) [(1, 0)]).2.vram (30 % 32) (0 % 32) = 0 ∧
    pgm_read_byte demoMap (2 + 0 * (Level_initFromMap demoMap).width + 30) = 32 ∧
    (frames 30 28 (start demoMap demoHw) [(1, 0)]).2.vram (30 % 32) (0 % 32)
      ≠ pgm_read_byte demoMap (2 + 0 * (Level_initFromMap demoMap).width + 30) := by
  have hl := demo_levelOK
  have hc0 : Clamped 30 28 ⟨0, 0, Level_initFromMap demoMap⟩ :=
    ⟨by decide, by decide, by decide, by decide⟩
  have hx : Camera_update.xCalls (Camera_moveTo 30 28 ⟨0, 0, Level_initFromMap demoMap⟩ 1 0)
      (u8 0) = [] := by decide
  have hy : Camera_update.yCalls (Camera_moveTo 30 28 ⟨0, 0, Level_initFromMap demoMap⟩ 1 0)
      (u8 0) = [] := by decide
  have hfill : (Camera_fillVram ⟨0, 0, Level_initFromMap demoMap⟩
      (Camera_init (Level_initFromMap demoMap) demoHw).2).vram 30 0 = 0 := by
    rw [fill_vram]
    have hfr := paintAll_frame (Camera_fillVram.calls ⟨0, 0, Level_initFromMap demoMap⟩)
      (Camera_init (Level_initFromMap demoMap) demoHw).2.vram 30 0 (by
        intro d hd hcell
        have ha : Addressed (Level_initFromMap demoMap) 0 0 d := fill_addressed hl hc0 d hd
        obtain ⟨wx, wy, ⟨m1, _, _, _⟩, ⟨_, w2, _, _⟩, rfl⟩ := ha
        have h30 := hcell.1
        rw [tileCall_x] at h30
        omega)
    rw [hfr]
    rfl
  have hv : (frames 30 28 (start demoMap demoHw) [(1, 0)]).2.vram (30 % 32) (0 % 32) = 0 := by
    show (Camera_update (Camera_moveTo 30 28 ⟨0, 0, Level_initFromMap demoMap⟩ 1 0)
      (Camera_fillVram ⟨0, 0, Level_initFromMap demoMap⟩
        (Camera_init (Level_initFromMap demoMap) demoHw).2)).vram 30 0 = 0
    rw [update_vram]
    have e1 : (Camera_fillVram ⟨0, 0, Level_initFromMap demoMap⟩
        (Camera_init (Level_initFromMap demoMap) demoHw).2).scrollX = u8 0 := by
      simp only [Camera_fillVram, Hw.setTiles, Camera_init]
    have e2 : (Camera_fillVram ⟨0, 0, Level_initFromMap demoMap⟩
        (Camera_init (Level_initFromMap demoMap) demoHw).2).scrollY = u8 0 := by
      simp only [Camera_fillVram, Hw.setTiles, Camera_init]
    rw [e1, e2, hx, hy]
    exact hfill
  have hb : pgm_read_byte demoMap (2 + 0 * (Level_initFromMap demoMap).width + 30) = 32 := by
    decide
  refine ⟨⟨by decide, by decide, by decide, by decide⟩, demo30_slow,
    ⟨by decide, by decide, by decide, by decide⟩, ?_, hv, hb, ?_⟩
  · exact ⟨⟨by decide, by decide⟩, ⟨by decide, by decide⟩⟩
  · rw [hv, hb]; decide

/-- C1 (amended). Two-axis consistency under incremental update: from `Camera_init` and
`Camera_fillVram` on a well-formed level at least as large as the screen, after every
`Camera_update` of a sequence of frames that move the camera by at most one tile per axis,
every in-map world tile `(wx, wy)` of the window `cxt-2 .. cxt+29` by `cyt-2 .. cyt+29`
is held by VRAM cell `(wx mod 32, wy mod 32)` and equals map byte `2 + wy*width + wx`.
When `SCREEN_TILES_H <= 29` and `SCREEN_TILES_V <= 29` this covers every in-map tile of the
visible window. -/
theorem C1_two_axis_consistency (SCREEN_TILES_H SCREEN_TILES_V : Nat) (map : Flash) (w : Hw)
    (ts : List (Int × Int))
    (hw0 : 0 < (Level_initFromMap map).width) (hh0 : 0 < (Level_initFromMap map).height)
    (hSH : (SCREEN_TILES_H : Int) ≤ (Level_initFromMap map).width)
    (hSV : (SCREEN_TILES_V : Int) ≤ (Level_initFromMap map).height)
    (hslow : SlowMoves SCREEN_TILES_H SCREEN_TILES_V (start map w).1 ts) :
    ∀ k : Nat,
      let s := frames SCREEN_TILES_H SCREEN_TILES_V (start map w) (ts.take k)
      let l := Level_initFromMap map
      s.1.level = l ∧
      (∀ wx wy : Int, 0 ≤ wx → wx < l.width → 0 ≤ wy → wy < l.height →
        s.1.x / 8 - 2 ≤ wx → wx ≤ s.1.x / 8 + 29 → s.1.y / 8 - 2 ≤ wy → wy ≤ s.1.y / 8 + 29 →
        s.2.vram (wx % 32) (wy % 32) = pgm_read_byte map (2 + wy * l.width + wx)) ∧
      (SCREEN_TILES_H ≤ 29 → SCREEN_TILES_V ≤ 29 →
        ∀ wx wy : Int, 0 ≤ wx → wx < l.width → 0 ≤ wy → wy < l.height →
          Visible SCREEN_TILES_H SCREEN_TILES_V s.1 wx wy →
          s.2.vram (wx % 32) (wy % 32) = pgm_read_byte map (2 + wy * l.width + wx)) := by
  intro k s l
  have hl := levelOK_init map hw0 hh0
  have hinv := frames_inv SCREEN_TILES_H SCREEN_TILES_V l hl hSH hSV (ts.take k) (start map w)
    (start_inv SCREEN_TILES_H SCREEN_TILES_V map w hl hSH hSV)
    (slowMoves_take _ _ ts _ k hslow)
  refine ⟨hinv.level_eq, ?_, ?_⟩
  · intro wx wy a1 a2 a3 a4 b1 b2 b3 b4
    exact hinv.consistent wx wy ⟨a1, a2, a3, a4⟩ ⟨b1, b2, b3, b4⟩
  · intro h29 v29 wx wy a1 a2 a3 a4 hv
    exact hinv.consistent wx wy ⟨a1, a2, a3, a4⟩
      (visible_inWindow h29 v29 hv)

theorem C1_two_axis_consistency_witness :
    (SlowMoves 28 28 (start demoMap demoHw).1 [(8, 8), (7, 16)] ∧ (28 : Nat) ≤ 29 ∧
      Visible 28 28 (frames 28 28 (start demoMap demoHw) ([(8, 8), (7, 16)].take 2)).1 28 29) ∧
    (frames 28 28 (start demoMap demoHw) ([(8, 8), (7, 16)].take 2)).2.vram (5 % 32) (31 % 32)
      = pgm_read_byte demoMap (2 + 31 * (Level_initFromMap demoMap).width + 5) ∧
    (frames 28 28 (start demoMap demoHw) ([(8, 8), (7, 16)].take 2)).2.vram (28 % 32) (29 % 32)
      = pgm_read_byte demoMap (2 + 29 * (Level_initFromMap demoMap).width + 28) :=
  have hvis : Visible 28 28
      (frames 28 28 (start demoMap demoHw) ([(8, 8), (7, 16)].take 2)).1 28 29 :=
    ⟨⟨by decide, by decide⟩, ⟨by decide, by decide⟩⟩
  ⟨⟨demo_slow, by decide, hvis⟩,
   (C1_two_axis_consistency 28 28 demoMap demoHw [(8, 8), (7, 16)] (by decide) (by decide)
      (by decide) (by decide) demo_slow 2).2.1 5 31 (by decide) (by decide) (by decide)
      (by decide) (by decide) (by decide) (by decide) (by decide),
   (C1_two_axis_consistency 28 28 demoMap demoHw [(8, 8), (7, 16)] (by decide) (by decide)
      (by decide) (by decide) demo_slow 2).2.2 (by decide) (by decide) 28 29 (by decide)
      (by decide) (by decide) (by decide) hvis⟩

end HorizVert

end Uzebox
